import Mathlib

/-! # RRT planner on a grid (`src/src/rrt.cpp`, `src/src/utils.cpp`)

A shallow embedding of the `RRT` class and of the `Node` value type.

Numeric conventions of the embedding:

* `int` is `Int` (no overflow is modelled); the conversion `(double)i` of an `int` keeps its
  value (an `int` has at most 32 binary digits, a binary64 number has 53);
* a `double` is the rational number it stands for, and a `double` operation is the exact
  operation followed by `roundDouble`, the rounding to the nearest binary64 number, ties to the
  even significand (IEEE 754 in its default rounding mode; `sqrt` is correctly rounded). Every
  operation is rounded on its own (no fused multiply-add, no extended precision). The exponent
  range is not bounded: no overflow to infinity and no subnormal number is modelled, neither
  is NaN;
* the distances of `FindNearestPoint` and `CheckGoalVisible` (`dist64`), the comparisons with
  `threshold_` and `dist`, and the sums stored in `cost_` are binary64 operations;
* the line test is embedded twice. `CheckObstacle` takes the line arithmetic exactly (`ℚ`),
  the literal `0.000001` being `1/1000000`: this is how the propositions on the line test take
  it, and it is the test that `FindNearestPoint` and `CheckGoalVisible` call here.
  `CheckObstacle64` is the same method with every operation in binary64; the two return the
  same value for coordinates of magnitude at most 4096 (`checkObstacle64_eq`).
-/

namespace RRTPlanner

/-- The number of binary digits of `x`, found by halving `x` at most `fuel` times. -/
def bitsAux : Nat → Nat → Nat
  | 0, _ => 0
  | fuel + 1, x => if x = 0 then 0 else bitsAux fuel (x / 2) + 1

/-- The number of binary digits of `x`: `2^(bits x - 1) <= x < 2^(bits x)` for `x > 0`. -/
def bits (x : Nat) : Nat := bitsAux x x

/-- The power `2^g` for an integer exponent. -/
def pow2 (g : Int) : ℚ :=
  if 0 ≤ g then ((2 ^ g.toNat : Nat) : ℚ) else 1 / ((2 ^ (-g).toNat : Nat) : ℚ)

/-- The integer nearest to `a / b`, the even one of the two when `a / b` lies half way. -/
def roundHalfEven (a b : Nat) : Nat :=
  if 2 * (a % b) < b then a / b
  else if b < 2 * (a % b) then a / b + 1
  else if a / b % 2 = 0 then a / b else a / b + 1

/-- The exponent `g` of the unit in the last place of a binary64 number of the magnitude of
`a / b`: `2^(g+52) <= a / b < 2^(g+53)`, so that `a / b` has 53 binary digits in units
of `2^g`. -/
def ulpExp (a b : Nat) : Int :=
  let e0 : Int := (bits a : Int) - (bits b : Int)
  if pow2 e0 * (b : ℚ) ≤ (a : ℚ) then e0 - 52 else e0 - 53

/-- The binary64 number nearest to `x`, ties to the even significand (the rounding of every
`double` operation); the exponent range is not bounded. -/
def roundDouble (x : ℚ) : ℚ :=
  let a := x.num.natAbs
  let b := x.den
  let g := ulpExp a b
  if x = 0 then 0
  else (x.num.sign : ℚ) * (roundHalfEven (a * 2 ^ (-g).toNat) (b * 2 ^ g.toNat) : ℚ) * pow2 g

/-- The loop of the integer square root: `r` gains the bit `2^i` when its square stays within `x`. -/
def isqrtAux (x : Nat) : Nat → Nat → Nat
  | 0, r => r
  | i + 1, r => if (r + 2 ^ i) * (r + 2 ^ i) ≤ x then isqrtAux x i (r + 2 ^ i) else isqrtAux x i r

/-- The integer square root: the greatest `r` with `r * r <= x`. -/
def isqrt (x : Nat) : Nat := isqrtAux x (bits x / 2 + 1) 0

/-- The integer nearest to the square root of `num / den`, the even one of the two when the
root lies half way. -/
def sqrtRound (num den : Nat) : Nat :=
  let f := isqrt (num / den)
  if 4 * num < (2 * f + 1) * (2 * f + 1) * den then f
  else if (2 * f + 1) * (2 * f + 1) * den < 4 * num then f + 1
  else if f % 2 = 0 then f else f + 1

/-- The function `sqrt` of `<cmath>` on a binary64 argument: the binary64 number nearest to
the square root of `x` (IEEE 754 requires `sqrt` to be correctly rounded). The root has 53
binary digits in units of `2^g`, where `g + 52` is half the binary exponent of `x`. -/
def sqrt64 (x : ℚ) : ℚ :=
  let a := x.num.natAbs
  let b := x.den
  let g := (ulpExp a b + 52) / 2 - 52
  if x ≤ 0 then 0
  else (sqrtRound (a * 4 ^ (-g).toNat) (b * 4 ^ g.toNat) : ℚ) * pow2 g

/-- The sum `a + b` of two `double`s. -/
def fadd (a b : ℚ) : ℚ := roundDouble (a + b)
/-- The difference `a - b` of two `double`s. -/
def fsub (a b : ℚ) : ℚ := roundDouble (a - b)
/-- The product `a * b` of two `double`s. -/
def fmul (a b : ℚ) : ℚ := roundDouble (a * b)
/-- The quotient `a / b` of two `double`s. -/
def fdiv (a b : ℚ) : ℚ := roundDouble (a / b)

/-- A binary64 number, the exponent range not bounded: `m * 2^e` with `|m| < 2^53`. -/
def IsDouble (q : ℚ) : Prop := ∃ (m e : ℤ), |m| < 2 ^ 53 ∧ q = (m : ℚ) * (2 : ℚ) ^ e

/-- The class `Node` of `utils.cpp`; `mkNode` below is its constructor. -/
structure Node where
  x : Int
  y : Int
  cost : ℚ
  h_cost : ℚ
  id : Int
  pid : Int
deriving DecidableEq

/-- The constructor `Node::Node(x, y, cost, h_cost, id, pid)`. -/
def mkNode (x y : Int) (cost h_cost : ℚ) (id pid : Int) : Node :=
  { x := x, y := y, cost := cost, h_cost := h_cost, id := id, pid := pid }

/-- The data members of the class `RRT`. -/
structure RRT where
  point_list_ : List Node
  obstacle_list_ : List Node
  start_ : Node
  goal_ : Node
  threshold_ : ℚ

/-- The guard `(n_1.x_ >= o.x_ && o.x_ >= n_2.x_) || (n_1.x_ <= o.x_ && o.x_ <= n_2.x_)`. -/
def xSpan (n_1 n_2 o : Node) : Bool :=
  (decide (n_1.x ≥ o.x) && decide (o.x ≥ n_2.x)) || (decide (n_1.x ≤ o.x) && decide (o.x ≤ n_2.x))

/-- The guard `(n_1.y_ >= o.y_ && o.y_ >= n_2.y_) || (n_1.y_ <= o.y_ && o.y_ <= n_2.y_)`. -/
def ySpan (n_1 n_2 o : Node) : Bool :=
  (decide (n_1.y ≥ o.y) && decide (o.y ≥ n_2.y)) || (decide (n_1.y ≤ o.y) && decide (o.y ≤ n_2.y))

/-- The `slope` of `CheckObstacle`: `(double)(n_2.x_ - n_1.x_)/(double)(n_2.y_ - n_1.y_)`. -/
def slopeOf (n_1 n_2 : Node) : ℚ := ((n_2.x - n_1.x : Int) : ℚ) / ((n_2.y - n_1.y : Int) : ℚ)

/-- The intercept `c` of `CheckObstacle`: `(double)n_2.x_ - slope * (double)n_2.y_`. -/
def interceptOf (n_1 n_2 : Node) : ℚ := (n_2.x : ℚ) - slopeOf n_1 n_2 * (n_2.y : ℚ)

/-- The array `arr[0..3]` of `CheckObstacle` for the obstacle `o`. -/
def cornerValues (slope c : ℚ) (o : Node) : List ℚ :=
  [ (o.x : ℚ) + 1/2 - slope * ((o.y : ℚ) + 1/2) - c,
    (o.x : ℚ) + 1/2 - slope * ((o.y : ℚ) - 1/2) - c,
    (o.x : ℚ) - 1/2 - slope * ((o.y : ℚ) + 1/2) - c,
    (o.x : ℚ) - 1/2 - slope * ((o.y : ℚ) - 1/2) - c ]

/-- One turn of the loop `for (i...)`: a value of magnitude at most `0.000001` adds nothing to
`count`, any other value `v` adds `v / fabs(v)`. -/
def signTerm (v : ℚ) : ℚ := if |v| ≤ 1/1000000 then 0 else v / |v|

/-- The variable `count` after the loop over `arr`. -/
def signCount (slope c : ℚ) (o : Node) : ℚ :=
  (cornerValues slope c o).foldl (fun count v => count + signTerm v) 0

/-- The method `RRT::CheckObstacle(n_1, n_2)`, the line arithmetic taken exactly. The loops
over `obstacle_list_` return `true` at the first obstacle that passes the tests and fall
through to `return false`, which is `List.any`. As `count` is a sum of terms `1` and `-1`, `abs(count) < 3` reads the same for the
`int` and the `double` overload of `abs`. -/
def CheckObstacle (s : RRT) (n_1 n_2 : Node) : Bool :=
  if n_2.y - n_1.y = 0 then
    let c : ℚ := (n_2.y : ℚ)
    s.obstacle_list_.any fun o => xSpan n_1 n_2 o && decide ((o.y : ℚ) = c)
  else
    let slope := slopeOf n_1 n_2
    let c := interceptOf n_1 n_2
    s.obstacle_list_.any fun o =>
      ySpan n_1 n_2 o && xSpan n_1 n_2 o && decide (|signCount slope c o| < 3)

/-- The `slope` of `CheckObstacle` in binary64. -/
def slope64 (n_1 n_2 : Node) : ℚ :=
  fdiv ((n_2.x - n_1.x : Int) : ℚ) ((n_2.y - n_1.y : Int) : ℚ)

/-- The intercept `c` of `CheckObstacle` in binary64:
`(double)n_2.x_ - slope * (double)n_2.y_`. -/
def intercept64 (n_1 n_2 : Node) : ℚ := fsub (n_2.x : ℚ) (fmul (slope64 n_1 n_2) (n_2.y : ℚ))

/-- The array `arr[0..3]` of `CheckObstacle` in binary64: each entry is
`((double)o.x_ ± 0.5) - slope * ((double)o.y_ ± 0.5) - c`, evaluated from the left. -/
def cornerValues64 (slope c : ℚ) (o : Node) : List ℚ :=
  [ fsub (fsub (fadd (o.x : ℚ) (1/2)) (fmul slope (fadd (o.y : ℚ) (1/2)))) c,
    fsub (fsub (fadd (o.x : ℚ) (1/2)) (fmul slope (fsub (o.y : ℚ) (1/2)))) c,
    fsub (fsub (fsub (o.x : ℚ) (1/2)) (fmul slope (fadd (o.y : ℚ) (1/2)))) c,
    fsub (fsub (fsub (o.x : ℚ) (1/2)) (fmul slope (fsub (o.y : ℚ) (1/2)))) c ]

/-- The literal `0.000001`: the binary64 number nearest to `1/1000000`. -/
def tol64 : ℚ := roundDouble (1/1000000)

/-- One turn of the loop `for (i...)` in binary64: a value of magnitude at most `0.000001`
leaves `count` alone, any other value `v` adds `v / fabs(v)`. -/
def signStep64 (count v : ℚ) : ℚ := if |v| ≤ tol64 then count else fadd count (fdiv v |v|)

/-- The variable `count` after the loop over `arr`, in binary64. -/
def signCount64 (slope c : ℚ) (o : Node) : ℚ :=
  (cornerValues64 slope c o).foldl signStep64 0

/-- The method `RRT::CheckObstacle(n_1, n_2)` with the line arithmetic in binary64. The branch
`n_2.y_ - n_1.y_ == 0` compares integers and converted integers only. -/
def CheckObstacle64 (s : RRT) (n_1 n_2 : Node) : Bool :=
  if n_2.y - n_1.y = 0 then
    let c : ℚ := (n_2.y : ℚ)
    s.obstacle_list_.any fun o => xSpan n_1 n_2 o && decide ((o.y : ℚ) = c)
  else
    let slope := slope64 n_1 n_2
    let c := intercept64 n_1 n_2
    s.obstacle_list_.any fun o =>
      ySpan n_1 n_2 o && xSpan n_1 n_2 o && decide (|signCount64 slope c o| < 3)

/-- The square of the Euclidean distance between the cells of `a` and `b`. -/
def sqDist (a b : Node) : Int := (a.x - b.x) * (a.x - b.x) + (a.y - b.y) * (a.y - b.y)

/-- The value of `sqrt((double)(a.x_-b.x_)*(double)(a.x_-b.x_) +
(double)(a.y_-b.y_)*(double)(a.y_-b.y_))`: two products, their sum and the root, each rounded
to binary64. -/
def dist64 (a b : Node) : ℚ :=
  sqrt64 (fadd (fmul ((a.x - b.x : Int) : ℚ) ((a.x - b.x : Int) : ℚ))
    (fmul ((a.y - b.y : Int) : ℚ) ((a.y - b.y : Int) : ℚ)))

/-- The sentinel `Node(-1,-1,-1,-1,-1,-1)`, built as `nearest_node` and as `no_path_node`. -/
def sentinelNode : Node := mkNode (-1) (-1) (-1) (-1) (-1) (-1)

/-- The body of the loop of `FindNearestPoint` for the tree node `it_v`; the accumulator is
`dist` and `it_v_store`. -/
def nearestStep (s : RRT) (new_node : Node) (acc : ℚ × Option Node) (it_v : Node) :
    ℚ × Option Node :=
  let new_dist := dist64 it_v new_node
  if new_dist > s.threshold_ then acc
  else if CheckObstacle s it_v new_node then acc
  else if it_v.id = new_node.id then acc
  else if it_v.pid = new_node.id then acc
  else if new_dist ≥ acc.1 then acc
  else (new_dist, some it_v)

/-- The loop of `FindNearestPoint` over `point_list_`, started from `dist = (double)(n*n)`. -/
def nearestScan (s : RRT) (new_node : Node) (n : Nat) : ℚ × Option Node :=
  s.point_list_.foldl (nearestStep s new_node) ((((n : Int) * n : Int) : ℚ), none)

/-- The method `RRT::FindNearestPoint(new_node, n)`: the returned node, the argument
`new_node` (passed by reference) after the call, and the planner after the call. -/
def FindNearestPoint (s : RRT) (new_node : Node) (n : Nat) : Node × Node × RRT :=
  let r := nearestScan s new_node n
  if r.1 ≠ (((n : Int) * n : Int) : ℚ) then
    match r.2 with
    | some nearest_node =>
      (nearest_node,
       { new_node with pid := nearest_node.id, cost := fadd nearest_node.cost r.1 }, s)
    | none => (sentinelNode, new_node, s)
  else (sentinelNode, new_node, s)

/-- The function `RRT::GenerateRandomNode(n)`, given the two values `x`, `y` drawn from the
distribution on `[0, n-1]`. -/
def GenerateRandomNode (n : Nat) (xy : Int × Int) : Node :=
  mkNode xy.1 xy.2 0 0 ((n : Int) * xy.1 + xy.2) 0

/-- The values drawn by one call of `GenerateRandomNode(n)` lie in `[0, n-1]`. -/
def InRange (n : Nat) (xy : Int × Int) : Prop := 0 ≤ xy.1 ∧ xy.1 < n ∧ 0 ≤ xy.2 ∧ xy.2 < n

instance (n : Nat) (xy : Int × Int) : Decidable (InRange n xy) := by
  unfold InRange; infer_instance

/-- The method `RRT::CheckGoalVisible(new_node)`: the returned flag and the planner after. -/
def CheckGoalVisible (s : RRT) (new_node : Node) : Bool × RRT :=
  if !CheckObstacle s new_node s.goal_ then
    let new_dist := dist64 s.goal_ new_node
    if new_dist ≤ s.threshold_ then
      let goal : Node :=
        { s.goal_ with pid := new_node.id, cost := fadd new_dist new_node.cost }
      (true, { s with goal_ := goal, point_list_ := s.point_list_ ++ [goal] })
    else (false, s)
  else (false, s)

/-- The array `int grid[n][n]` behind the `void*`, read as `grid i j`. -/
abbrev Grid := Int → Int → Int

/-- The assignment `(*p_grid)[x][y] = v`. -/
def Grid.set (g : Grid) (x y v : Int) : Grid := fun i j => if i = x ∧ j = y then v else g i j

/-- The body of the inner loop of `CreateObstacleList` at the cell `(i, j)`. -/
def obstacleCell (grid : Grid) (n : Nat) (i : Nat) (s : RRT) (j : Nat) : RRT :=
  if grid i j = 1 then
    { s with obstacle_list_ :=
        s.obstacle_list_ ++ [mkNode i j 0 0 ((i : Int) * n + j) 0] }
  else s

/-- The method `RRT::CreateObstacleList(grid, n)`. -/
def CreateObstacleList (s : RRT) (grid : Grid) (n : Nat) : RRT :=
  (List.range n).foldl (fun s i => (List.range n).foldl (obstacleCell grid n i) s) s

/-- What a call of `rrt` leaves behind: the returned vector, the planner, the grid, and the
value of the counter `iter` (the number of calls of `GenerateRandomNode`). -/
structure Outcome where
  path : List Node
  planner : RRT
  grid : Grid
  iter : Nat

/-- The loop `while (iter <= max_iter)` of `rrt` and the three statements after it. The first
argument bounds the number of turns; `none` means that the bound was reached. `samples k`
holds the values drawn by the call of `GenerateRandomNode` number `k`. -/
def rrtLoop (n : Nat) (max_iter : Int) (samples : Nat → Int × Int) :
    Nat → Nat → RRT → Grid → Option Outcome
  | 0, _, _, _ => none
  | fuel + 1, iter, s, grid =>
    if (iter : Int) ≤ max_iter then
      let new_node := GenerateRandomNode n (samples iter)
      let iter := iter + 1
      if grid new_node.x new_node.y ≠ 0 then rrtLoop n max_iter samples fuel iter s grid
      else
        let r := FindNearestPoint s new_node n
        let nearest_node := r.1
        let new_node := r.2.1
        let s := r.2.2
        if nearest_node.id = -1 then rrtLoop n max_iter samples fuel iter s grid
        else
          let grid := grid.set new_node.x new_node.y 2
          let s := { s with point_list_ := s.point_list_ ++ [new_node] }
          let v := CheckGoalVisible s new_node
          if v.1 then some ⟨v.2.point_list_, v.2, grid, iter⟩
          else rrtLoop n max_iter samples fuel iter v.2 grid
    else
      let no_path_node := sentinelNode
      let s := { s with point_list_ := [no_path_node] }
      some ⟨s.point_list_, s, grid, iter⟩

/-- The method `RRT::rrt(grid, n, start_in, goal_in, max_iter_x_factor, threshold_in)` run on
the planner `s`, with the draws of the random generator given by `samples`. -/
def rrt (s : RRT) (grid : Grid) (n : Nat) (start_in goal_in : Node) (max_iter_x_factor : Int)
    (threshold_in : ℚ) (samples : Nat → Int × Int) : Option Outcome :=
  let s := { s with start_ := start_in, goal_ := goal_in, threshold_ := threshold_in }
  let max_iter : Int := max_iter_x_factor * n * n
  let s := CreateObstacleList s grid n
  let s := { s with point_list_ := s.point_list_ ++ [s.start_] }
  let new_node := s.start_
  let grid := grid.set s.start_.x s.start_.y 2
  let v := CheckGoalVisible s new_node
  if v.1 then some ⟨v.2.point_list_, v.2, grid, 0⟩
  else rrtLoop n max_iter samples ((max_iter + 1).toNat + 1) 0 v.2 grid

/-- A planner object on which no method has run yet: both vectors are empty. -/
def Fresh (s : RRT) : Prop := s.point_list_ = [] ∧ s.obstacle_list_ = []

/-- A freshly constructed planner; `rrt` overwrites `start_`, `goal_` and `threshold_`. -/
def freshRRT : RRT := ⟨[], [], mkNode 0 0 0 0 0 0, mkNode 0 0 0 0 0 0, 0⟩

/-- Twice the numerator of the line equation of `n_1 n_2` at the centre of `o`, cleared of
the denominator `n_2.y_ - n_1.y_`: the corner values are `(lineK ± dy/2 ± dx/2) / dy`. -/
def lineK (n_1 n_2 o : Node) : Int :=
  (o.x - n_2.x) * (n_2.y - n_1.y) - (o.y - n_2.y) * (n_2.x - n_1.x)

/-- The tolerance `0.000001` of `CheckObstacle` changes no corner value of an obstacle of the
list: a value of magnitude at most `0.000001` is already `0` (the tolerance is applied on the
branch `n_2.y_ - n_1.y_ != 0` only). -/
def SnapExact (n_1 n_2 : Node) (obstacles : List Node) : Prop :=
  n_2.y - n_1.y ≠ 0 →
    ∀ o ∈ obstacles, ∀ v ∈ cornerValues (slopeOf n_1 n_2) (interceptOf n_1 n_2) o,
      |v| ≤ 1/1000000 → v = 0

/-- The segment from `A` to `B` in the real plane has a point in the interior of the unit
square centred on `o` (the open square `o ± 0.5` on each axis). -/
def SegmentMeetsInterior (A B o : Node) : Prop :=
  ∃ t : ℝ, 0 ≤ t ∧ t ≤ 1 ∧
    |(A.x : ℝ) + t * ((B.x : ℝ) - A.x) - o.x| < 1/2 ∧
    |(A.y : ℝ) + t * ((B.y : ℝ) - A.y) - o.y| < 1/2

/-- A planner whose obstacle list holds the single cell `(2, 2)`. -/
def exObs : RRT := ⟨[], [mkNode 2 2 0 0 0 0], mkNode 0 0 0 0 0 0, mkNode 0 0 0 0 0 0, 1⟩

/-- A planner whose obstacle list holds the single cell `(5, 3)`. -/
def exRow : RRT := ⟨[], [mkNode 5 3 0 0 0 0], mkNode 0 0 0 0 0 0, mkNode 0 0 0 0 0 0, 1⟩

/-- A planner whose obstacle list holds the single cell `(0, 0)`. -/
def exOrigin : RRT := ⟨[], [mkNode 0 0 0 0 0 0], mkNode 0 0 0 0 0 0, mkNode 0 0 0 0 0 0, 1⟩

/-- The four filters of `FindNearestPoint` for the tree node `t` and the candidate `cand`, as
the code evaluates them: computed distance within the threshold, segment not blocked,
`t.id_ != cand.id_`, `t.pid_ != cand.id_`. -/
def Qualifies (s : RRT) (cand t : Node) : Prop :=
  dist64 t cand ≤ s.threshold_ ∧ CheckObstacle s t cand = false ∧
    t.id ≠ cand.id ∧ t.pid ≠ cand.id

instance (s : RRT) (cand t : Node) : Decidable (Qualifies s cand t) := by
  unfold Qualifies; infer_instance

/-- The node `f` is the nearest qualifying node of the list `l`, the earliest one at its
distance, distances being the computed ones: it stands at some index `i`, passes the filters,
no qualifying node is nearer, and no qualifying node before index `i` is at the same
distance. -/
def NearestIn (s : RRT) (cand : Node) (l : List Node) (f : Node) : Prop :=
  ∃ i : Nat, l[i]? = some f ∧ Qualifies s cand f ∧
    (∀ t ∈ l, Qualifies s cand t → dist64 f cand ≤ dist64 t cand) ∧
    (∀ (j : Nat) (t : Node), j < i → l[j]? = some t → Qualifies s cand t →
      dist64 t cand ≠ dist64 f cand)

/-- The four filters of `FindNearestPoint` as the specification words them, the distance being
the Euclidean distance of the real plane. -/
def QualifiesExact (s : RRT) (cand t : Node) : Prop :=
  Real.sqrt ((sqDist t cand : ℤ) : ℝ) ≤ (s.threshold_ : ℝ) ∧ CheckObstacle s t cand = false ∧
    t.id ≠ cand.id ∧ t.pid ≠ cand.id

/-- The node `f` of the list `l` is nearest to the candidate in Euclidean distance among the
nodes of `l` at squared distance below `2^50` that pass the filters as the specification words
them, and it is the earliest one at its distance. -/
def NearestExactIn (s : RRT) (cand : Node) (l : List Node) (f : Node) : Prop :=
  ∃ i : Nat, l[i]? = some f ∧
    (∀ t ∈ l, sqDist t cand < 2 ^ 50 → QualifiesExact s cand t → sqDist f cand ≤ sqDist t cand) ∧
    (∀ (j : Nat) (t : Node), j < i → l[j]? = some t → sqDist t cand < 2 ^ 50 →
      QualifiesExact s cand t → sqDist t cand ≠ sqDist f cand)

/-- A tree holding the single node `(3, 3)`, no obstacle, and the threshold `sqrt(18.0)`, the
binary64 number nearest to the square root of 18, which lies below that root. -/
def exRootTree : RRT :=
  ⟨[mkNode 3 3 0 0 27 27], [], mkNode 0 0 0 0 0 0, mkNode 3 3 0 0 27 0, sqrt64 18⟩

/-- A tree holding the single node `(1, 1)` with cost 3, no obstacle, threshold 2. -/
def exDiagTree : RRT := ⟨[mkNode 1 1 3 0 9 9], [], mkNode 0 0 0 0 0 0, mkNode 0 0 0 0 0 0, 2⟩

/-- A tree of two nodes at distances 5 and 3 from the origin, no obstacle, threshold 10. -/
def exTree : RRT :=
  ⟨[mkNode 3 4 0 0 28 28, mkNode 3 0 0 0 24 28], [], mkNode 0 0 0 0 0 0, mkNode 0 0 0 0 0 0, 10⟩

/-- The tree of `exTree` with the threshold lowered to 4: the node at distance 5 is out of
reach. -/
def exTreeMid : RRT := { exTree with threshold_ := 4 }

/-- The tree of `exTree` with the threshold lowered to 2. -/
def exTreeNear : RRT := { exTree with threshold_ := 2 }

/-- A tree holding the single node `(0, 0)`, no obstacle, threshold 2. -/
def exOne : RRT := ⟨[mkNode 0 0 0 0 0 0], [], mkNode 0 0 0 0 0 0, mkNode 0 0 0 0 0 0, 2⟩

/-- A tree holding a node equal to the sentinel, as `point_list_` does after a failed run of
`rrt`; no obstacle, threshold 2. -/
def exSentinelTree : RRT := ⟨[sentinelNode], [], mkNode 0 0 0 0 0 0, mkNode 0 0 0 0 0 0, 2⟩

/-- The node `t` lies on the `n`-by-`n` grid. -/
def OnGrid (n : Nat) (t : Node) : Prop := 0 ≤ t.x ∧ t.x < n ∧ 0 ≤ t.y ∧ t.y < n

instance (n : Nat) (t : Node) : Decidable (OnGrid n t) := by
  unfold OnGrid; infer_instance

/-- The obstacle entry that `CreateObstacleList` builds for the cell `(i, j)`. -/
def obstacleAt (n i j : Nat) : Node := mkNode i j 0 0 ((i : Int) * n + j) 0

/-- The entries that the inner loop of `CreateObstacleList` appends for the row `i`. -/
def obstacleRow (grid : Grid) (n i : Nat) : List Node :=
  (List.range n).filterMap fun (j : Nat) => if grid i j = 1 then some (obstacleAt n i j) else none

/-- The grid without any obstacle. -/
def exFreeGrid : Grid := fun _ _ => 0

/-- The entries that `CreateObstacleList` appends, row after row. -/
def obstacleCells (grid : Grid) (n : Nat) : List Node :=
  (List.range n).flatMap (obstacleRow grid n)

/-- The planner of `rrt` when it reaches the first call of `CheckGoalVisible`: the three
assignments, `CreateObstacleList` and `point_list_.push_back(start_)` have run. -/
def initPlanner (s : RRT) (grid : Grid) (n : Nat) (start_in goal_in : Node)
    (threshold_in : ℚ) : RRT :=
  { point_list_ := s.point_list_ ++ [start_in],
    obstacle_list_ := s.obstacle_list_ ++ obstacleCells grid n,
    start_ := start_in, goal_ := goal_in, threshold_ := threshold_in }

/-- The goal as `CheckGoalVisible(v)` stores and appends it. -/
def goalFrom (s : RRT) (v : Node) : Node :=
  { s.goal_ with pid := v.id, cost := fadd (dist64 s.goal_ v) v.cost }

/-- One turn of the loop of `rrt` after the guard: the planner and grid with which the loop
goes on, or the outcome returned from inside the loop. `iter` is the counter before
`iter++`. -/
def rrtTurn (n : Nat) (samples : Nat → Int × Int) (iter : Nat) (s : RRT) (grid : Grid) :
    (RRT × Grid) ⊕ Outcome :=
  let new_node := GenerateRandomNode n (samples iter)
  if grid new_node.x new_node.y ≠ 0 then Sum.inl (s, grid)
  else
    let r := FindNearestPoint s new_node n
    if r.1.id = -1 then Sum.inl (r.2.2, grid)
    else
      let grid := grid.set r.2.1.x r.2.1.y 2
      let s := { r.2.2 with point_list_ := r.2.2.point_list_ ++ [r.2.1] }
      let v := CheckGoalVisible s r.2.1
      if v.1 then Sum.inr ⟨v.2.point_list_, v.2, grid, iter + 1⟩
      else Sum.inl (v.2, grid)

/-- The outcome of `rrt` when the loop runs out: the tree is replaced by `no_path_node`. -/
def exhausted (s : RRT) (grid : Grid) (iter : Nat) : Outcome :=
  ⟨[sentinelNode], { s with point_list_ := [sentinelNode] }, grid, iter⟩

/-- Every cell of the `n`-by-`n` grid among the 8 neighbours of `(gx, gy)` has an entry in
the obstacle list `obstacles`. -/
def RingListed (n : Nat) (gx gy : Int) (obstacles : List Node) : Prop :=
  ∀ i j : Int, 0 ≤ i → i < n → 0 ≤ j → j < n → (i ≠ gx ∨ j ≠ gy) →
    gx - 1 ≤ i → i ≤ gx + 1 → gy - 1 ≤ j → j ≤ gy + 1 → ∃ o ∈ obstacles, o.x = i ∧ o.y = j

/-- Every cell of the `n`-by-`n` grid among the 8 neighbours of the goal is an obstacle. -/
def GoalEnclosed (grid : Grid) (n : Nat) (goal : Node) : Prop :=
  ∀ i j : Nat, i < n → j < n → ((i : Int) ≠ goal.x ∨ (j : Int) ≠ goal.y) →
    goal.x - 1 ≤ i → (i : Int) ≤ goal.x + 1 → goal.y - 1 ≤ j → (j : Int) ≤ goal.y + 1 →
    grid i j = 1

/-- The node `t` lies outside the square of 3-by-3 cells centred on the goal. -/
def OutsideRing (goal t : Node) : Prop :=
  t.x < goal.x - 1 ∨ goal.x + 1 < t.x ∨ t.y < goal.y - 1 ∨ goal.y + 1 < t.y

/-- A 5-by-5 grid whose cell `(2, 2)` is enclosed by its 8 neighbours. -/
def exRingGrid : Grid := fun i j =>
  if 1 ≤ i ∧ i ≤ 3 ∧ 1 ≤ j ∧ j ≤ 3 ∧ ¬ (i = 2 ∧ j = 2) then 1 else 0

/-- Draws that walk over the 5-by-5 grid. -/
def exWalk : Nat → Int × Int := fun k => (((k / 5 % 5 : Nat) : Int), ((k % 5 : Nat) : Int))

/-- The preconditions of the entry point: `start` and `goal` are free cells of the grid,
`start.id = start.x * n + start.y >= 0` and `start.pid = start.id`. -/
def InterfaceOk (grid : Grid) (n : Nat) (start goal : Node) : Prop :=
  OnGrid n start ∧ OnGrid n goal ∧ grid start.x start.y = 0 ∧ grid goal.x goal.y = 0 ∧
    start.id = start.x * n + start.y ∧ 0 ≤ start.id ∧ start.pid = start.id

/-- The shape of a successful result: `start`, then the rest of the tree, then a goal entry
with the `x`, `y` and `id` of `goal`. -/
def StartToGoal (start goal : Node) (path : List Node) : Prop :=
  ∃ (mid : List Node) (g : Node), path = start :: (mid ++ [g]) ∧
    g.x = goal.x ∧ g.y = goal.y ∧ g.id = goal.id

/-- A 3-by-3 grid with obstacles on `(0, 1)` and `(1, 1)`. -/
def exWallGrid : Grid := fun i j => if j = 1 ∧ (i = 0 ∨ i = 1) then 1 else 0

/-- The cells of the `n`-by-`n` grid in row-major order. -/
def gridCells (n : Nat) : List (Nat × Nat) :=
  (List.range n).flatMap fun i => (List.range n).map fun j => (i, j)

/-- The obstacle list as the specification words it: one entry for every cell flagged `1`,
in row-major order, with `x = i`, `y = j`, `id = i*n + j` and cost, heuristic, parent `0`. -/
def obstacleSpec (grid : Grid) (n : Nat) : List Node :=
  ((gridCells n).filter fun c => decide (grid c.1 c.2 = 1)).map fun c =>
    mkNode c.1 c.2 0 0 ((c.1 : Int) * n + c.2) 0

/-- The set of coordinates of the entries of an obstacle list. -/
def coordSet (obstacles : List Node) : Finset (Int × Int) :=
  (obstacles.map fun o => (o.x, o.y)).toFinset

/-- A 3-by-3 grid with obstacles on `(0, 1)` and `(2, 0)`. -/
def exTwoObstacles : Grid := fun i j => if (i = 0 ∧ j = 1) ∨ (i = 2 ∧ j = 0) then 1 else 0

/-- A corner value snapped to `0` when its magnitude is at most `0.000001`. -/
def snapZero (v : ℚ) : ℚ := if |v| ≤ 1/1000000 then 0 else v

/-- The sign `+1`, `-1` or `0` of a value. -/
def signOf (v : ℚ) : ℚ := if 0 < v then 1 else if v < 0 then -1 else 0

/-- The value of the line through `A` and `B` at the corner `(o.x + ex, o.y + ey)` of the
square of the obstacle `o`, as the specification words it: `(o.x + ex) - slope * (o.y + ey) - c`
with `slope = (B.x - A.x) / (B.y - A.y)` and `c = B.x - slope * B.y`, in exact arithmetic. -/
def lineValue (A B o : Node) (ex ey : ℚ) : ℚ :=
  ((o.x : ℚ) + ex) - ((B.x : ℚ) - (A.x : ℚ)) / ((B.y : ℚ) - (A.y : ℚ)) * ((o.y : ℚ) + ey)
    - ((B.x : ℚ) - ((B.x : ℚ) - (A.x : ℚ)) / ((B.y : ℚ) - (A.y : ℚ)) * (B.y : ℚ))

/-- The sum of the signs of the four snapped corner values of the obstacle `o` for the line
through `A` and `B`. -/
def lineSignSum (A B o : Node) : ℚ :=
  signOf (snapZero (lineValue A B o (1/2) (1/2))) +
    signOf (snapZero (lineValue A B o (1/2) (-(1/2)))) +
    signOf (snapZero (lineValue A B o (-(1/2)) (1/2))) +
    signOf (snapZero (lineValue A B o (-(1/2)) (-(1/2))))

/-- The obstacle `o` blocks the segment from `A` to `B` as the specification words the general
case: `o.x` in the inclusive x-span, `o.y` in the inclusive y-span, and the sign sum of the
four snapped corner values less than 3 in absolute value. -/
def BlocksLine (A B o : Node) : Prop :=
  (min A.x B.x ≤ o.x ∧ o.x ≤ max A.x B.x) ∧ (min A.y B.y ≤ o.y ∧ o.y ≤ max A.y B.y) ∧
    |lineSignSum A B o| < 3

instance (A B o : Node) : Decidable (BlocksLine A B o) := by
  unfold BlocksLine; infer_instance

/-- The coordinates of the node are at most 4096 in magnitude. -/
def Bounded (t : Node) : Prop := |t.x| ≤ 4096 ∧ |t.y| ≤ 4096

instance (t : Node) : Decidable (Bounded t) := by
  unfold Bounded; infer_instance

/-- A planner whose obstacle list holds the single cell `(1, 1)`. -/
def exUnit : RRT := ⟨[], [mkNode 1 1 0 0 0 0], mkNode 0 0 0 0 0 0, mkNode 0 0 0 0 0 0, 1⟩

/-- A planner whose obstacle list holds the cells `(1, 3)`, `(1, 2)` and `(0, 1)`. -/
def exThree : RRT :=
  ⟨[], [mkNode 1 3 0 0 0 0, mkNode 1 2 0 0 0 0, mkNode 0 1 0 0 0 0], mkNode 0 0 0 0 0 0,
    mkNode 0 0 0 0 0 0, 1⟩

/-- The goal entry of the run on the 8-by-8 grid without obstacles from `(0, 0)` to `(7, 7)`:
its cost is `0 + sqrt(98.0)`. -/
def exGoalEntry : Node :=
  { x := 7, y := 7, cost := 5572920213460051 / 562949953421312, h_cost := 0, id := 63, pid := 0 }

/-- The planner and grid at the head of a turn of the loop of `rrt`, the loop being entered
with `s0` and `g0`: `LoopState ... iter s g` says that the guard is evaluated with the
counter at `iter`, the planner `s` and the grid `g`. -/
inductive LoopState (n : Nat) (max_iter : Int) (samples : Nat → Int × Int) (s0 : RRT)
    (g0 : Grid) : Nat → RRT → Grid → Prop
  | init : LoopState n max_iter samples s0 g0 0 s0 g0
  | turn {iter : Nat} {s s' : RRT} {g g' : Grid} :
      LoopState n max_iter samples s0 g0 iter s g → (iter : Int) ≤ max_iter →
      rrtTurn n samples iter s g = Sum.inl (s', g') →
      LoopState n max_iter samples s0 g0 (iter + 1) s' g'

/-- Every node of the list but the first has a `pid` equal to the `id` of a node strictly
earlier in the list. -/
def LinkedBack (l : List Node) : Prop :=
  ∀ (k : Nat) (t : Node), 0 < k → l[k]? = some t →
    ∃ (j : Nat) (u : Node), j < k ∧ l[j]? = some u ∧ t.pid = u.id

/-- No node of the list but the first has `pid == id`. -/
def NoSelfParent (l : List Node) : Prop :=
  ∀ (k : Nat) (t : Node), 0 < k → l[k]? = some t → t.pid ≠ t.id

/-- The node carries the row-major id of its cell. -/
def Canonical (n : Nat) (t : Node) : Prop := t.id = t.x * n + t.y

/-- The goal is not visible from `t`: the segment is blocked or its computed length exceeds
the threshold. -/
def Hidden (s0 : RRT) (goal t : Node) : Prop :=
  CheckObstacle s0 t goal = true ∨ ¬ dist64 goal t ≤ s0.threshold_

/-- What holds of the tree `point_list_` while `rrt` grows it on a fresh planner: it starts
with `start`, its nodes stand on marked grid cells other than the goal cell and carry the
id of their cell, the ids are pairwise distinct, and the parent links point backwards. -/
structure TreeInv (n : Nat) (s0 : RRT) (start goal : Node) (st : RRT) (g : Grid) : Prop where
  goal_eq : st.goal_ = goal
  thr_eq : st.threshold_ = s0.threshold_
  obs_eq : st.obstacle_list_ = s0.obstacle_list_
  head : ∃ rest, st.point_list_ = start :: rest
  nodes : ∀ t ∈ st.point_list_,
    OnGrid n t ∧ Canonical n t ∧ g t.x t.y = 2 ∧ (t.x ≠ goal.x ∨ t.y ≠ goal.y)
  nodup : (st.point_list_.map fun t => t.id).Nodup
  linked : LinkedBack st.point_list_
  noself : NoSelfParent st.point_list_

/-- A successful result: the tree, which starts with `start` and has no node on the goal
cell, followed by a goal entry with the `x`, `y`, `id` of `goal`; the ids of the list are
pairwise distinct and the parent links point backwards. -/
def GoalTree (start goal : Node) (path : List Node) : Prop :=
  ∃ (tree : List Node) (g : Node), path = tree ++ [g] ∧ (∃ rest, tree = start :: rest) ∧
    (g.x = goal.x ∧ g.y = goal.y ∧ g.id = goal.id) ∧
    (∀ t ∈ tree, t.x ≠ goal.x ∨ t.y ≠ goal.y) ∧
    (path.map fun t => t.id).Nodup ∧ LinkedBack path ∧ NoSelfParent path

/-- The loop of `rrt` stands at the head of a turn with counter `iter`, planner `st` and grid
`g`: the first call of `CheckGoalVisible` has failed and the loop, entered with the planner
`initPlanner` and the grid with the start cell marked, has come to this state. -/
def RunState (s : RRT) (grid : Grid) (n : Nat) (start goal : Node) (factor : Int)
    (threshold : ℚ) (samples : Nat → Int × Int) (iter : Nat) (st : RRT) (g : Grid) : Prop :=
  (CheckGoalVisible (initPlanner s grid n start goal threshold) start).1 = false ∧
    LoopState n (factor * n * n) samples (initPlanner s grid n start goal threshold)
      (grid.set start.x start.y 2) iter st g

/-- The inputs of `rrt` meet the preconditions of the entry point, the goal carries the
row-major id of its cell, and `start` and `goal` stand on distinct cells. -/
def WellPosed (grid : Grid) (n : Nat) (start goal : Node) : Prop :=
  InterfaceOk grid n start goal ∧ Canonical n goal ∧ (start.x ≠ goal.x ∨ start.y ≠ goal.y)

/-- The draws `(2, 0), (2, 1), (2, 2), (2, 0), ...` on the 3-by-3 grid. -/
def exColumn : Nat → Int × Int := fun k => ((2 : Int), (k : Int) % 3)

/-- The draw `(0, 2)`, on the goal cell of the run below, followed by the draws of
`exColumn`. -/
def exGoalFirst : Nat → Int × Int := fun k => if k = 0 then (0, 2) else exColumn (k - 1)

/-- The comparison `Node::operator==` of `utils.cpp`: equal `x_` and equal `y_`. -/
def samePosition (a b : Node) : Bool := decide (a.x = b.x ∧ a.y = b.y)

/-- The loop `for (j ...)` inside the `while` of `PrintPath`. The state holds the node
`path_vector[i]` in place of the index `i` (the index is only used to read that node), the
grid, and the nodes on which the walk has stood so far. -/
def parentScan (path_vector : List Node) (st : Node × Grid × List Node) :
    Node × Grid × List Node :=
  path_vector.foldl
    (fun st t => if st.1.pid = t.id then (t, st.2.1.set t.x t.y 3, st.2.2 ++ [t]) else st) st

/-- The loop `while (path_vector[i].id_ != start.id_)` of `PrintPath`, with its `break` on
`id_ == pid_`. The first argument bounds the number of evaluations of the guard; `none`
means that the bound was reached. -/
def walkLoop (path_vector : List Node) (start : Node) :
    Nat → Node × Grid × List Node → Option (Grid × List Node)
  | 0, _ => none
  | fuel + 1, st =>
    if st.1.id ≠ start.id then
      if st.1.id = st.1.pid then some (st.2.1, st.2.2)
      else walkLoop path_vector start fuel (parentScan path_vector st)
    else some (st.2.1, st.2.2)

/-- The function `PrintPath(path_vector, start, goal, grid, n)` without its output to the
console: the grid it leaves and the nodes on which the walk along the `pid_` links has
stood, from the goal entry on. `none` stands for a read past the end of `path_vector` (an
empty vector, or no element equal to `goal`) and for a walk longer than `fuel` turns. -/
def PrintPath (path_vector : List Node) (start goal : Node) (grid : Grid) (fuel : Nat) :
    Option (Grid × List Node) :=
  match path_vector.head? with
  | none => none
  | some first =>
    if first.id = -1 then some (grid, [])
    else
      match path_vector.find? (fun t => samePosition goal t) with
      | none => none
      | some g =>
        (walkLoop path_vector start fuel (g, grid.set g.x g.y 3, [g])).map
          fun r => (r.1.set start.x start.y 3, r.2)

end RRTPlanner

namespace RRTPlanner

/-! # Theorems -/

/-! ## Binary64 arithmetic -/

theorem pow2_eq (g : Int) : pow2 g = (2 : ℚ) ^ g := by
  unfold pow2
  split_ifs with h
  · lift g to Nat using h
    simp
  · obtain ⟨k, rfl⟩ : ∃ k : Nat, g = -(k : Int) := ⟨(-g).toNat, by omega⟩
    simp

theorem bitsAux_spec (fuel : Nat) : ∀ x : Nat, x ≤ fuel → 0 < x →
    2 ^ (bitsAux fuel x - 1) ≤ x ∧ x < 2 ^ bitsAux fuel x := by
  induction fuel with
  | zero => intro x h1 h2; omega
  | succ fuel ih =>
    intro x h1 h2
    rw [bitsAux, if_neg (by omega)]
    by_cases hx : x / 2 = 0
    · have h1x : x = 1 := by omega
      have : bitsAux fuel (x / 2) = 0 := by
        rw [hx]; cases fuel <;> simp [bitsAux]
      rw [this, h1x]; simp
    · have hpos : 0 < x / 2 := Nat.pos_of_ne_zero hx
      obtain ⟨i1, i2⟩ := ih (x / 2) (by omega) hpos
      have hb : 1 ≤ bitsAux fuel (x / 2) := by
        by_contra hc
        have : bitsAux fuel (x / 2) = 0 := by omega
        rw [this] at i2; simp at i2; omega
      obtain ⟨b, hb'⟩ : ∃ b, bitsAux fuel (x / 2) = b + 1 := ⟨_, (Nat.sub_add_cancel hb).symm⟩
      rw [hb'] at i1 i2 ⊢
      simp only [Nat.add_sub_cancel] at i1 ⊢
      constructor
      · rw [pow_succ]; omega
      · rw [pow_succ] at i2 ⊢; omega

theorem bits_spec (x : Nat) (hx : 0 < x) : 2 ^ (bits x - 1) ≤ x ∧ x < 2 ^ bits x :=
  bitsAux_spec x x (le_refl x) hx

theorem bits_pos (x : Nat) (hx : 0 < x) : 1 ≤ bits x := by
  by_contra hc
  have h0 : bits x = 0 := by omega
  have := (bits_spec x hx).2
  rw [h0] at this; simp at this; omega

theorem ulpExp_spec (a b : Nat) (ha : 0 < a) (hb : 0 < b) :
    (2 : ℚ) ^ (ulpExp a b + 52) ≤ (a : ℚ) / b ∧ (a : ℚ) / b < (2 : ℚ) ^ (ulpExp a b + 53) := by
  obtain ⟨a1, a2⟩ := bits_spec a ha
  obtain ⟨b1, b2⟩ := bits_spec b hb
  have hla := bits_pos a ha
  have hlb := bits_pos b hb
  obtain ⟨la, hla'⟩ : ∃ la, bits a = la + 1 := ⟨_, (Nat.sub_add_cancel hla).symm⟩
  obtain ⟨lb, hlb'⟩ : ∃ lb, bits b = lb + 1 := ⟨_, (Nat.sub_add_cancel hlb).symm⟩
  rw [hla'] at a1 a2
  rw [hlb'] at b1 b2
  simp only [Nat.add_sub_cancel] at a1 b1
  have hbq : (0 : ℚ) < b := by exact_mod_cast hb
  have a1q : (2 : ℚ) ^ (la : ℤ) ≤ a := by rw [zpow_natCast]; exact_mod_cast a1
  have a2q : (a : ℚ) < (2 : ℚ) ^ ((la : ℤ) + 1) := by
    rw [show ((la : ℤ) + 1) = ((la + 1 : ℕ) : ℤ) by push_cast; ring, zpow_natCast]; exact_mod_cast a2
  have b1q : (2 : ℚ) ^ (lb : ℤ) ≤ b := by rw [zpow_natCast]; exact_mod_cast b1
  have b2q : (b : ℚ) < (2 : ℚ) ^ ((lb : ℤ) + 1) := by
    rw [show ((lb : ℤ) + 1) = ((lb + 1 : ℕ) : ℤ) by push_cast; ring, zpow_natCast]; exact_mod_cast b2
  have h2 : (2 : ℚ) ≠ 0 := two_ne_zero
  have e0 : ((bits a : ℤ) - (bits b : ℤ)) = (la : ℤ) - lb := by rw [hla', hlb']; push_cast; ring
  -- bounds on a / b
  have lo : (2 : ℚ) ^ ((la : ℤ) - lb - 1) < (a : ℚ) / b := by
    rw [lt_div_iff₀ hbq]
    calc (2 : ℚ) ^ ((la : ℤ) - lb - 1) * b < (2 : ℚ) ^ ((la : ℤ) - lb - 1) * (2 : ℚ) ^ ((lb : ℤ) + 1) :=
          mul_lt_mul_of_pos_left b2q (zpow_pos (by norm_num) _)
      _ = (2 : ℚ) ^ (la : ℤ) := by rw [← zpow_add₀ h2]; congr 1; ring
      _ ≤ a := a1q
  have hi : (a : ℚ) / b < (2 : ℚ) ^ ((la : ℤ) - lb + 1) := by
    rw [div_lt_iff₀ hbq]
    calc (a : ℚ) < (2 : ℚ) ^ ((la : ℤ) + 1) := a2q
      _ = (2 : ℚ) ^ ((la : ℤ) - lb + 1) * (2 : ℚ) ^ (lb : ℤ) := by
          rw [← zpow_add₀ h2]; congr 1; ring
      _ ≤ (2 : ℚ) ^ ((la : ℤ) - lb + 1) * b :=
          mul_le_mul_of_nonneg_left b1q (le_of_lt (zpow_pos (by norm_num) _))
  unfold ulpExp
  simp only [e0, pow2_eq]
  split_ifs with h
  · constructor
    · rw [le_div_iff₀ hbq, show ((la : ℤ) - lb - 52 + 52) = (la : ℤ) - lb by ring]; exact h
    · rw [show ((la : ℤ) - lb - 52 + 53) = (la : ℤ) - lb + 1 by ring]; exact hi
  · constructor
    · rw [show ((la : ℤ) - lb - 53 + 52) = (la : ℤ) - lb - 1 by ring]; exact le_of_lt lo
    · rw [show ((la : ℤ) - lb - 53 + 53) = (la : ℤ) - lb by ring, div_lt_iff₀ hbq]
      exact not_le.mp h

theorem roundHalfEven_cases (a b : Nat) :
    (roundHalfEven a b = a / b ∧ 2 * (a % b) ≤ b) ∨
    (roundHalfEven a b = a / b + 1 ∧ b ≤ 2 * (a % b)) := by
  unfold roundHalfEven
  split_ifs with h1 h2 h3
  · exact Or.inl ⟨rfl, by omega⟩
  · exact Or.inr ⟨rfl, by omega⟩
  · exact Or.inl ⟨rfl, by omega⟩
  · exact Or.inr ⟨rfl, by omega⟩

theorem roundHalfEven_spec (a b : Nat) (hb : 0 < b) :
    2 * roundHalfEven a b * b ≤ 2 * a + b ∧ 2 * a ≤ 2 * roundHalfEven a b * b + b := by
  have hdiv := Nat.div_add_mod a b
  have hmod := Nat.mod_lt a hb
  rcases roundHalfEven_cases a b with ⟨e, h⟩ | ⟨e, h⟩ <;> rw [e]
  · have e1 : 2 * (a / b) * b = 2 * (b * (a / b)) := by ring
    rw [e1]; omega
  · have e2 : 2 * (a / b + 1) * b = 2 * (b * (a / b)) + 2 * b := by ring
    rw [e2]; omega

/-- An integer at or above `a / b` is at or above its rounding, one at or below is below. -/
theorem roundHalfEven_le (a b T : Nat) (hb : 0 < b) (h : a ≤ T * b) : roundHalfEven a b ≤ T := by
  have hdiv := Nat.div_add_mod a b
  have hmod := Nat.mod_lt a hb
  have hq : a / b ≤ T := by
    apply Nat.div_le_of_le_mul; rw [Nat.mul_comm]; exact h
  rcases roundHalfEven_cases a b with ⟨e, h'⟩ | ⟨e, h'⟩ <;> rw [e]
  · exact hq
  · by_contra hc
    have hT : T = a / b := by omega
    rw [hT, Nat.mul_comm] at h
    omega

theorem le_roundHalfEven (a b T : Nat) (hb : 0 < b) (h : T * b ≤ a) : T ≤ roundHalfEven a b := by
  have hq : T ≤ a / b := (Nat.le_div_iff_mul_le hb).mpr h
  rcases roundHalfEven_cases a b with ⟨e, -⟩ | ⟨e, -⟩ <;> rw [e] <;> omega

theorem roundHalfEven_half (a b : Nat) (hb : 0 < b) :
    |((roundHalfEven a b : ℕ) : ℚ) - (a : ℚ) / b| ≤ 1 / 2 := by
  have hbq : (0 : ℚ) < b := by exact_mod_cast hb
  obtain ⟨s1, s2⟩ := roundHalfEven_spec a b hb
  have s1q : 2 * (roundHalfEven a b : ℚ) * b ≤ 2 * a + b := by exact_mod_cast s1
  have s2q : 2 * (a : ℚ) ≤ 2 * (roundHalfEven a b : ℚ) * b + b := by exact_mod_cast s2
  have hy : (a : ℚ) / b * b = a := div_mul_cancel₀ _ (ne_of_gt hbq)
  generalize (a : ℚ) / b = y at hy ⊢
  rw [← hy] at s1q s2q
  rw [abs_le]
  constructor
  · by_contra hc
    push_neg at hc
    nlinarith
  · by_contra hc
    push_neg at hc
    nlinarith

/-- No integer is nearer to `y` than an integer within `1/2` of `y`. -/
theorem nearest_of_half (m j : ℤ) (y : ℚ) (h : |(m : ℚ) - y| ≤ 1 / 2) :
    |(m : ℚ) - y| ≤ |(j : ℚ) - y| := by
  rcases lt_trichotomy j m with hj | hj | hj
  · have : (j : ℚ) + 1 ≤ m := by exact_mod_cast hj
    rw [abs_le] at h
    have : (j : ℚ) - y ≤ -(1 / 2) := by linarith
    rw [abs_of_nonpos (by linarith : (j : ℚ) - y ≤ 0)]
    exact le_trans (abs_le.mpr h) (by linarith)
  · rw [hj]
  · have : (m : ℚ) + 1 ≤ j := by exact_mod_cast hj
    rw [abs_le] at h
    rw [abs_of_nonneg (by linarith : (0 : ℚ) ≤ (j : ℚ) - y)]
    exact le_trans (abs_le.mpr h) (by linarith)

theorem scaled_div (a b : Nat) (hb : 0 < b) (g : ℤ) :
    ((a * 2 ^ (-g).toNat : ℕ) : ℚ) / ((b * 2 ^ g.toNat : ℕ) : ℚ) = (a : ℚ) / b / (2 : ℚ) ^ g := by
  have hbq : (b : ℚ) ≠ 0 := by exact_mod_cast (ne_of_gt hb)
  rcases le_or_lt 0 g with h | h
  · lift g to ℕ using h
    have : (-(g : ℤ)).toNat = 0 := by omega
    rw [this]
    simp only [Int.toNat_ofNat, pow_zero, mul_one, zpow_natCast]
    push_cast
    rw [div_div]
  · obtain ⟨k, rfl⟩ : ∃ k : ℕ, g = -(k : ℤ) := ⟨(-g).toNat, by omega⟩
    have : (-(k : ℤ)).toNat = 0 := by omega
    rw [this]
    simp only [neg_neg, Int.toNat_ofNat, pow_zero, mul_one, zpow_neg, zpow_natCast]
    push_cast
    field_simp

theorem rat_pos_parts (x : ℚ) (hx : 0 < x) :
    0 < x.num.natAbs ∧ 0 < x.den ∧ ((x.num.natAbs : ℕ) : ℚ) / (x.den : ℚ) = x ∧ x.num.sign = 1 := by
  have hn : 0 < x.num := Rat.num_pos.mpr hx
  refine ⟨by omega, x.den_pos, ?_, Int.sign_eq_one_of_pos hn⟩
  have : ((x.num.natAbs : ℕ) : ℚ) = (x.num : ℚ) := by
    have h2 : ((x.num.natAbs : ℕ) : ℤ) = x.num := Int.natAbs_of_nonneg (le_of_lt hn)
    rw [← Int.cast_natCast, h2]
  rw [this]; exact Rat.num_div_den x

/-- The rounding of a positive `x`: a whole number `m` of units `2^g` in the last place, where
`2^(g+52) <= x < 2^(g+53)`, `m` is within half a unit of `x`, and whole numbers of units on
either side of `x` stay on that side of `m`. -/
theorem roundDouble_pos (x : ℚ) (hx : 0 < x) :
    ∃ (m : ℕ) (g : ℤ), roundDouble x = (m : ℚ) * (2 : ℚ) ^ g ∧
      (2 : ℚ) ^ (g + 52) ≤ x ∧ x < (2 : ℚ) ^ (g + 53) ∧
      |(m : ℚ) - x / (2 : ℚ) ^ g| ≤ 1 / 2 ∧
      (∀ T : ℕ, x ≤ (T : ℚ) * (2 : ℚ) ^ g → m ≤ T) ∧
      (∀ T : ℕ, (T : ℚ) * (2 : ℚ) ^ g ≤ x → T ≤ m) := by
  obtain ⟨ha, hb, hab, hsign⟩ := rat_pos_parts x hx
  obtain ⟨u1, u2⟩ := ulpExp_spec _ _ ha hb
  rw [hab] at u1 u2
  have hB : 0 < x.den * 2 ^ (ulpExp x.num.natAbs x.den).toNat := Nat.mul_pos hb (pow_pos (by norm_num) _)
  have hBq : (0 : ℚ) < ((x.den * 2 ^ (ulpExp x.num.natAbs x.den).toNat : ℕ) : ℚ) := by exact_mod_cast hB
  have hsc := scaled_div x.num.natAbs x.den hb (ulpExp x.num.natAbs x.den)
  rw [hab] at hsc
  have hgpos : (0 : ℚ) < (2 : ℚ) ^ (ulpExp x.num.natAbs x.den) := zpow_pos (by norm_num) _
  refine ⟨roundHalfEven (x.num.natAbs * 2 ^ (-(ulpExp x.num.natAbs x.den)).toNat)
      (x.den * 2 ^ (ulpExp x.num.natAbs x.den).toNat), ulpExp x.num.natAbs x.den, ?_, u1, u2, ?_, ?_, ?_⟩
  · unfold roundDouble
    simp only [if_neg (ne_of_gt hx), hsign, pow2_eq]
    simp
  · rw [← hsc]; exact roundHalfEven_half _ _ hB
  · intro T hT
    apply roundHalfEven_le _ _ _ hB
    have : x / (2 : ℚ) ^ (ulpExp x.num.natAbs x.den) ≤ T := by rw [div_le_iff₀ hgpos]; exact hT
    rw [← hsc, div_le_iff₀ hBq] at this
    exact_mod_cast this
  · intro T hT
    apply le_roundHalfEven _ _ _ hB
    have : (T : ℚ) ≤ x / (2 : ℚ) ^ (ulpExp x.num.natAbs x.den) := by rw [le_div_iff₀ hgpos]; exact hT
    rw [← hsc, le_div_iff₀ hBq] at this
    exact_mod_cast this

theorem roundDouble_zero : roundDouble 0 = 0 := by
  unfold roundDouble; simp

theorem roundDouble_neg (x : ℚ) : roundDouble (-x) = -roundDouble x := by
  by_cases hx : x = 0
  · subst hx; simp [roundDouble_zero]
  · unfold roundDouble
    simp only [Rat.num_neg_eq_neg_num, Rat.neg_den, Int.natAbs_neg, neg_eq_zero, if_neg hx,
      Int.sign_neg]
    push_cast
    ring

theorem two_zpow_lt {a b : ℤ} (h : (2 : ℚ) ^ a < (2 : ℚ) ^ b) : a < b :=
  (zpow_lt_zpow_iff_right₀ (by norm_num : (1 : ℚ) < 2)).mp h

/-- A binary64 number at or above `2^(g+52)` is a whole number of units `2^g`. -/
theorem isDouble_onGrid (t : ℚ) (g : ℤ) (ht : IsDouble t) (h : (2 : ℚ) ^ (g + 52) ≤ t) :
    ∃ T : ℕ, t = (T : ℚ) * (2 : ℚ) ^ g := by
  obtain ⟨M, E, hM, rfl⟩ := ht
  have h2 : (2 : ℚ) ≠ 0 := two_ne_zero
  have hEpos : (0 : ℚ) < (2 : ℚ) ^ E := zpow_pos (by norm_num) _
  have hpos : (0 : ℚ) < (M : ℚ) * (2 : ℚ) ^ E := lt_of_lt_of_le (zpow_pos (by norm_num) _) h
  have hMpos : (0 : ℚ) < M := by
    by_contra hc
    push_neg at hc
    have := mul_nonpos_of_nonpos_of_nonneg hc (le_of_lt hEpos)
    linarith
  have hMpos' : 0 < M := by exact_mod_cast hMpos
  have hMlt : (M : ℚ) < (2 : ℚ) ^ (53 : ℤ) := by
    have : M < 2 ^ 53 := lt_of_le_of_lt (le_abs_self M) hM
    have : (M : ℚ) < ((2 ^ 53 : ℤ) : ℚ) := by exact_mod_cast this
    rw [show ((2 : ℚ) ^ (53 : ℤ)) = ((2 ^ 53 : ℤ) : ℚ) by norm_num]; exact this
  have hlt : (2 : ℚ) ^ (g + 52) < (2 : ℚ) ^ (53 + E) := by
    calc (2 : ℚ) ^ (g + 52) ≤ (M : ℚ) * (2 : ℚ) ^ E := h
      _ < (2 : ℚ) ^ (53 : ℤ) * (2 : ℚ) ^ E := mul_lt_mul_of_pos_right hMlt hEpos
      _ = (2 : ℚ) ^ (53 + E) := by rw [zpow_add₀ h2]
  have hge : g ≤ E := by have := two_zpow_lt hlt; omega
  obtain ⟨k, hk⟩ : ∃ k : ℕ, E = g + k := ⟨(E - g).toNat, by omega⟩
  refine ⟨M.toNat * 2 ^ k, ?_⟩
  have hMc : ((M.toNat : ℕ) : ℚ) = (M : ℚ) := by
    have : ((M.toNat : ℕ) : ℤ) = M := Int.toNat_of_nonneg (le_of_lt hMpos')
    rw [← Int.cast_natCast, this]
  rw [hk, zpow_add₀ h2, zpow_natCast]
  push_cast
  rw [hMc]; ring

/-- A binary64 number is its own rounding. -/
theorem roundDouble_of_isDouble (x : ℚ) (hx : IsDouble x) : roundDouble x = x := by
  have key : ∀ x : ℚ, 0 < x → IsDouble x → roundDouble x = x := by
    intro x hpos hx
    obtain ⟨m, g, e, lo, -, -, up, dn⟩ := roundDouble_pos x hpos
    obtain ⟨T, hT⟩ := isDouble_onGrid x g hx lo
    have h1 := up T (le_of_eq hT)
    have h2 := dn T (le_of_eq hT.symm)
    have : m = T := le_antisymm h1 h2
    rw [e, this, ← hT]
  rcases lt_trichotomy x 0 with h | h | h
  · have hneg : IsDouble (-x) := by
      obtain ⟨M, E, hM, e⟩ := hx
      exact ⟨-M, E, by rwa [abs_neg], by rw [e]; push_cast; ring⟩
    have := key (-x) (by linarith) hneg
    rw [roundDouble_neg] at this
    linarith
  · rw [h]; exact roundDouble_zero
  · exact key x h hx

/-- An integer of magnitude below `2^53` is a binary64 number. -/
theorem isDouble_int (i : ℤ) (h : |i| < 2 ^ 53) : IsDouble (i : ℚ) :=
  ⟨i, 0, h, by simp⟩

/-- A half-integer `i / 2` with `|i| < 2^53` is a binary64 number. -/
theorem isDouble_half (i : ℤ) (h : |i| < 2 ^ 53) : IsDouble ((i : ℚ) / 2) :=
  ⟨i, -1, h, by rw [zpow_neg, zpow_one]; ring⟩

/-- The relative error of a rounding is at most `2^-53`. -/
theorem roundDouble_err (x : ℚ) : |roundDouble x - x| ≤ |x| / 2 ^ 53 := by
  have key : ∀ x : ℚ, 0 < x → |roundDouble x - x| ≤ |x| / 2 ^ 53 := by
    intro x hpos
    obtain ⟨m, g, e, lo, -, hhalf, -, -⟩ := roundDouble_pos x hpos
    have hg : (0 : ℚ) < (2 : ℚ) ^ g := zpow_pos (by norm_num) _
    have e1 : roundDouble x - x = ((m : ℚ) - x / (2 : ℚ) ^ g) * (2 : ℚ) ^ g := by
      rw [e]; field_simp
    rw [e1, abs_mul, abs_of_pos hg, abs_of_pos hpos]
    have lo' : (2 : ℚ) ^ g * 2 ^ 52 ≤ x := by
      have : (2 : ℚ) ^ (g + 52) = (2 : ℚ) ^ g * 2 ^ 52 := by
        rw [zpow_add₀ (two_ne_zero)]; norm_num
      rwa [this] at lo
    rw [le_div_iff₀ (by norm_num)]
    calc |(m : ℚ) - x / (2 : ℚ) ^ g| * (2 : ℚ) ^ g * 2 ^ 53
        ≤ 1 / 2 * (2 : ℚ) ^ g * 2 ^ 53 := by
          apply mul_le_mul_of_nonneg_right _ (by norm_num)
          exact mul_le_mul_of_nonneg_right hhalf (le_of_lt hg)
      _ = (2 : ℚ) ^ g * 2 ^ 52 := by ring
      _ ≤ x := lo'
  rcases lt_trichotomy x 0 with h | h | h
  · have := key (-x) (by linarith)
    rw [roundDouble_neg, abs_neg] at this
    rw [← abs_neg]
    convert this using 2; ring
  · rw [h, roundDouble_zero]; simp
  · exact key x h

/-- The rounding of `x` is a binary64 number. -/
theorem roundDouble_isDouble (x : ℚ) : IsDouble (roundDouble x) := by
  have key : ∀ x : ℚ, 0 < x → IsDouble (roundDouble x) := by
    intro x hpos
    obtain ⟨m, g, e, -, hi, -, up, -⟩ := roundDouble_pos x hpos
    have hm : m ≤ 2 ^ 53 := by
      apply up
      have : (2 : ℚ) ^ (g + 53) = ((2 ^ 53 : ℕ) : ℚ) * (2 : ℚ) ^ g := by
        rw [zpow_add₀ (two_ne_zero), mul_comm]; norm_num
      rw [← this]; exact le_of_lt hi
    rcases Nat.lt_or_ge m (2 ^ 53) with h | h
    · refine ⟨m, g, ?_, by rw [e]; simp⟩
      rw [abs_of_nonneg (by positivity)]; exact_mod_cast h
    · have hm' : m = 2 ^ 53 := le_antisymm hm h
      refine ⟨2 ^ 52, g + 1, by norm_num, ?_⟩
      rw [e, hm', zpow_add₀ (two_ne_zero)]; push_cast; ring
  rcases lt_trichotomy x 0 with h | h | h
  · obtain ⟨M, E, hM, e⟩ := key (-x) (by linarith)
    rw [roundDouble_neg] at e
    exact ⟨-M, E, by rwa [abs_neg], by push_cast; linarith⟩
  · rw [h, roundDouble_zero]; exact ⟨0, 0, by norm_num, by simp⟩
  · exact key x h

/-- No binary64 number is nearer to `x` than its rounding. -/
theorem roundDouble_nearest (x d : ℚ) (hd : IsDouble d) : |roundDouble x - x| ≤ |d - x| := by
  have key : ∀ x d : ℚ, 0 < x → IsDouble d → |roundDouble x - x| ≤ |d - x| := by
    intro x d hpos hd
    obtain ⟨m, g, e, lo, -, hhalf, -, -⟩ := roundDouble_pos x hpos
    have hg : (0 : ℚ) < (2 : ℚ) ^ g := zpow_pos (by norm_num) _
    have scale : ∀ j : ℤ, (j : ℚ) * (2 : ℚ) ^ g - x = ((j : ℚ) - x / (2 : ℚ) ^ g) * (2 : ℚ) ^ g := by
      intro j; field_simp
    have near : ∀ j : ℤ, |roundDouble x - x| ≤ |(j : ℚ) * (2 : ℚ) ^ g - x| := by
      intro j
      have := nearest_of_half (m : ℤ) j (x / (2 : ℚ) ^ g) (by simpa using hhalf)
      rw [e, scale j]
      have e1 := scale (m : ℤ)
      simp only [Int.cast_natCast] at e1 this
      rw [e1, abs_mul, abs_mul, abs_of_pos hg]
      exact mul_le_mul_of_nonneg_right this (le_of_lt hg)
    rcases le_or_lt ((2 : ℚ) ^ (g + 52)) d with h | h
    · obtain ⟨T, hT⟩ := isDouble_onGrid d g hd h
      have := near (T : ℤ)
      rw [hT]; simpa using this
    · have h1 := near (2 ^ 52 : ℤ)
      have e2 : ((2 ^ 52 : ℤ) : ℚ) * (2 : ℚ) ^ g = (2 : ℚ) ^ (g + 52) := by
        rw [zpow_add₀ (two_ne_zero), mul_comm]; norm_num
      rw [e2] at h1
      refine le_trans h1 ?_
      rw [abs_of_nonpos (by linarith), abs_of_nonpos (by linarith)]
      linarith
  rcases lt_trichotomy x 0 with h | h | h
  · have hneg : IsDouble (-d) := by
      obtain ⟨M, E, hM, e⟩ := hd
      exact ⟨-M, E, by rwa [abs_neg], by rw [e]; push_cast; ring⟩
    have := key (-x) (-d) (by linarith) hneg
    rw [roundDouble_neg] at this
    have e1 : -roundDouble x - -x = -(roundDouble x - x) := by ring
    have e2 : -d - -x = -(d - x) := by ring
    rwa [e1, e2, abs_neg, abs_neg] at this
  · rw [h, roundDouble_zero]; simp
  · exact key x d h hd

theorem isqrtAux_spec (x : Nat) : ∀ (i r : Nat), r * r ≤ x → x < (r + 2 ^ i) * (r + 2 ^ i) →
    isqrtAux x i r * isqrtAux x i r ≤ x ∧ x < (isqrtAux x i r + 1) * (isqrtAux x i r + 1) := by
  intro i
  induction i with
  | zero => intro r h1 h2; simpa [isqrtAux] using ⟨h1, h2⟩
  | succ i ih =>
    intro r h1 h2
    rw [isqrtAux]
    split_ifs with h
    · apply ih _ h
      have : r + 2 ^ i + 2 ^ i = r + 2 ^ (i + 1) := by rw [pow_succ]; ring
      rw [this]; exact h2
    · exact ih _ h1 (not_le.mp h)

/-- The integer square root: `isqrt x` is the greatest number whose square is at most `x`. -/
theorem isqrt_spec (x : Nat) : isqrt x * isqrt x ≤ x ∧ x < (isqrt x + 1) * (isqrt x + 1) := by
  unfold isqrt
  apply isqrtAux_spec x _ 0 (by simp)
  rw [Nat.zero_add, ← pow_add]
  rcases Nat.eq_zero_or_pos x with h | h
  · rw [h]; exact pow_pos (by norm_num) _
  · refine lt_of_lt_of_le (bits_spec x h).2 (Nat.pow_le_pow_right (by norm_num) ?_)
    omega

theorem scaled_div4 (a b : Nat) (hb : 0 < b) (g : ℤ) :
    ((a * 4 ^ (-g).toNat : ℕ) : ℚ) / ((b * 4 ^ g.toNat : ℕ) : ℚ) =
      (a : ℚ) / b / ((2 : ℚ) ^ g * (2 : ℚ) ^ g) := by
  have hbq : (b : ℚ) ≠ 0 := by exact_mod_cast (ne_of_gt hb)
  have e4 : ∀ k : ℕ, ((4 : ℚ) ^ k) = (2 : ℚ) ^ k * (2 : ℚ) ^ k := by
    intro k; rw [← mul_pow]; norm_num
  rcases le_or_lt 0 g with h | h
  · lift g to ℕ using h
    have : (-(g : ℤ)).toNat = 0 := by omega
    rw [this]
    simp only [Int.toNat_ofNat, pow_zero, mul_one, zpow_natCast]
    push_cast
    rw [div_div, e4]
  · obtain ⟨k, rfl⟩ : ∃ k : ℕ, g = -(k : ℤ) := ⟨(-g).toNat, by omega⟩
    have : (-(k : ℤ)).toNat = 0 := by omega
    rw [this]
    simp only [neg_neg, Int.toNat_ofNat, pow_zero, mul_one, zpow_neg, zpow_natCast]
    push_cast
    rw [e4]
    field_simp

/-- The integer `m` chosen by `sqrt64` for the scaled radicand `num / den`. -/
theorem sqrtRound_spec (num den : Nat) (hden : 0 < den) (hbig : 1 * den ≤ num) :
    1 ≤ sqrtRound num den ∧
    (2 * sqrtRound num den - 1) * (2 * sqrtRound num den - 1) * den ≤ 4 * num ∧
    4 * num ≤ (2 * sqrtRound num den + 1) * (2 * sqrtRound num den + 1) * den ∧
    (∀ T : ℕ, num ≤ T * T * den → sqrtRound num den ≤ T) ∧
    (∀ T : ℕ, T * T * den ≤ num → T ≤ sqrtRound num den) := by
  generalize hf : isqrt (num / den) = f
  obtain ⟨f1, f2⟩ := isqrt_spec (num / den)
  rw [hf] at f1 f2
  have hdiv := Nat.div_add_mod num den
  have hmod := Nat.mod_lt num hden
  have hq1 : 1 ≤ num / den := (Nat.le_div_iff_mul_le hden).mpr hbig
  have hf1 : 1 ≤ f := by
    by_contra hc
    have : f = 0 := by omega
    rw [this] at f2; omega
  -- f * f * den ≤ num < (f + 1) * (f + 1) * den
  have lo : f * f * den ≤ num := by
    calc f * f * den ≤ num / den * den := Nat.mul_le_mul_right _ f1
      _ ≤ num := Nat.div_mul_le_self _ _
  have hi : num < (f + 1) * (f + 1) * den := by
    have : num / den + 1 ≤ (f + 1) * (f + 1) := f2
    calc num < (num / den + 1) * den := by rw [Nat.add_mul, Nat.mul_comm]; omega
      _ ≤ (f + 1) * (f + 1) * den := Nat.mul_le_mul_right _ this
  have sq_le : ∀ {u v : ℕ}, u * u * den ≤ v * v * den → u ≤ v := by
    intro u v h
    by_contra hc
    push_neg at hc
    have : v * v < u * u := Nat.mul_lt_mul'' hc hc
    have := Nat.mul_lt_mul_of_pos_right this hden
    omega
  have sq_lt : ∀ {u v : ℕ}, u * u * den < v * v * den → u < v := by
    intro u v h
    by_contra hc
    push_neg at hc
    have : v * v ≤ u * u := Nat.mul_le_mul hc hc
    have := Nat.mul_le_mul_right den this
    omega
  have mcases : (sqrtRound num den = f ∧ 4 * num ≤ (2 * f + 1) * (2 * f + 1) * den) ∨
      (sqrtRound num den = f + 1 ∧ (2 * f + 1) * (2 * f + 1) * den ≤ 4 * num) := by
    unfold sqrtRound
    simp only [hf]
    split_ifs with h1 h2 h3
    · exact Or.inl ⟨rfl, by omega⟩
    · exact Or.inr ⟨rfl, by omega⟩
    · exact Or.inl ⟨rfl, by omega⟩
    · exact Or.inr ⟨rfl, by omega⟩
  rcases mcases with ⟨e, hc⟩ | ⟨e, hc⟩
  · rw [e]
    refine ⟨hf1, ?_, hc, ?_, ?_⟩
    · have : (2 * f - 1) * (2 * f - 1) ≤ 4 * (f * f) := by
        have h1 : 2 * f - 1 ≤ 2 * f := Nat.sub_le _ _
        calc (2 * f - 1) * (2 * f - 1) ≤ (2 * f) * (2 * f) := Nat.mul_le_mul h1 h1
          _ = 4 * (f * f) := by ring
      calc (2 * f - 1) * (2 * f - 1) * den ≤ 4 * (f * f) * den := Nat.mul_le_mul_right _ this
        _ = 4 * (f * f * den) := by ring
        _ ≤ 4 * num := by omega
    · intro T hT
      exact sq_le (le_trans lo hT)
    · intro T hT
      have := sq_lt (lt_of_le_of_lt hT hi)
      omega
  · rw [e]
    refine ⟨by omega, ?_, ?_, ?_, ?_⟩
    · have : 2 * (f + 1) - 1 = 2 * f + 1 := by omega
      rw [this]; exact hc
    · have : 4 * ((f + 1) * (f + 1) * den) ≤ (2 * (f + 1) + 1) * (2 * (f + 1) + 1) * den := by
        have : 4 * ((f + 1) * (f + 1)) ≤ (2 * (f + 1) + 1) * (2 * (f + 1) + 1) := by nlinarith
        calc 4 * ((f + 1) * (f + 1) * den) = 4 * ((f + 1) * (f + 1)) * den := by ring
          _ ≤ _ := Nat.mul_le_mul_right _ this
      omega
    · intro T hT
      have h4 : (2 * f + 1) * (2 * f + 1) * den ≤ (2 * T) * (2 * T) * den := by
        calc (2 * f + 1) * (2 * f + 1) * den ≤ 4 * num := hc
          _ ≤ 4 * (T * T * den) := by omega
          _ = (2 * T) * (2 * T) * den := by ring
      have := sq_le h4
      omega
    · intro T hT
      have := sq_lt (lt_of_le_of_lt hT hi)
      omega

/-- The root of a positive `x` as `sqrt64` rounds it: a whole number `m` of units `2^g`, where
`2^(g+52) <= sqrt x < 2^(g+53)`, `m` is within half a unit of the root, and whole numbers of
units on either side of the root stay on that side of `m`. -/
theorem sqrt64_pos (x : ℚ) (hx : 0 < x) :
    ∃ (m : ℕ) (g : ℤ), sqrt64 x = (m : ℚ) * (2 : ℚ) ^ g ∧
      (2 : ℚ) ^ (g + 52) * (2 : ℚ) ^ (g + 52) ≤ x ∧
      x < (2 : ℚ) ^ (g + 53) * (2 : ℚ) ^ (g + 53) ∧ 1 ≤ m ∧
      ((2 * (m : ℚ) - 1) * (2 : ℚ) ^ g) * ((2 * (m : ℚ) - 1) * (2 : ℚ) ^ g) ≤ 4 * x ∧
      4 * x ≤ ((2 * (m : ℚ) + 1) * (2 : ℚ) ^ g) * ((2 * (m : ℚ) + 1) * (2 : ℚ) ^ g) ∧
      (∀ T : ℕ, x ≤ ((T : ℚ) * (2 : ℚ) ^ g) * ((T : ℚ) * (2 : ℚ) ^ g) → m ≤ T) ∧
      (∀ T : ℕ, ((T : ℚ) * (2 : ℚ) ^ g) * ((T : ℚ) * (2 : ℚ) ^ g) ≤ x → T ≤ m) := by
  obtain ⟨ha, hb, hab, -⟩ := rat_pos_parts x hx
  obtain ⟨u1, u2⟩ := ulpExp_spec _ _ ha hb
  rw [hab] at u1 u2
  have h2 : (2 : ℚ) ≠ 0 := two_ne_zero
  generalize hg : (ulpExp x.num.natAbs x.den + 52) / 2 - 52 = g
  have hg1 : 2 * (g + 52) ≤ ulpExp x.num.natAbs x.den + 52 := by omega
  have hg2 : ulpExp x.num.natAbs x.den + 53 ≤ 2 * (g + 53) := by omega
  have lo : (2 : ℚ) ^ (g + 52) * (2 : ℚ) ^ (g + 52) ≤ x := by
    rw [← zpow_add₀ h2]
    refine le_trans (zpow_le_zpow_right₀ (by norm_num) ?_) u1
    omega
  have hi : x < (2 : ℚ) ^ (g + 53) * (2 : ℚ) ^ (g + 53) := by
    rw [← zpow_add₀ h2]
    refine lt_of_lt_of_le u2 (zpow_le_zpow_right₀ (by norm_num) ?_)
    omega
  have hgpos : (0 : ℚ) < (2 : ℚ) ^ g := zpow_pos (by norm_num) _
  have hgg : (0 : ℚ) < (2 : ℚ) ^ g * (2 : ℚ) ^ g := mul_pos hgpos hgpos
  have hden : 0 < x.den * 4 ^ g.toNat := Nat.mul_pos hb (pow_pos (by norm_num) _)
  have hdenq : (0 : ℚ) < ((x.den * 4 ^ g.toNat : ℕ) : ℚ) := by exact_mod_cast hden
  have hsc := scaled_div4 x.num.natAbs x.den hb g
  rw [hab] at hsc
  -- the scaled radicand is at least 1
  have hone : (2 : ℚ) ^ g * (2 : ℚ) ^ g ≤ x := by
    refine le_trans ?_ lo
    have : (2 : ℚ) ^ g ≤ (2 : ℚ) ^ (g + 52) := zpow_le_zpow_right₀ (by norm_num) (by omega)
    exact mul_le_mul this this (le_of_lt hgpos) (le_trans (le_of_lt hgpos) this)
  have hbig : 1 * (x.den * 4 ^ g.toNat) ≤ x.num.natAbs * 4 ^ (-g).toNat := by
    have : (1 : ℚ) ≤ x / ((2 : ℚ) ^ g * (2 : ℚ) ^ g) := by rw [le_div_iff₀ hgg, one_mul]; exact hone
    rw [← hsc, le_div_iff₀ hdenq] at this
    exact_mod_cast this
  obtain ⟨m1, m2, m3, m4, m5⟩ := sqrtRound_spec _ _ hden hbig
  generalize hm : sqrtRound (x.num.natAbs * 4 ^ (-g).toNat) (x.den * 4 ^ g.toNat) = m at m1 m2 m3 m4 m5
  -- transport from the scaled radicand to `x`
  have toX : ∀ c : ℚ, (c * ((x.den * 4 ^ g.toNat : ℕ) : ℚ) ≤ ((x.num.natAbs * 4 ^ (-g).toNat : ℕ) : ℚ) ↔
      c * ((2 : ℚ) ^ g * (2 : ℚ) ^ g) ≤ x) := by
    intro c
    rw [← le_div_iff₀ hdenq, hsc, le_div_iff₀ hgg]
  have toX' : ∀ c : ℚ, (((x.num.natAbs * 4 ^ (-g).toNat : ℕ) : ℚ) ≤ c * ((x.den * 4 ^ g.toNat : ℕ) : ℚ) ↔
      x ≤ c * ((2 : ℚ) ^ g * (2 : ℚ) ^ g)) := by
    intro c
    rw [← div_le_iff₀ hdenq, hsc, div_le_iff₀ hgg]
  refine ⟨m, g, ?_, lo, hi, m1, ?_, ?_, ?_, ?_⟩
  · unfold sqrt64
    simp only [if_neg (not_le.mpr hx), pow2_eq, hg, hm]
  · have hc : ((2 * m - 1 : ℕ) : ℚ) = 2 * (m : ℚ) - 1 := by
      rw [Nat.cast_sub (by omega)]; push_cast; ring
    have : (((2 * m - 1) * (2 * m - 1) * (x.den * 4 ^ g.toNat) : ℕ) : ℚ) ≤
        ((4 * (x.num.natAbs * 4 ^ (-g).toNat) : ℕ) : ℚ) := by exact_mod_cast m2
    rw [Nat.cast_mul, Nat.cast_mul, hc, Nat.cast_mul 4] at this
    have h4 : ((2 * (m : ℚ) - 1) * (2 * (m : ℚ) - 1) / 4) * ((x.den * 4 ^ g.toNat : ℕ) : ℚ) ≤
        ((x.num.natAbs * 4 ^ (-g).toNat : ℕ) : ℚ) := by
      have e4 : ((4 : ℕ) : ℚ) = 4 := by norm_num
      rw [e4] at this
      linarith
    have := (toX _).mp h4
    linarith
  · have : ((4 * (x.num.natAbs * 4 ^ (-g).toNat) : ℕ) : ℚ) ≤
        (((2 * m + 1) * (2 * m + 1) * (x.den * 4 ^ g.toNat) : ℕ) : ℚ) := by exact_mod_cast m3
    rw [Nat.cast_mul, Nat.cast_mul ((2 * m + 1) * (2 * m + 1))] at this
    have h4 : ((x.num.natAbs * 4 ^ (-g).toNat : ℕ) : ℚ) ≤
        ((2 * (m : ℚ) + 1) * (2 * (m : ℚ) + 1) / 4) * ((x.den * 4 ^ g.toNat : ℕ) : ℚ) := by
      have e4 : ((4 : ℕ) : ℚ) = 4 := by norm_num
      rw [e4] at this
      push_cast at this ⊢
      linarith
    have := (toX' _).mp h4
    linarith
  · intro T hT
    apply m4
    have : x ≤ ((T : ℚ) * (T : ℚ)) * ((2 : ℚ) ^ g * (2 : ℚ) ^ g) := by linarith
    have := (toX' _).mpr this
    exact_mod_cast this
  · intro T hT
    apply m5
    have : ((T : ℚ) * (T : ℚ)) * ((2 : ℚ) ^ g * (2 : ℚ) ^ g) ≤ x := by linarith
    have := (toX _).mpr this
    exact_mod_cast this

theorem sqrt64_of_nonpos (x : ℚ) (hx : x ≤ 0) : sqrt64 x = 0 := by
  unfold sqrt64; simp [hx]

theorem sqrt64_nonneg (x : ℚ) : 0 ≤ sqrt64 x := by
  rcases le_or_lt x 0 with h | h
  · rw [sqrt64_of_nonpos x h]
  · obtain ⟨m, g, e, -⟩ := sqrt64_pos x h
    rw [e]; positivity

/-- A binary64 number at or above the root of `x` is at or above `sqrt64 x`. -/
theorem sqrt64_le_of_le_sq (x t : ℚ) (ht : IsDouble t) (h0 : 0 ≤ t) (h : x ≤ t * t) :
    sqrt64 x ≤ t := by
  rcases le_or_lt x 0 with hx | hx
  · rw [sqrt64_of_nonpos x hx]; exact h0
  · obtain ⟨m, g, e, lo, -, -, -, -, up, -⟩ := sqrt64_pos x hx
    have hgpos : (0 : ℚ) < (2 : ℚ) ^ g := zpow_pos (by norm_num) _
    have hlo : (2 : ℚ) ^ (g + 52) ≤ t := by
      have hp : (0 : ℚ) < (2 : ℚ) ^ (g + 52) := zpow_pos (by norm_num) _
      by_contra hc
      push_neg at hc
      have : t * t < (2 : ℚ) ^ (g + 52) * (2 : ℚ) ^ (g + 52) := mul_lt_mul'' hc hc h0 h0
      linarith
    obtain ⟨T, hT⟩ := isDouble_onGrid t g ht hlo
    have := up T (by rw [← hT]; exact h)
    rw [e, hT]
    exact mul_le_mul_of_nonneg_right (by exact_mod_cast this) (le_of_lt hgpos)

/-- A binary64 number at or below the root of `x` is at or below `sqrt64 x`. -/
theorem le_sqrt64_of_sq_le (x t : ℚ) (ht : IsDouble t) (h : t * t ≤ x) : t ≤ sqrt64 x := by
  rcases le_or_lt t 0 with h0 | h0
  · exact le_trans h0 (sqrt64_nonneg x)
  · have hx : 0 < x := lt_of_lt_of_le (mul_pos h0 h0) h
    obtain ⟨m, g, e, lo, -, -, -, -, -, dn⟩ := sqrt64_pos x hx
    have hgpos : (0 : ℚ) < (2 : ℚ) ^ g := zpow_pos (by norm_num) _
    have e52 : (2 : ℚ) ^ (g + 52) = ((2 ^ 52 : ℕ) : ℚ) * (2 : ℚ) ^ g := by
      rw [zpow_add₀ (two_ne_zero), mul_comm]; norm_num
    rw [e]
    rcases le_or_lt ((2 : ℚ) ^ (g + 52)) t with hlo | hlo
    · obtain ⟨T, hT⟩ := isDouble_onGrid t g ht hlo
      have := dn T (by rw [← hT]; exact h)
      rw [hT]
      exact mul_le_mul_of_nonneg_right (by exact_mod_cast this) (le_of_lt hgpos)
    · have := dn (2 ^ 52) (by rw [← e52]; exact lo)
      refine le_trans (le_of_lt hlo) ?_
      rw [e52]
      exact mul_le_mul_of_nonneg_right (by exact_mod_cast this) (le_of_lt hgpos)

/-- The root computed by `sqrt64` is a binary64 number. -/
theorem sqrt64_isDouble (x : ℚ) : IsDouble (sqrt64 x) := by
  rcases le_or_lt x 0 with hx | hx
  · rw [sqrt64_of_nonpos x hx]; exact ⟨0, 0, by norm_num, by simp⟩
  · obtain ⟨m, g, e, -, hi, -, -, -, up, -⟩ := sqrt64_pos x hx
    have e53 : (2 : ℚ) ^ (g + 53) = ((2 ^ 53 : ℕ) : ℚ) * (2 : ℚ) ^ g := by
      rw [zpow_add₀ (two_ne_zero), mul_comm]; norm_num
    have hm : m ≤ 2 ^ 53 := up _ (by rw [← e53]; exact le_of_lt hi)
    rcases Nat.lt_or_ge m (2 ^ 53) with h | h
    · refine ⟨m, g, ?_, by rw [e]; simp⟩
      rw [abs_of_nonneg (by positivity)]; exact_mod_cast h
    · have hm' : m = 2 ^ 53 := le_antisymm hm h
      refine ⟨2 ^ 52, g + 1, by norm_num, ?_⟩
      rw [e, hm', zpow_add₀ (two_ne_zero)]; push_cast; ring

/-- The root of a positive `x` as `sqrt64` rounds it, against the real square root: `m` units
`2^g` within half a unit of the root, which is at least `2^52` units. -/
theorem sqrt64_real (x : ℚ) (hx : 0 < x) :
    ∃ (m : ℕ) (g : ℤ), sqrt64 x = (m : ℚ) * (2 : ℚ) ^ g ∧
      2 ^ 52 * (2 : ℝ) ^ g ≤ Real.sqrt (x : ℝ) ∧
      |(m : ℝ) * (2 : ℝ) ^ g - Real.sqrt (x : ℝ)| ≤ (2 : ℝ) ^ g / 2 := by
  obtain ⟨m, g, e, lo, -, m1, b1, b2, -, -⟩ := sqrt64_pos x hx
  have hxr : (0 : ℝ) ≤ (x : ℝ) := by exact_mod_cast (le_of_lt hx)
  have hgpos : (0 : ℝ) < (2 : ℝ) ^ g := zpow_pos (by norm_num) _
  have hs := Real.sqrt_nonneg (x : ℝ)
  have hsq : Real.sqrt (x : ℝ) * Real.sqrt (x : ℝ) = (x : ℝ) := Real.mul_self_sqrt hxr
  have m1r : (1 : ℝ) ≤ (m : ℝ) := by exact_mod_cast m1
  have lor : (2 : ℝ) ^ (g + 52) * (2 : ℝ) ^ (g + 52) ≤ (x : ℝ) := by
    have : (((2 : ℚ) ^ (g + 52) * (2 : ℚ) ^ (g + 52) : ℚ) : ℝ) ≤ (x : ℝ) := by exact_mod_cast lo
    push_cast at this; exact this
  have b1r : ((2 * (m : ℝ) - 1) * (2 : ℝ) ^ g) * ((2 * (m : ℝ) - 1) * (2 : ℝ) ^ g) ≤ 4 * (x : ℝ) := by
    have : ((((2 * (m : ℚ) - 1) * (2 : ℚ) ^ g) * ((2 * (m : ℚ) - 1) * (2 : ℚ) ^ g) : ℚ) : ℝ) ≤
        ((4 * x : ℚ) : ℝ) := by exact_mod_cast b1
    push_cast at this; exact this
  have b2r : 4 * (x : ℝ) ≤ ((2 * (m : ℝ) + 1) * (2 : ℝ) ^ g) * ((2 * (m : ℝ) + 1) * (2 : ℝ) ^ g) := by
    have : ((4 * x : ℚ) : ℝ) ≤
        ((((2 * (m : ℚ) + 1) * (2 : ℚ) ^ g) * ((2 * (m : ℚ) + 1) * (2 : ℚ) ^ g) : ℚ) : ℝ) := by
      exact_mod_cast b2
    push_cast at this; exact this
  have e52 : (2 : ℝ) ^ (g + 52) = 2 ^ 52 * (2 : ℝ) ^ g := by
    rw [zpow_add₀ (two_ne_zero), mul_comm]; norm_num
  have c0 : 2 ^ 52 * (2 : ℝ) ^ g ≤ Real.sqrt (x : ℝ) := by
    rw [← e52]
    apply Real.le_sqrt_of_sq_le
    rw [sq]; exact lor
  have c1 : (2 * (m : ℝ) - 1) * (2 : ℝ) ^ g ≤ 2 * Real.sqrt (x : ℝ) := by
    have hnn : 0 ≤ (2 * (m : ℝ) - 1) * (2 : ℝ) ^ g := mul_nonneg (by linarith) (le_of_lt hgpos)
    by_contra hc
    push_neg at hc
    have := mul_lt_mul'' hc hc (by linarith) (by linarith)
    nlinarith
  have c2 : 2 * Real.sqrt (x : ℝ) ≤ (2 * (m : ℝ) + 1) * (2 : ℝ) ^ g := by
    have hnn : 0 ≤ (2 * (m : ℝ) + 1) * (2 : ℝ) ^ g := mul_nonneg (by linarith) (le_of_lt hgpos)
    by_contra hc
    push_neg at hc
    have := mul_lt_mul'' hc hc hnn hnn
    nlinarith
  refine ⟨m, g, e, c0, ?_⟩
  rw [abs_le]
  constructor <;> linarith

/-- The relative error of `sqrt64` is at most `2^-53`. -/
theorem sqrt64_err (x : ℚ) (hx : 0 ≤ x) :
    |((sqrt64 x : ℚ) : ℝ) - Real.sqrt (x : ℝ)| ≤ Real.sqrt (x : ℝ) / 2 ^ 53 := by
  rcases eq_or_lt_of_le hx with h | h
  · rw [← h, sqrt64_of_nonpos 0 (le_refl 0)]; simp
  · obtain ⟨m, g, e, c0, hhalf⟩ := sqrt64_real x h
    rw [e]
    push_cast
    refine le_trans hhalf ?_
    rw [le_div_iff₀ (by norm_num : (0 : ℝ) < 2 ^ 53)]
    linarith

/-- No binary64 number is nearer to the square root of `x` than `sqrt64 x`: the function is
the correctly rounded square root. -/
theorem sqrt64_nearest (x d : ℚ) (hx : 0 ≤ x) (hd : IsDouble d) :
    |((sqrt64 x : ℚ) : ℝ) - Real.sqrt (x : ℝ)| ≤ |(d : ℝ) - Real.sqrt (x : ℝ)| := by
  rcases eq_or_lt_of_le hx with h | h
  · rw [← h, sqrt64_of_nonpos 0 (le_refl 0)]; simp
  · obtain ⟨m, g, e, c0, hhalf⟩ := sqrt64_real x h
    have hgpos : (0 : ℝ) < (2 : ℝ) ^ g := zpow_pos (by norm_num) _
    rw [e]
    push_cast
    have near : ∀ j : ℤ, |(m : ℝ) * (2 : ℝ) ^ g - Real.sqrt (x : ℝ)| ≤
        |(j : ℝ) * (2 : ℝ) ^ g - Real.sqrt (x : ℝ)| := by
      intro j
      rcases eq_or_ne j (m : ℤ) with hj | hj
      · rw [hj]; simp
      · refine le_trans hhalf ?_
        rw [abs_le] at hhalf
        rcases lt_or_gt_of_ne hj with hlt | hgt
        · have : (j : ℝ) + 1 ≤ (m : ℝ) := by exact_mod_cast hlt
          rw [abs_of_nonpos (by nlinarith)]
          nlinarith
        · have : (m : ℝ) + 1 ≤ (j : ℝ) := by exact_mod_cast hgt
          rw [abs_of_nonneg (by nlinarith)]
          nlinarith
    rcases le_or_lt ((2 : ℚ) ^ (g + 52)) d with hlo | hlo
    · obtain ⟨T, hT⟩ := isDouble_onGrid d g hd hlo
      have := near (T : ℤ)
      rw [hT]; push_cast; simpa using this
    · have h1 := near (2 ^ 52 : ℤ)
      have hlor : (d : ℝ) < 2 ^ 52 * (2 : ℝ) ^ g := by
        have : ((d : ℚ) : ℝ) < (((2 : ℚ) ^ (g + 52) : ℚ) : ℝ) := by exact_mod_cast hlo
        push_cast at this
        rw [zpow_add₀ (two_ne_zero), mul_comm] at this
        norm_num at this ⊢
        exact this
      push_cast at h1
      refine le_trans h1 ?_
      rw [abs_of_nonpos (by linarith), abs_of_nonpos (by linarith)]
      linarith

/-! ## Signs of the corner values -/

theorem int_sign_cases (n : ℤ) :
    (n < 0 ∧ Int.sign n = -1) ∨ (n = 0 ∧ Int.sign n = 0) ∨ (0 < n ∧ Int.sign n = 1) := by
  rcases lt_trichotomy n 0 with h | h | h
  · exact Or.inl ⟨h, Int.sign_eq_neg_one_of_neg h⟩
  · exact Or.inr (Or.inl ⟨h, by simp [h]⟩)
  · exact Or.inr (Or.inr ⟨h, Int.sign_eq_one_of_pos h⟩)

/-- Four corners `2K ± dy ± dx`: the signs sum to less than 3 in magnitude exactly when the
centre value `K` is closer to zero than the half-width `(|dx| + |dy|) / 2`. -/
theorem signSum_core (K dx dy : ℤ) (hdy : dy ≠ 0) (hedge : dx = 0 → 2 * |K| ≠ |dy|) :
    |Int.sign (2 * K + dy - dx) + Int.sign (2 * K + dy + dx) + Int.sign (2 * K - dy - dx)
        + Int.sign (2 * K - dy + dx)| < 3 ↔ 2 * |K| < |dx| + |dy| := by
  rw [abs_lt]
  have h0 := int_sign_cases (2 * K + dy - dx)
  have h1 := int_sign_cases (2 * K + dy + dx)
  have h2 := int_sign_cases (2 * K - dy - dx)
  have h3 := int_sign_cases (2 * K - dy + dx)
  generalize Int.sign (2 * K + dy - dx) = s0 at *
  generalize Int.sign (2 * K + dy + dx) = s1 at *
  generalize Int.sign (2 * K - dy - dx) = s2 at *
  generalize Int.sign (2 * K - dy + dx) = s3 at *
  have aK := abs_cases K
  have ax := abs_cases dx
  have ay := abs_cases dy
  generalize |K| = k at *
  generalize |dx| = a at *
  generalize |dy| = b at *
  by_cases hx : dx = 0
  · have := hedge hx
    omega
  · omega

theorem signTerm_zero : signTerm 0 = 0 := by simp [signTerm]

theorem signTerm_neg (v : ℚ) : signTerm (-v) = -signTerm v := by
  unfold signTerm
  rw [abs_neg]
  split_ifs <;> simp [neg_div]

theorem signTerm_of_pos {v : ℚ} (h : 1/1000000 < v) : signTerm v = 1 := by
  have hv : 0 < v := lt_trans (by norm_num) h
  unfold signTerm
  rw [abs_of_pos hv, if_neg (not_le.mpr h), div_self (ne_of_gt hv)]

theorem signTerm_of_neg {v : ℚ} (h : v < -(1/1000000)) : signTerm v = -1 := by
  have := signTerm_of_pos (v := -v) (by linarith)
  rw [signTerm_neg] at this
  linarith

theorem signTerm_range (v : ℚ) : signTerm v = -1 ∨ signTerm v = 0 ∨ signTerm v = 1 := by
  by_cases h1 : 1/1000000 < v
  · exact Or.inr (Or.inr (signTerm_of_pos h1))
  · by_cases h2 : v < -(1/1000000)
    · exact Or.inl (signTerm_of_neg h2)
    · refine Or.inr (Or.inl ?_)
      unfold signTerm
      rw [if_pos (abs_le.mpr ⟨by linarith, by linarith⟩)]

theorem signCount_eq (slope c : ℚ) (o : Node) :
    signCount slope c o =
      signTerm ((o.x : ℚ) + 1/2 - slope * ((o.y : ℚ) + 1/2) - c)
      + signTerm ((o.x : ℚ) + 1/2 - slope * ((o.y : ℚ) - 1/2) - c)
      + signTerm ((o.x : ℚ) - 1/2 - slope * ((o.y : ℚ) + 1/2) - c)
      + signTerm ((o.x : ℚ) - 1/2 - slope * ((o.y : ℚ) - 1/2) - c) := by
  simp [signCount, cornerValues]

/-- The four corner values, over the common denominator `2 * (n_2.y - n_1.y)`. -/
theorem corner_forms (n_1 n_2 o : Node) (hdy : n_2.y - n_1.y ≠ 0) :
    (o.x : ℚ) + 1/2 - slopeOf n_1 n_2 * ((o.y : ℚ) + 1/2) - interceptOf n_1 n_2
        = ((2 * lineK n_1 n_2 o + (n_2.y - n_1.y) - (n_2.x - n_1.x) : ℤ) : ℚ)
            / (2 * ((n_2.y - n_1.y : ℤ) : ℚ)) ∧
    (o.x : ℚ) + 1/2 - slopeOf n_1 n_2 * ((o.y : ℚ) - 1/2) - interceptOf n_1 n_2
        = ((2 * lineK n_1 n_2 o + (n_2.y - n_1.y) + (n_2.x - n_1.x) : ℤ) : ℚ)
            / (2 * ((n_2.y - n_1.y : ℤ) : ℚ)) ∧
    (o.x : ℚ) - 1/2 - slopeOf n_1 n_2 * ((o.y : ℚ) + 1/2) - interceptOf n_1 n_2
        = ((2 * lineK n_1 n_2 o - (n_2.y - n_1.y) - (n_2.x - n_1.x) : ℤ) : ℚ)
            / (2 * ((n_2.y - n_1.y : ℤ) : ℚ)) ∧
    (o.x : ℚ) - 1/2 - slopeOf n_1 n_2 * ((o.y : ℚ) - 1/2) - interceptOf n_1 n_2
        = ((2 * lineK n_1 n_2 o - (n_2.y - n_1.y) + (n_2.x - n_1.x) : ℤ) : ℚ)
            / (2 * ((n_2.y - n_1.y : ℤ) : ℚ)) := by
  have h : ((n_2.y - n_1.y : ℤ) : ℚ) ≠ 0 := by exact_mod_cast hdy
  unfold interceptOf slopeOf lineK
  push_cast at h ⊢
  refine ⟨?_, ?_, ?_, ?_⟩ <;> (field_simp; ring)

/-- A quotient `n / (2 d)` that the tolerance leaves alone contributes the product of the
signs of `n` and `d`. -/
theorem signTerm_quot (n d : ℤ) (hd : d ≠ 0)
    (h : |(n : ℚ) / (2 * (d : ℚ))| ≤ 1/1000000 → (n : ℚ) / (2 * (d : ℚ)) = 0) :
    signTerm ((n : ℚ) / (2 * (d : ℚ))) = ((Int.sign n * Int.sign d : ℤ) : ℚ) := by
  have hdq : (d : ℚ) ≠ 0 := by exact_mod_cast hd
  by_cases hn : n = 0
  · subst hn; simp [signTerm_zero]
  · have hnq : (n : ℚ) ≠ 0 := by exact_mod_cast hn
    have hv : (n : ℚ) / (2 * (d : ℚ)) ≠ 0 := div_ne_zero hnq (mul_ne_zero two_ne_zero hdq)
    have hbig : ¬ |(n : ℚ) / (2 * (d : ℚ))| ≤ 1/1000000 := fun hle => hv (h hle)
    unfold signTerm
    rw [if_neg hbig]
    rcases lt_or_gt_of_ne hn with hn0 | hn0 <;> rcases lt_or_gt_of_ne hd with hd0 | hd0
    · have hq : 0 < (n : ℚ) / (2 * (d : ℚ)) :=
        div_pos_of_neg_of_neg (by exact_mod_cast hn0) (by linarith [(by exact_mod_cast hd0 : (d : ℚ) < 0)])
      rw [abs_of_pos hq, div_self hv, Int.sign_eq_neg_one_of_neg hn0,
        Int.sign_eq_neg_one_of_neg hd0]; norm_num
    · have hq : (n : ℚ) / (2 * (d : ℚ)) < 0 :=
        div_neg_of_neg_of_pos (by exact_mod_cast hn0) (by linarith [(by exact_mod_cast hd0 : (0 : ℚ) < d)])
      rw [abs_of_neg hq, div_neg, div_self hv, Int.sign_eq_neg_one_of_neg hn0,
        Int.sign_eq_one_of_pos hd0]; norm_num
    · have hq : (n : ℚ) / (2 * (d : ℚ)) < 0 :=
        div_neg_of_pos_of_neg (by exact_mod_cast hn0) (by linarith [(by exact_mod_cast hd0 : (d : ℚ) < 0)])
      rw [abs_of_neg hq, div_neg, div_self hv, Int.sign_eq_one_of_pos hn0,
        Int.sign_eq_neg_one_of_neg hd0]; norm_num
    · have hq : 0 < (n : ℚ) / (2 * (d : ℚ)) :=
        div_pos (by exact_mod_cast hn0) (by linarith [(by exact_mod_cast hd0 : (0 : ℚ) < d)])
      rw [abs_of_pos hq, div_self hv, Int.sign_eq_one_of_pos hn0,
        Int.sign_eq_one_of_pos hd0]; norm_num

theorem snap_corners {slope c : ℚ} {o : Node} {P : ℚ → Prop}
    (h : ∀ v ∈ cornerValues slope c o, P v) :
    P ((o.x : ℚ) + 1/2 - slope * ((o.y : ℚ) + 1/2) - c) ∧
    P ((o.x : ℚ) + 1/2 - slope * ((o.y : ℚ) - 1/2) - c) ∧
    P ((o.x : ℚ) - 1/2 - slope * ((o.y : ℚ) + 1/2) - c) ∧
    P ((o.x : ℚ) - 1/2 - slope * ((o.y : ℚ) - 1/2) - c) := by
  unfold cornerValues at h
  exact ⟨h _ (List.mem_cons_self _ _),
    h _ (List.mem_cons_of_mem _ (List.mem_cons_self _ _)),
    h _ (List.mem_cons_of_mem _ (List.mem_cons_of_mem _ (List.mem_cons_self _ _))),
    h _ (List.mem_cons_of_mem _ (List.mem_cons_of_mem _ (List.mem_cons_of_mem _
      (List.mem_cons_self _ _))))⟩

theorem blocked_iff (n_1 n_2 o : Node) (hdy : n_2.y - n_1.y ≠ 0)
    (hsnap : ∀ v ∈ cornerValues (slopeOf n_1 n_2) (interceptOf n_1 n_2) o,
      |v| ≤ 1/1000000 → v = 0) :
    |signCount (slopeOf n_1 n_2) (interceptOf n_1 n_2) o| < 3 ↔
      2 * |lineK n_1 n_2 o| < |n_2.x - n_1.x| + |n_2.y - n_1.y| := by
  obtain ⟨e0, e1, e2, e3⟩ := corner_forms n_1 n_2 o hdy
  obtain ⟨m0, m1, m2, m3⟩ := snap_corners hsnap
  rw [e0] at m0; rw [e1] at m1; rw [e2] at m2; rw [e3] at m3
  rw [signCount_eq, e0, e1, e2, e3, signTerm_quot _ _ hdy m0, signTerm_quot _ _ hdy m1,
    signTerm_quot _ _ hdy m2, signTerm_quot _ _ hdy m3]
  have hedge : n_2.x - n_1.x = 0 → 2 * |lineK n_1 n_2 o| ≠ |n_2.y - n_1.y| := by
    intro hx hK
    unfold lineK at hK
    rw [hx, mul_zero, sub_zero, abs_mul] at hK
    have hpos : 0 < |n_2.y - n_1.y| := abs_pos.mpr hdy
    have : 2 * |o.x - n_2.x| = 1 := by
      have h2 : (2 * |o.x - n_2.x|) * |n_2.y - n_1.y| = 1 * |n_2.y - n_1.y| := by linarith
      exact mul_right_cancel₀ (ne_of_gt hpos) h2
    omega
  rw [← signSum_core _ _ _ hdy hedge]
  have key : ∀ S : ℤ, |S * Int.sign (n_2.y - n_1.y)| = |S| := by
    intro S
    rw [abs_mul]
    rcases lt_or_gt_of_ne hdy with h | h
    · rw [Int.sign_eq_neg_one_of_neg h]; simp
    · rw [Int.sign_eq_one_of_pos h]; simp
  rw [← key]
  rw [← Int.cast_add, ← Int.cast_add, ← Int.cast_add, ← Int.cast_abs]
  rw [show ((3 : ℚ) = ((3 : ℤ) : ℚ)) by norm_num, Int.cast_lt]
  rw [add_mul, add_mul, add_mul]

/-! ## The segment and the open unit square -/

theorem xSpan_iff (n_1 n_2 o : Node) :
    xSpan n_1 n_2 o = true ↔ (o.x ≤ n_1.x ∧ n_2.x ≤ o.x) ∨ (n_1.x ≤ o.x ∧ o.x ≤ n_2.x) := by
  simp [xSpan]

theorem ySpan_iff (n_1 n_2 o : Node) :
    ySpan n_1 n_2 o = true ↔ (o.y ≤ n_1.y ∧ n_2.y ≤ o.y) ∨ (n_1.y ≤ o.y ∧ o.y ≤ n_2.y) := by
  simp [ySpan]

/-- A point of the segment inside the square, from the signs `σx`, `σy` of the direction. -/
theorem hit_param (u v dx dy K D σx σy : ℝ) (hσx : σx = 1 ∨ σx = -1) (hσy : σy = 1 ∨ σy = -1)
    (hD : D = σx * dx + σy * dy) (hDpos : 0 < D) (hK : K = u * dy - v * dx)
    (h0 : 0 ≤ σx * u + σy * v) (h1 : σx * u + σy * v ≤ D) (hlt : 2 * |K| < D) :
    ∃ t : ℝ, 0 ≤ t ∧ t ≤ 1 ∧ |t * dx - u| < 1/2 ∧ |t * dy - v| < 1/2 := by
  have hDne : D ≠ 0 := ne_of_gt hDpos
  have hKD : |K| / D < 1/2 := by
    rw [div_lt_iff₀ hDpos]; linarith
  refine ⟨(σx * u + σy * v) / D, div_nonneg h0 (le_of_lt hDpos), ?_, ?_, ?_⟩
  · rw [div_le_one hDpos]; exact h1
  · have e : (σx * u + σy * v) / D * dx - u = (-σy * K) / D := by
      field_simp; rw [hD, hK]; ring
    rw [e, abs_div, abs_mul, abs_of_pos hDpos]
    rcases hσy with h | h <;> (rw [h]; simpa using hKD)
  · have e : (σx * u + σy * v) / D * dy - v = (σx * K) / D := by
      field_simp; rw [hD, hK]; ring
    rw [e, abs_div, abs_mul, abs_of_pos hDpos]
    rcases hσx with h | h <;> (rw [h]; simpa using hKD)

theorem lineK_cast (A B o : Node) :
    ((lineK A B o : ℤ) : ℝ) =
      ((o.x : ℝ) - A.x) * ((B.y : ℝ) - A.y) - ((o.y : ℝ) - A.y) * ((B.x : ℝ) - A.x) := by
  unfold lineK; push_cast; ring

theorem segment_of_box (A B o : Node) (hne : A.x ≠ B.x ∨ A.y ≠ B.y)
    (hy : ySpan A B o = true) (hx : xSpan A B o = true)
    (hK : 2 * |lineK A B o| < |B.x - A.x| + |B.y - A.y|) : SegmentMeetsInterior A B o := by
  rw [xSpan_iff] at hx
  rw [ySpan_iff] at hy
  have hKr : 2 * |((lineK A B o : ℤ) : ℝ)| < |(B.x : ℝ) - A.x| + |(B.y : ℝ) - A.y| := by
    have : ((2 * |lineK A B o| : ℤ) : ℝ) < ((|B.x - A.x| + |B.y - A.y| : ℤ) : ℝ) :=
      Int.cast_lt.mpr hK
    push_cast at this
    exact this
  have hDpos : 0 < |(B.x : ℝ) - A.x| + |(B.y : ℝ) - A.y| := by
    rcases hne with h | h
    · have : (B.x : ℝ) - A.x ≠ 0 := by
        intro h0; apply h; have : (B.x : ℝ) = A.x := by linarith
        exact_mod_cast this.symm
      have := abs_pos.mpr this
      have := abs_nonneg ((B.y : ℝ) - A.y)
      linarith
    · have : (B.y : ℝ) - A.y ≠ 0 := by
        intro h0; apply h; have : (B.y : ℝ) = A.y := by linarith
        exact_mod_cast this.symm
      have := abs_pos.mpr this
      have := abs_nonneg ((B.x : ℝ) - A.x)
      linarith
  have main : ∀ σx σy : ℝ, (σx = 1 ∨ σx = -1) → (σy = 1 ∨ σy = -1) →
      |(B.x : ℝ) - A.x| = σx * ((B.x : ℝ) - A.x) → |(B.y : ℝ) - A.y| = σy * ((B.y : ℝ) - A.y) →
      0 ≤ σx * ((o.x : ℝ) - A.x) → σx * ((o.x : ℝ) - A.x) ≤ σx * ((B.x : ℝ) - A.x) →
      0 ≤ σy * ((o.y : ℝ) - A.y) → σy * ((o.y : ℝ) - A.y) ≤ σy * ((B.y : ℝ) - A.y) →
      SegmentMeetsInterior A B o := by
    intro σx σy hσx hσy ax ay ux0 ux1 vy0 vy1
    obtain ⟨t, t0, t1, tx, ty⟩ := hit_param ((o.x : ℝ) - A.x) ((o.y : ℝ) - A.y)
      ((B.x : ℝ) - A.x) ((B.y : ℝ) - A.y) (lineK A B o)
      (|(B.x : ℝ) - A.x| + |(B.y : ℝ) - A.y|) σx σy hσx hσy (by rw [ax, ay]) hDpos
      (lineK_cast A B o) (by linarith) (by rw [ax, ay]; linarith) hKr
    refine ⟨t, t0, t1, ?_, ?_⟩
    · have e : (A.x : ℝ) + t * ((B.x : ℝ) - A.x) - o.x = t * ((B.x : ℝ) - A.x) - ((o.x : ℝ) - A.x) := by
        ring
      rw [e]; exact tx
    · have e : (A.y : ℝ) + t * ((B.y : ℝ) - A.y) - o.y = t * ((B.y : ℝ) - A.y) - ((o.y : ℝ) - A.y) := by
        ring
      rw [e]; exact ty
  rcases hx with ⟨hx1, hx2⟩ | ⟨hx1, hx2⟩ <;> rcases hy with ⟨hy1, hy2⟩ | ⟨hy1, hy2⟩
  · have a1 : (o.x : ℝ) ≤ A.x := by exact_mod_cast hx1
    have a2 : (B.x : ℝ) ≤ o.x := by exact_mod_cast hx2
    have b1 : (o.y : ℝ) ≤ A.y := by exact_mod_cast hy1
    have b2 : (B.y : ℝ) ≤ o.y := by exact_mod_cast hy2
    exact main (-1) (-1) (Or.inr rfl) (Or.inr rfl)
      (by rw [abs_of_nonpos (by linarith)]; ring) (by rw [abs_of_nonpos (by linarith)]; ring)
      (by linarith) (by linarith) (by linarith) (by linarith)
  · have a1 : (o.x : ℝ) ≤ A.x := by exact_mod_cast hx1
    have a2 : (B.x : ℝ) ≤ o.x := by exact_mod_cast hx2
    have b1 : (A.y : ℝ) ≤ o.y := by exact_mod_cast hy1
    have b2 : (o.y : ℝ) ≤ B.y := by exact_mod_cast hy2
    exact main (-1) 1 (Or.inr rfl) (Or.inl rfl)
      (by rw [abs_of_nonpos (by linarith)]; ring) (by rw [abs_of_nonneg (by linarith)]; ring)
      (by linarith) (by linarith) (by linarith) (by linarith)
  · have a1 : (A.x : ℝ) ≤ o.x := by exact_mod_cast hx1
    have a2 : (o.x : ℝ) ≤ B.x := by exact_mod_cast hx2
    have b1 : (o.y : ℝ) ≤ A.y := by exact_mod_cast hy1
    have b2 : (B.y : ℝ) ≤ o.y := by exact_mod_cast hy2
    exact main 1 (-1) (Or.inl rfl) (Or.inr rfl)
      (by rw [abs_of_nonneg (by linarith)]; ring) (by rw [abs_of_nonpos (by linarith)]; ring)
      (by linarith) (by linarith) (by linarith) (by linarith)
  · have a1 : (A.x : ℝ) ≤ o.x := by exact_mod_cast hx1
    have a2 : (o.x : ℝ) ≤ B.x := by exact_mod_cast hx2
    have b1 : (A.y : ℝ) ≤ o.y := by exact_mod_cast hy1
    have b2 : (o.y : ℝ) ≤ B.y := by exact_mod_cast hy2
    exact main 1 1 (Or.inl rfl) (Or.inl rfl)
      (by rw [abs_of_nonneg (by linarith)]; ring) (by rw [abs_of_nonneg (by linarith)]; ring)
      (by linarith) (by linarith) (by linarith) (by linarith)

/-- An integer within `1/2` of a point between two integers lies between them. -/
theorem between_of_near (a b o : ℤ) (t : ℝ) (ht0 : 0 ≤ t) (ht1 : t ≤ 1)
    (h : |(a : ℝ) + t * ((b : ℝ) - a) - o| < 1/2) :
    (o ≤ a ∧ b ≤ o) ∨ (a ≤ o ∧ o ≤ b) := by
  rw [abs_lt] at h
  obtain ⟨h1, h2⟩ := h
  rcases le_total a b with hab | hab
  · right
    have habr : (0 : ℝ) ≤ (b : ℝ) - a := by
      have : (a : ℝ) ≤ b := by exact_mod_cast hab
      linarith
    have p1 : 0 ≤ t * ((b : ℝ) - a) := mul_nonneg ht0 habr
    have p2 : t * ((b : ℝ) - a) ≤ (b : ℝ) - a := mul_le_of_le_one_left habr ht1
    have q1 : ((a - 1 : ℤ) : ℝ) < (o : ℝ) := by push_cast; linarith
    have q2 : (o : ℝ) < ((b + 1 : ℤ) : ℝ) := by push_cast; linarith
    have r1 := Int.cast_lt.mp q1
    have r2 := Int.cast_lt.mp q2
    omega
  · left
    have habr : (b : ℝ) - a ≤ 0 := by
      have : (b : ℝ) ≤ a := by exact_mod_cast hab
      linarith
    have p1 : t * ((b : ℝ) - a) ≤ 0 := mul_nonpos_of_nonneg_of_nonpos ht0 habr
    have p2 : (b : ℝ) - a ≤ t * ((b : ℝ) - a) := by
      have := mul_le_of_le_one_left (neg_nonneg.mpr habr) ht1
      linarith
    have q1 : ((b - 1 : ℤ) : ℝ) < (o : ℝ) := by push_cast; linarith
    have q2 : (o : ℝ) < ((a + 1 : ℤ) : ℝ) := by push_cast; linarith
    have r1 := Int.cast_lt.mp q1
    have r2 := Int.cast_lt.mp q2
    omega

theorem box_of_segment (A B o : Node) (hne : A.x ≠ B.x ∨ A.y ≠ B.y)
    (h : SegmentMeetsInterior A B o) :
    ySpan A B o = true ∧ xSpan A B o = true ∧
      2 * |lineK A B o| < |B.x - A.x| + |B.y - A.y| := by
  obtain ⟨t, ht0, ht1, hx, hy⟩ := h
  refine ⟨(ySpan_iff A B o).mpr (between_of_near _ _ _ t ht0 ht1 hy),
    (xSpan_iff A B o).mpr (between_of_near _ _ _ t ht0 ht1 hx), ?_⟩
  set e1 : ℝ := (A.x : ℝ) + t * ((B.x : ℝ) - A.x) - o.x with he1
  set e2 : ℝ := (A.y : ℝ) + t * ((B.y : ℝ) - A.y) - o.y with he2
  have hKe : ((lineK A B o : ℤ) : ℝ) = e2 * ((B.x : ℝ) - A.x) - e1 * ((B.y : ℝ) - A.y) := by
    rw [lineK_cast, he1, he2]; ring
  have b1 : |e2 * ((B.x : ℝ) - A.x)| ≤ 1/2 * |(B.x : ℝ) - A.x| := by
    rw [abs_mul]; exact mul_le_mul_of_nonneg_right (le_of_lt hy) (abs_nonneg _)
  have b2 : |e1 * ((B.y : ℝ) - A.y)| ≤ 1/2 * |(B.y : ℝ) - A.y| := by
    rw [abs_mul]; exact mul_le_mul_of_nonneg_right (le_of_lt hx) (abs_nonneg _)
  have tri : |((lineK A B o : ℤ) : ℝ)| ≤ |e2 * ((B.x : ℝ) - A.x)| + |e1 * ((B.y : ℝ) - A.y)| := by
    rw [hKe]; exact abs_sub _ _
  have strict : |e2 * ((B.x : ℝ) - A.x)| + |e1 * ((B.y : ℝ) - A.y)|
      < 1/2 * |(B.x : ℝ) - A.x| + 1/2 * |(B.y : ℝ) - A.y| := by
    rcases hne with h | h
    · have hne' : (B.x : ℝ) - A.x ≠ 0 := by
        intro h0; apply h; have : (B.x : ℝ) = A.x := by linarith
        exact_mod_cast this.symm
      have : |e2 * ((B.x : ℝ) - A.x)| < 1/2 * |(B.x : ℝ) - A.x| := by
        rw [abs_mul]; exact mul_lt_mul_of_pos_right hy (abs_pos.mpr hne')
      linarith
    · have hne' : (B.y : ℝ) - A.y ≠ 0 := by
        intro h0; apply h; have : (B.y : ℝ) = A.y := by linarith
        exact_mod_cast this.symm
      have : |e1 * ((B.y : ℝ) - A.y)| < 1/2 * |(B.y : ℝ) - A.y| := by
        rw [abs_mul]; exact mul_lt_mul_of_pos_right hx (abs_pos.mpr hne')
      linarith
  have fin : ((2 * |lineK A B o| : ℤ) : ℝ) < ((|B.x - A.x| + |B.y - A.y| : ℤ) : ℝ) := by
    push_cast; linarith
  exact Int.cast_lt.mp fin

/-- With `|n_2.y - n_1.y| < 500000` every nonzero corner value exceeds the tolerance. -/
theorem snapExact_of_small (n_1 n_2 : Node) (obstacles : List Node)
    (hsmall : |n_2.y - n_1.y| < 500000) : SnapExact n_1 n_2 obstacles := by
  intro hdy o _ v hv hle
  have hd : ((n_2.y - n_1.y : ℤ) : ℚ) ≠ 0 := by exact_mod_cast hdy
  have key : ∀ n : ℤ, |(n : ℚ) / (2 * ((n_2.y - n_1.y : ℤ) : ℚ))| ≤ 1/1000000 →
      (n : ℚ) / (2 * ((n_2.y - n_1.y : ℤ) : ℚ)) = 0 := by
    intro n hn
    have hpos : (0 : ℚ) < 2 * |((n_2.y - n_1.y : ℤ) : ℚ)| := by
      have := abs_pos.mpr hd; linarith
    rw [abs_div, abs_mul, abs_of_pos (by norm_num : (0 : ℚ) < 2), div_le_iff₀ hpos] at hn
    have hs : |((n_2.y - n_1.y : ℤ) : ℚ)| < 500000 := by
      have : ((|n_2.y - n_1.y| : ℤ) : ℚ) < ((500000 : ℤ) : ℚ) := Int.cast_lt.mpr hsmall
      push_cast at this ⊢
      exact this
    have hlt : |(n : ℚ)| < 1 := by linarith
    have hlt' : ((|n| : ℤ) : ℚ) < ((1 : ℤ) : ℚ) := by push_cast; exact hlt
    have hn0 : |n| < 1 := Int.cast_lt.mp hlt'
    have : n = 0 := by
      have := abs_nonneg n
      exact abs_eq_zero.mp (by omega)
    rw [this]; simp
  obtain ⟨e0, e1, e2, e3⟩ := corner_forms n_1 n_2 o hdy
  unfold cornerValues at hv
  simp only [List.mem_cons, List.mem_singleton, List.not_mem_nil, or_false] at hv
  rcases hv with h | h | h | h
  · rw [h, e0] at hle ⊢; exact key _ hle
  · rw [h, e1] at hle ⊢; exact key _ hle
  · rw [h, e2] at hle ⊢; exact key _ hle
  · rw [h, e3] at hle ⊢; exact key _ hle

/-! ## C1 -/

/-- C1. With exact line arithmetic and a tolerance that only touches exact zeros,
`CheckObstacle(A, B)` for distinct `A`, `B` is true exactly when the segment from `A` to `B`
passes through the interior of the unit square of some obstacle of the list. -/
theorem checkObstacle_iff_segment (s : RRT) (A B : Node) (hne : A.x ≠ B.x ∨ A.y ≠ B.y)
    (hsnap : SnapExact A B s.obstacle_list_) :
    CheckObstacle s A B = true ↔ ∃ o ∈ s.obstacle_list_, SegmentMeetsInterior A B o := by
  unfold CheckObstacle
  by_cases hdy : B.y - A.y = 0
  · have hyeq : A.y = B.y := by omega
    have hxne : A.x ≠ B.x := by
      rcases hne with h | h
      · exact h
      · exact absurd hyeq h
    rw [if_pos hdy]
    simp only [List.any_eq_true, Bool.and_eq_true, decide_eq_true_eq]
    constructor
    · rintro ⟨o, ho, hx, hy⟩
      have hy' : o.y = B.y := by exact_mod_cast hy
      refine ⟨o, ho, segment_of_box A B o hne ?_ hx ?_⟩
      · rw [ySpan_iff]; right; omega
      · have hK : lineK A B o = 0 := by unfold lineK; rw [hdy, hy']; ring
        rw [hK, hdy]
        have : 0 < |B.x - A.x| := abs_pos.mpr (by omega)
        simpa using this
    · rintro ⟨o, ho, hseg⟩
      obtain ⟨hy, hx, -⟩ := box_of_segment A B o hne hseg
      rw [ySpan_iff] at hy
      refine ⟨o, ho, hx, ?_⟩
      have : o.y = B.y := by omega
      exact_mod_cast this
  · rw [if_neg hdy]
    simp only [List.any_eq_true, Bool.and_eq_true, decide_eq_true_eq]
    constructor
    · rintro ⟨o, ho, ⟨hy, hx⟩, hc⟩
      exact ⟨o, ho, segment_of_box A B o hne hy hx
        ((blocked_iff A B o hdy (hsnap hdy o ho)).mp hc)⟩
    · rintro ⟨o, ho, hseg⟩
      obtain ⟨hy, hx, hK⟩ := box_of_segment A B o hne hseg
      exact ⟨o, ho, ⟨hy, hx⟩, (blocked_iff A B o hdy (hsnap hdy o ho)).mpr hK⟩

theorem checkObstacle_iff_segment_witness :
    ((mkNode 0 0 0 0 0 0).x ≠ (mkNode 4 4 0 0 0 0).x ∨
      (mkNode 0 0 0 0 0 0).y ≠ (mkNode 4 4 0 0 0 0).y) ∧
    SnapExact (mkNode 0 0 0 0 0 0) (mkNode 4 4 0 0 0 0) exObs.obstacle_list_ ∧
    (CheckObstacle exObs (mkNode 0 0 0 0 0 0) (mkNode 4 4 0 0 0 0) = true ↔
      ∃ o ∈ exObs.obstacle_list_, SegmentMeetsInterior (mkNode 0 0 0 0 0 0) (mkNode 4 4 0 0 0 0) o) :=
  ⟨by decide, snapExact_of_small _ _ _ (by decide),
    checkObstacle_iff_segment exObs (mkNode 0 0 0 0 0 0) (mkNode 4 4 0 0 0 0) (by decide)
      (snapExact_of_small _ _ _ (by decide))⟩

/-! ## C2 -/

/-- C2. For `A.y = B.y`, `CheckObstacle(A, B)` is true exactly when some obstacle has the
common `y` and an `x` between `min(A.x, B.x)` and `max(A.x, B.x)`, both inclusive. -/
theorem checkObstacle_horizontal (s : RRT) (A B : Node) (h : A.y = B.y) :
    CheckObstacle s A B = true ↔
      ∃ o ∈ s.obstacle_list_, o.y = A.y ∧ min A.x B.x ≤ o.x ∧ o.x ≤ max A.x B.x := by
  unfold CheckObstacle
  rw [if_pos (by omega)]
  simp only [List.any_eq_true, Bool.and_eq_true, decide_eq_true_eq, xSpan_iff]
  constructor
  · rintro ⟨o, ho, hx, hy⟩
    have hy' : o.y = B.y := by exact_mod_cast hy
    refine ⟨o, ho, by omega, ?_, ?_⟩
    · rcases hx with hx | hx
      · exact le_trans (min_le_right _ _) hx.2
      · exact le_trans (min_le_left _ _) hx.1
    · rcases hx with hx | hx
      · exact le_trans hx.1 (le_max_left _ _)
      · exact le_trans hx.2 (le_max_right _ _)
  · rintro ⟨o, ho, hy, h1, h2⟩
    refine ⟨o, ho, ?_, ?_⟩
    · rcases le_total A.x B.x with hab | hab
      · right
        rw [min_eq_left hab] at h1
        rw [max_eq_right hab] at h2
        exact ⟨h1, h2⟩
      · left
        rw [min_eq_right hab] at h1
        rw [max_eq_left hab] at h2
        exact ⟨h2, h1⟩
    · have : o.y = B.y := by omega
      exact_mod_cast this

/-- With the single obstacle `(5, 3)`: the segment `(0,3)-(10,3)` is blocked and the segment
`(0,4)-(10,4)` is clear. -/
theorem checkObstacle_horizontal_witness :
    ((mkNode 0 3 0 0 0 0).y = (mkNode 10 3 0 0 0 0).y ∧
      CheckObstacle exRow (mkNode 0 3 0 0 0 0) (mkNode 10 3 0 0 0 0) = true) ∧
    ((mkNode 0 4 0 0 0 0).y = (mkNode 10 4 0 0 0 0).y ∧
      CheckObstacle exRow (mkNode 0 4 0 0 0 0) (mkNode 10 4 0 0 0 0) = false) := by
  refine ⟨⟨rfl, ?_⟩, ⟨rfl, ?_⟩⟩
  · exact (checkObstacle_horizontal exRow (mkNode 0 3 0 0 0 0) (mkNode 10 3 0 0 0 0) rfl).mpr
      ⟨mkNode 5 3 0 0 0 0, by simp [exRow], by decide⟩
  · rw [Bool.eq_false_iff]
    intro hc
    obtain ⟨o, ho, hy, -⟩ :=
      (checkObstacle_horizontal exRow (mkNode 0 4 0 0 0 0) (mkNode 10 4 0 0 0 0) rfl).mp hc
    simp only [exRow, List.mem_singleton] at ho
    subst ho
    exact absurd hy (by decide)

/-! ## C3 -/

/-- An obstacle standing on an end point of the segment always blocks it. -/
theorem checkObstacle_endpoint (s : RRT) (A B o : Node) (ho : o ∈ s.obstacle_list_)
    (hpos : (o.x = A.x ∧ o.y = A.y) ∨ (o.x = B.x ∧ o.y = B.y)) :
    CheckObstacle s A B = true := by
  unfold CheckObstacle
  by_cases hdy : B.y - A.y = 0
  · rw [if_pos hdy]
    simp only [List.any_eq_true, Bool.and_eq_true, decide_eq_true_eq, xSpan_iff]
    refine ⟨o, ho, ?_, ?_⟩
    · rcases hpos with h | h <;> omega
    · have : o.y = B.y := by rcases hpos with h | h <;> omega
      exact_mod_cast this
  · rw [if_neg hdy]
    simp only [List.any_eq_true, Bool.and_eq_true, decide_eq_true_eq, xSpan_iff, ySpan_iff]
    refine ⟨o, ho, ⟨?_, ?_⟩, ?_⟩
    · rcases hpos with h | h <;> omega
    · rcases hpos with h | h <;> omega
    · obtain ⟨e0, e1, e2, e3⟩ := corner_forms A B o hdy
      have hK : lineK A B o = 0 := by
        unfold lineK
        rcases hpos with h | h
        · rw [h.1, h.2]; ring
        · rw [h.1, h.2]; ring
      rw [hK] at e0 e1 e2 e3
      have n3 : ((2 * 0 - (B.y - A.y) + (B.x - A.x) : ℤ) : ℚ) / (2 * ((B.y - A.y : ℤ) : ℚ))
          = -(((2 * 0 + (B.y - A.y) - (B.x - A.x) : ℤ) : ℚ) / (2 * ((B.y - A.y : ℤ) : ℚ))) := by
        rw [← neg_div]; congr 1; push_cast; ring
      have n2 : ((2 * 0 - (B.y - A.y) - (B.x - A.x) : ℤ) : ℚ) / (2 * ((B.y - A.y : ℤ) : ℚ))
          = -(((2 * 0 + (B.y - A.y) + (B.x - A.x) : ℤ) : ℚ) / (2 * ((B.y - A.y : ℤ) : ℚ))) := by
        rw [← neg_div]; congr 1; push_cast; ring
      rw [signCount_eq, e0, e1, e2, e3, n3, n2, signTerm_neg, signTerm_neg]
      have : ∀ a b : ℚ, a + b + -b + -a = 0 := by intro a b; ring
      rw [this]; norm_num

/-- C3, as the code has it: for distinct `A`, `B` and an obstacle list whose only obstacle
stands on `A` or on `B`, `CheckObstacle(A, B)` reports a collision. -/
theorem checkObstacle_endpoint_blocks (s : RRT) (A B o : Node)
    (_hne : A.x ≠ B.x ∨ A.y ≠ B.y) (hobs : s.obstacle_list_ = [o])
    (hpos : (o.x = A.x ∧ o.y = A.y) ∨ (o.x = B.x ∧ o.y = B.y)) :
    CheckObstacle s A B = true :=
  checkObstacle_endpoint s A B o (by rw [hobs]; exact List.mem_singleton_self o) hpos

theorem checkObstacle_endpoint_blocks_witness :
    ((mkNode 0 0 0 0 0 0).x ≠ (mkNode 3 1 0 0 0 0).x ∨
      (mkNode 0 0 0 0 0 0).y ≠ (mkNode 3 1 0 0 0 0).y) ∧
    exOrigin.obstacle_list_ = [mkNode 0 0 0 0 0 0] ∧
    CheckObstacle exOrigin (mkNode 0 0 0 0 0 0) (mkNode 3 1 0 0 0 0) = true :=
  ⟨by decide, rfl,
    checkObstacle_endpoint_blocks exOrigin (mkNode 0 0 0 0 0 0) (mkNode 3 1 0 0 0 0)
      (mkNode 0 0 0 0 0 0) (by decide) rfl (Or.inl ⟨rfl, rfl⟩)⟩

/-- C3 as stated fails: the only obstacle `(0, 0)` stands on the end point `A = (0, 0)` of the
segment to `B = (2, 0)`, distinct from `A`, and `CheckObstacle(A, B)` is not `false`. -/
theorem checkObstacle_endpoint_counterexample :
    ¬ (((mkNode 0 0 0 0 0 0).x ≠ (mkNode 2 0 0 0 0 0).x ∨
          (mkNode 0 0 0 0 0 0).y ≠ (mkNode 2 0 0 0 0 0).y) →
        exOrigin.obstacle_list_ = [mkNode 0 0 0 0 0 0] →
        CheckObstacle exOrigin (mkNode 0 0 0 0 0 0) (mkNode 2 0 0 0 0 0) = false) := by
  intro h
  have := h (by decide) rfl
  revert this
  decide!

/-! ## The computed distance -/

/-- The comparison of the Euclidean distance `sqrt(k)` with a rational threshold. -/
theorem euclid_le_iff (k : ℤ) (t : ℚ) :
    Real.sqrt (k : ℝ) ≤ (t : ℝ) ↔ 0 ≤ t ∧ (k : ℚ) ≤ t * t := by
  rw [Real.sqrt_le_iff]
  constructor
  · rintro ⟨h0, h1⟩
    refine ⟨by exact_mod_cast h0, ?_⟩
    have : ((k : ℚ) : ℝ) ≤ ((t * t : ℚ) : ℝ) := by
      push_cast; rw [sq] at h1; exact h1
    exact_mod_cast this
  · rintro ⟨h0, h1⟩
    refine ⟨by exact_mod_cast h0, ?_⟩
    have : ((k : ℚ) : ℝ) ≤ ((t * t : ℚ) : ℝ) := by exact_mod_cast h1
    push_cast at this
    rw [sq]; exact this

theorem sqDist_nonneg (a b : Node) : 0 ≤ sqDist a b := by
  unfold sqDist
  nlinarith [mul_self_nonneg (a.x - b.x), mul_self_nonneg (a.y - b.y)]

/-- An integer of magnitude below `2^53` is its own rounding. -/
theorem roundDouble_int (i : ℤ) (h : |i| < 2 ^ 53) : roundDouble (i : ℚ) = (i : ℚ) :=
  roundDouble_of_isDouble _ (isDouble_int i h)

/-- Below `2^53` the radicand of the distance is computed without rounding. -/
theorem radicand_exact (a b : Node) (h : sqDist a b < 2 ^ 53) :
    fadd (fmul ((a.x - b.x : Int) : ℚ) ((a.x - b.x : Int) : ℚ))
      (fmul ((a.y - b.y : Int) : ℚ) ((a.y - b.y : Int) : ℚ)) = ((sqDist a b : Int) : ℚ) := by
  have hx := mul_self_nonneg (a.x - b.x)
  have hy := mul_self_nonneg (a.y - b.y)
  have hk : sqDist a b = (a.x - b.x) * (a.x - b.x) + (a.y - b.y) * (a.y - b.y) := rfl
  have e1 : fmul ((a.x - b.x : Int) : ℚ) ((a.x - b.x : Int) : ℚ) =
      (((a.x - b.x) * (a.x - b.x) : Int) : ℚ) := by
    unfold fmul
    rw [← Int.cast_mul]
    exact roundDouble_int _ (by rw [abs_of_nonneg hx]; omega)
  have e2 : fmul ((a.y - b.y : Int) : ℚ) ((a.y - b.y : Int) : ℚ) =
      (((a.y - b.y) * (a.y - b.y) : Int) : ℚ) := by
    unfold fmul
    rw [← Int.cast_mul]
    exact roundDouble_int _ (by rw [abs_of_nonneg hy]; omega)
  rw [e1, e2]
  unfold fadd
  rw [← Int.cast_add, ← hk]
  exact roundDouble_int _ (by rw [abs_of_nonneg (sqDist_nonneg a b)]; exact h)

theorem dist64_of_small (a b : Node) (h : sqDist a b < 2 ^ 53) :
    dist64 a b = sqrt64 ((sqDist a b : Int) : ℚ) := by
  unfold dist64
  rw [radicand_exact a b h]

theorem dist64_nonneg (a b : Node) : 0 ≤ dist64 a b := sqrt64_nonneg _

theorem dist64_congr (a a' b b' : Node) (hax : a.x = a'.x) (hay : a.y = a'.y)
    (hbx : b.x = b'.x) (hby : b.y = b'.y) : dist64 a b = dist64 a' b' := by
  simp only [dist64, hax, hay, hbx, hby]

theorem dist64_comm (a b : Node) : dist64 a b = dist64 b a := by
  have e : ∀ u v : Int, fmul ((u - v : Int) : ℚ) ((u - v : Int) : ℚ) =
      fmul ((v - u : Int) : ℚ) ((v - u : Int) : ℚ) := by
    intro u v
    unfold fmul
    congr 1
    push_cast
    ring
  unfold dist64
  rw [e a.x b.x, e a.y b.y]

/-- A binary64 threshold at or above the Euclidean distance passes the computed distance. -/
theorem dist64_le_of_euclid_le (a b : Node) (t : ℚ) (hk : sqDist a b < 2 ^ 53)
    (ht : IsDouble t) (h : Real.sqrt ((sqDist a b : ℤ) : ℝ) ≤ (t : ℝ)) : dist64 a b ≤ t := by
  rw [dist64_of_small a b hk]
  obtain ⟨h0, h1⟩ := (euclid_le_iff _ _).mp h
  exact sqrt64_le_of_le_sq _ t ht h0 h1

/-- The computed distance is within `2^-53` of the Euclidean distance, relatively. -/
theorem dist64_err (a b : Node) (hk : sqDist a b < 2 ^ 53) :
    |((dist64 a b : ℚ) : ℝ) - Real.sqrt ((sqDist a b : ℤ) : ℝ)| ≤
      Real.sqrt ((sqDist a b : ℤ) : ℝ) / 2 ^ 53 := by
  rw [dist64_of_small a b hk]
  have := sqrt64_err ((sqDist a b : Int) : ℚ) (by exact_mod_cast sqDist_nonneg a b)
  simpa using this

/-- A threshold that passes the computed distance is below the Euclidean distance by at most
the factor `1 + 2^-52`. -/
theorem euclid_le_of_dist64_le (a b : Node) (t : ℚ) (hk : sqDist a b < 2 ^ 53)
    (h : dist64 a b ≤ t) :
    Real.sqrt ((sqDist a b : ℤ) : ℝ) ≤ (t : ℝ) * (1 + 1 / 2 ^ 52) := by
  have herr := dist64_err a b hk
  have hs := Real.sqrt_nonneg ((sqDist a b : ℤ) : ℝ)
  have ht : ((dist64 a b : ℚ) : ℝ) ≤ (t : ℝ) := by exact_mod_cast h
  rw [abs_le] at herr
  obtain ⟨h1, -⟩ := herr
  have h2 : Real.sqrt ((sqDist a b : ℤ) : ℝ) * (1 - 1 / 2 ^ 53) ≤ (t : ℝ) := by
    have : Real.sqrt ((sqDist a b : ℤ) : ℝ) / 2 ^ 53 =
        Real.sqrt ((sqDist a b : ℤ) : ℝ) * (1 / 2 ^ 53) := by ring
    rw [this] at h1
    linarith
  have ht0 : (0 : ℝ) ≤ (t : ℝ) := by
    have : (0 : ℝ) ≤ 1 - 1 / 2 ^ 53 := by norm_num
    nlinarith
  nlinarith

/-- Below `2^50` a smaller squared distance gives a smaller computed distance. -/
theorem dist64_lt_of_sqDist_lt (a b c d : Node) (h1 : sqDist a b < sqDist c d)
    (h2 : sqDist c d < 2 ^ 50) : dist64 a b < dist64 c d := by
  have ha := dist64_err a b (by omega)
  have hc := dist64_err c d (by omega)
  have k1 := sqDist_nonneg a b
  have k1r : (0 : ℝ) ≤ ((sqDist a b : ℤ) : ℝ) := by exact_mod_cast k1
  have k2r : (0 : ℝ) ≤ ((sqDist c d : ℤ) : ℝ) := by exact_mod_cast (le_trans k1 (le_of_lt h1))
  have hx := Real.sqrt_nonneg ((sqDist a b : ℤ) : ℝ)
  have hy := Real.sqrt_nonneg ((sqDist c d : ℤ) : ℝ)
  have sx := Real.mul_self_sqrt k1r
  have sy := Real.mul_self_sqrt k2r
  have hgap : ((sqDist a b : ℤ) : ℝ) + 1 ≤ ((sqDist c d : ℤ) : ℝ) := by exact_mod_cast h1
  have hbig : ((sqDist c d : ℤ) : ℝ) < 2 ^ 50 := by exact_mod_cast h2
  generalize Real.sqrt ((sqDist a b : ℤ) : ℝ) = x at *
  generalize Real.sqrt ((sqDist c d : ℤ) : ℝ) = y at *
  rw [abs_le] at ha hc
  have hy25 : y < 2 ^ 25 := by
    by_contra hcon
    push_neg at hcon
    nlinarith
  have hxy : x ≤ y := by
    by_contra hcon
    push_neg at hcon
    nlinarith
  -- (y - x) * (x + y) ≥ 1 and x + y < 2^26
  have hprod : 1 ≤ (y - x) * (x + y) := by nlinarith
  have hsum : x + y < 2 ^ 26 := by linarith
  have hdiff : 1 / 2 ^ 26 < y - x := by
    by_contra hcon
    push_neg at hcon
    have hyx : 0 ≤ y - x := by linarith
    have : (y - x) * (x + y) ≤ 1 / 2 ^ 26 * (x + y) :=
      mul_le_mul_of_nonneg_right hcon (by linarith)
    have : 1 / 2 ^ 26 * (x + y) < 1 / 2 ^ 26 * 2 ^ 26 :=
      mul_lt_mul_of_pos_left hsum (by norm_num)
    norm_num at this
    linarith
  have : ((dist64 a b : ℚ) : ℝ) < ((dist64 c d : ℚ) : ℝ) := by
    have e1 : x / 2 ^ 53 < 1 / 2 ^ 27 / 2 := by
      rw [div_lt_iff₀ (by norm_num)]
      have : x < 2 ^ 25 := lt_of_le_of_lt hxy hy25
      norm_num at this ⊢
      linarith
    have e2 : y / 2 ^ 53 < 1 / 2 ^ 27 / 2 := by
      rw [div_lt_iff₀ (by norm_num)]
      norm_num at hy25 ⊢
      linarith
    have e3 : (1 : ℝ) / 2 ^ 26 = 1 / 2 ^ 27 / 2 + 1 / 2 ^ 27 / 2 + 1 / 2 ^ 27 := by norm_num
    linarith [ha.2, hc.1]
  exact_mod_cast this

/-- Below `2^50` the computed distances are ordered as the squared distances. -/
theorem dist64_le_iff (a b c d : Node) (h1 : sqDist a b < 2 ^ 50) (h2 : sqDist c d < 2 ^ 50) :
    dist64 a b ≤ dist64 c d ↔ sqDist a b ≤ sqDist c d := by
  constructor
  · intro h
    by_contra hc
    exact absurd (dist64_lt_of_sqDist_lt c d a b (not_le.mp hc) h1) (not_lt.mpr h)
  · intro h
    rcases eq_or_lt_of_le h with e | l
    · rw [dist64_of_small a b (by omega), dist64_of_small c d (by omega), e]
    · exact le_of_lt (dist64_lt_of_sqDist_lt a b c d l h2)

theorem dist64_eq_iff (a b c d : Node) (h1 : sqDist a b < 2 ^ 50) (h2 : sqDist c d < 2 ^ 50) :
    dist64 a b = dist64 c d ↔ sqDist a b = sqDist c d := by
  constructor
  · intro h
    exact le_antisymm ((dist64_le_iff a b c d h1 h2).mp (le_of_eq h))
      ((dist64_le_iff c d a b h2 h1).mp (le_of_eq h.symm))
  · intro e
    rw [dist64_of_small a b (by omega), dist64_of_small c d (by omega), e]
theorem roundDouble_bounds (x : ℚ) (hx : 0 ≤ x) :
    0 ≤ roundDouble x ∧ roundDouble x ≤ x + x / 2 ^ 53 := by
  have h := roundDouble_err x
  rw [abs_of_nonneg hx, abs_le] at h
  have : x / 2 ^ 53 ≤ x := by
    rw [div_le_iff₀ (by norm_num)]
    nlinarith
  constructor <;> linarith [h.1, h.2]

/-- Two nodes of the `n`-by-`n` grid are nearer to each other than `n * n`, in computed
distance too. -/
theorem dist64_lt_of_onGrid (n : Nat) (t c : Node) (ht : OnGrid n t) (hc : OnGrid n c) :
    dist64 t c < (((n : Int) * n : Int) : ℚ) := by
  obtain ⟨t1, t2, t3, t4⟩ := ht
  obtain ⟨c1, c2, c3, c4⟩ := hc
  have hn : (1 : Int) ≤ n := by omega
  have hx : (t.x - c.x) * (t.x - c.x) ≤ ((n : Int) - 1) * ((n : Int) - 1) := by
    have h1 : t.x - c.x ≤ (n : Int) - 1 := by omega
    have h2 : -((n : Int) - 1) ≤ t.x - c.x := by omega
    nlinarith
  have hy : (t.y - c.y) * (t.y - c.y) ≤ ((n : Int) - 1) * ((n : Int) - 1) := by
    have h1 : t.y - c.y ≤ (n : Int) - 1 := by omega
    have h2 : -((n : Int) - 1) ≤ t.y - c.y := by omega
    nlinarith
  have hx0 := mul_self_nonneg (t.x - c.x)
  have hy0 := mul_self_nonneg (t.y - c.y)
  -- the same in ℚ
  have hxq : ((t.x - c.x : Int) : ℚ) * ((t.x - c.x : Int) : ℚ) ≤ ((n : ℚ) - 1) * ((n : ℚ) - 1) := by
    have : (((t.x - c.x) * (t.x - c.x) : Int) : ℚ) ≤ ((((n : Int) - 1) * ((n : Int) - 1) : Int) : ℚ) := by
      exact_mod_cast hx
    push_cast at this ⊢; exact this
  have hyq : ((t.y - c.y : Int) : ℚ) * ((t.y - c.y : Int) : ℚ) ≤ ((n : ℚ) - 1) * ((n : ℚ) - 1) := by
    have : (((t.y - c.y) * (t.y - c.y) : Int) : ℚ) ≤ ((((n : Int) - 1) * ((n : Int) - 1) : Int) : ℚ) := by
      exact_mod_cast hy
    push_cast at this ⊢; exact this
  have hx0q : (0 : ℚ) ≤ ((t.x - c.x : Int) : ℚ) * ((t.x - c.x : Int) : ℚ) := mul_self_nonneg _
  have hy0q : (0 : ℚ) ≤ ((t.y - c.y : Int) : ℚ) * ((t.y - c.y : Int) : ℚ) := mul_self_nonneg _
  have hm : (0 : ℚ) ≤ (n : ℚ) - 1 := by
    have : ((1 : Int) : ℚ) ≤ ((n : Int) : ℚ) := by exact_mod_cast hn
    push_cast at this; linarith
  unfold dist64 fadd fmul
  generalize ((t.x - c.x : Int) : ℚ) * ((t.x - c.x : Int) : ℚ) = p at *
  generalize ((t.y - c.y : Int) : ℚ) * ((t.y - c.y : Int) : ℚ) = q at *
  obtain ⟨p0, p1⟩ := roundDouble_bounds p hx0q
  obtain ⟨q0, q1⟩ := roundDouble_bounds q hy0q
  obtain ⟨r0, r1⟩ := roundDouble_bounds (roundDouble p + roundDouble q) (by linarith)
  generalize roundDouble p = p' at *
  generalize roundDouble q = q' at *
  generalize roundDouble (p' + q') = r at *
  have hnn : (((n : Int) * n : Int) : ℚ) = (n : ℚ) * (n : ℚ) := by push_cast; ring
  rw [hnn]
  -- the rounded radicand is at most `(2 (n - 1))^2`
  have hr : r ≤ (2 * ((n : ℚ) - 1)) * (2 * ((n : ℚ) - 1)) := by
    have h1 : p' + q' ≤ (p + q) * (1 + 1 / 2 ^ 53) := by
      have : (p + q) * (1 + 1 / 2 ^ 53) = (p + p / 2 ^ 53) + (q + q / 2 ^ 53) := by ring
      linarith
    have h2 : r ≤ (p' + q') * (1 + 1 / 2 ^ 53) := by
      have : (p' + q') * (1 + 1 / 2 ^ 53) = (p' + q') + (p' + q') / 2 ^ 53 := by ring
      linarith
    have h3 : r ≤ (p + q) * ((1 + 1 / 2 ^ 53) * (1 + 1 / 2 ^ 53)) := by
      have : (p' + q') * (1 + 1 / 2 ^ 53) ≤ (p + q) * (1 + 1 / 2 ^ 53) * (1 + 1 / 2 ^ 53) :=
        mul_le_mul_of_nonneg_right h1 (by norm_num)
      linarith
    have h4 : (p + q) * ((1 + 1 / 2 ^ 53) * (1 + 1 / 2 ^ 53)) ≤ (p + q) * 2 :=
      mul_le_mul_of_nonneg_left (by norm_num) (by linarith)
    nlinarith
  have herr := sqrt64_err r r0
  have hrr : ((r : ℚ) : ℝ) ≤ (2 * ((n : ℝ) - 1)) ^ 2 := by
    have : ((r : ℚ) : ℝ) ≤ (((2 * ((n : ℚ) - 1)) * (2 * ((n : ℚ) - 1)) : ℚ) : ℝ) := by
      exact_mod_cast hr
    push_cast at this
    rw [sq]; exact this
  have hmr : (0 : ℝ) ≤ (n : ℝ) - 1 := by
    have : ((0 : ℚ) : ℝ) ≤ (((n : ℚ) - 1 : ℚ) : ℝ) := by exact_mod_cast hm
    push_cast at this; exact this
  have hsq : Real.sqrt ((r : ℚ) : ℝ) ≤ 2 * ((n : ℝ) - 1) :=
    Real.sqrt_le_iff.mpr ⟨by linarith, hrr⟩
  have hs0 := Real.sqrt_nonneg ((r : ℚ) : ℝ)
  rw [abs_le] at herr
  have : ((sqrt64 r : ℚ) : ℝ) < (((n : ℚ) * (n : ℚ) : ℚ) : ℝ) := by
    push_cast
    have e : Real.sqrt ((r : ℚ) : ℝ) / 2 ^ 53 ≤ Real.sqrt ((r : ℚ) : ℝ) / 2 := by
      rw [div_le_iff₀ (by norm_num : (0 : ℝ) < 2 ^ 53)]
      nlinarith
    nlinarith [herr.2]
  exact_mod_cast this
/-! ## The scan of `FindNearestPoint` -/

theorem nearestStep_of_not_qualifies (s : RRT) (cand : Node) (acc : ℚ × Option Node)
    (t : Node) (h : ¬ Qualifies s cand t) : nearestStep s cand acc t = acc := by
  unfold nearestStep
  simp only []
  by_cases h1 : dist64 t cand ≤ s.threshold_
  · have h1' : ¬ dist64 t cand > s.threshold_ := not_lt.mpr h1
    by_cases h2 : CheckObstacle s t cand = true
    · simp [h1', h2]
    · by_cases h3 : t.id = cand.id
      · simp [h1', h2, h3]
      · by_cases h4 : t.pid = cand.id
        · simp [h1', h2, h3, h4]
        · exact absurd ⟨h1, by simpa using h2, h3, h4⟩ h
  · have h1' : dist64 t cand > s.threshold_ := not_le.mp h1
    simp [h1']

theorem nearestStep_of_qualifies (s : RRT) (cand : Node) (acc : ℚ × Option Node)
    (t : Node) (h : Qualifies s cand t) :
    nearestStep s cand acc t =
      if dist64 t cand ≥ acc.1 then acc else (dist64 t cand, some t) := by
  obtain ⟨h1, h2, h3, h4⟩ := h
  have h1' : ¬ dist64 t cand > s.threshold_ := not_lt.mpr h1
  unfold nearestStep
  simp only [h1', h2, h3, h4, if_false, Bool.false_eq_true]

/-- The state of the scan after the nodes of `l`, started from `dist = N`. -/
theorem nearestScan_inv (s : RRT) (cand : Node) (N : ℚ) (l : List Node) :
    (l.foldl (nearestStep s cand) (N, none)).1 ≤ N ∧
    (∀ t ∈ l, Qualifies s cand t → (l.foldl (nearestStep s cand) (N, none)).1 ≤ dist64 t cand) ∧
    ((l.foldl (nearestStep s cand) (N, none)).2 = none →
      (l.foldl (nearestStep s cand) (N, none)).1 = N) ∧
    (∀ f, (l.foldl (nearestStep s cand) (N, none)).2 = some f →
      (l.foldl (nearestStep s cand) (N, none)).1 = dist64 f cand ∧ dist64 f cand < N ∧
        NearestIn s cand l f) := by
  induction l using List.reverseRecOn with
  | nil =>
    refine ⟨le_refl _, ?_, fun _ => rfl, ?_⟩
    · intro t ht; simp at ht
    · intro f hf; simp at hf
  | append_singleton l x ih =>
    obtain ⟨ih1, ih2, ih3, ih4⟩ := ih
    rw [List.foldl_append, List.foldl_cons, List.foldl_nil]
    generalize l.foldl (nearestStep s cand) (N, none) = acc at ih1 ih2 ih3 ih4 ⊢
    by_cases hq : Qualifies s cand x
    · rw [nearestStep_of_qualifies s cand acc x hq]
      by_cases hge : dist64 x cand ≥ acc.1
      · rw [if_pos hge]
        refine ⟨ih1, ?_, ih3, ?_⟩
        · intro t ht hqt
          rcases List.mem_append.mp ht with h | h
          · exact ih2 t h hqt
          · rw [List.mem_singleton.mp h]; exact hge
        · intro f hf
          obtain ⟨e1, e2, i, hi, hqf, hmin, hfirst⟩ := ih4 f hf
          have hil : i < l.length := (List.getElem?_eq_some.mp hi).1
          refine ⟨e1, e2, i, ?_, hqf, ?_, ?_⟩
          · rw [List.getElem?_append_left hil]; exact hi
          · intro t ht hqt
            rcases List.mem_append.mp ht with h | h
            · exact hmin t h hqt
            · rw [List.mem_singleton.mp h, ← e1]; exact hge
          · intro j t hj hjt hqt
            rw [List.getElem?_append_left (lt_trans hj hil)] at hjt
            exact hfirst j t hj hjt hqt
      · rw [if_neg hge]
        have hlt : dist64 x cand < acc.1 := not_le.mp hge
        refine ⟨le_of_lt (lt_of_lt_of_le hlt ih1), ?_, ?_, ?_⟩
        · intro t ht hqt
          rcases List.mem_append.mp ht with h | h
          · exact le_trans (le_of_lt hlt) (ih2 t h hqt)
          · rw [List.mem_singleton.mp h]
        · intro h; simp at h
        · intro f hf
          have hfx : x = f := by simpa using hf
          subst hfx
          refine ⟨rfl, lt_of_lt_of_le hlt ih1, l.length, List.getElem?_concat_length l x, hq,
            ?_, ?_⟩
          · intro t ht hqt
            rcases List.mem_append.mp ht with h | h
            · exact le_trans (le_of_lt hlt) (ih2 t h hqt)
            · rw [List.mem_singleton.mp h]
          · intro j t hj hjt hqt
            rw [List.getElem?_append_left hj] at hjt
            have hmem : t ∈ l := List.mem_iff_getElem?.mpr ⟨j, hjt⟩
            have := ih2 t hmem hqt
            exact ne_of_gt (lt_of_lt_of_le hlt this)
    · rw [nearestStep_of_not_qualifies s cand acc x hq]
      refine ⟨ih1, ?_, ih3, ?_⟩
      · intro t ht hqt
        rcases List.mem_append.mp ht with h | h
        · exact ih2 t h hqt
        · rw [List.mem_singleton.mp h] at hqt; exact absurd hqt hq
      · intro f hf
        obtain ⟨e1, e2, i, hi, hqf, hmin, hfirst⟩ := ih4 f hf
        have hil : i < l.length := (List.getElem?_eq_some.mp hi).1
        refine ⟨e1, e2, i, ?_, hqf, ?_, ?_⟩
        · rw [List.getElem?_append_left hil]; exact hi
        · intro t ht hqt
          rcases List.mem_append.mp ht with h | h
          · exact hmin t h hqt
          · rw [List.mem_singleton.mp h] at hqt; exact absurd hqt hq
        · intro j t hj hjt hqt
          rw [List.getElem?_append_left (lt_trans hj hil)] at hjt
          exact hfirst j t hj hjt hqt

/-- The two ways `FindNearestPoint` returns: a stored tree node with the candidate rewired to
it, or the sentinel with the candidate untouched. -/
theorem findNearestPoint_cases (s : RRT) (cand : Node) (n : Nat) :
    (∃ f, (nearestScan s cand n).2 = some f ∧
        (nearestScan s cand n).1 = dist64 f cand ∧
        dist64 f cand < (((n : Int) * n : Int) : ℚ) ∧
        NearestIn s cand s.point_list_ f ∧
        FindNearestPoint s cand n =
          (f, { cand with pid := f.id, cost := fadd f.cost (dist64 f cand) }, s)) ∨
    ((nearestScan s cand n).1 = (((n : Int) * n : Int) : ℚ) ∧
        (∀ t ∈ s.point_list_, Qualifies s cand t →
          (((n : Int) * n : Int) : ℚ) ≤ dist64 t cand) ∧
        FindNearestPoint s cand n = (sentinelNode, cand, s)) := by
  have inv := nearestScan_inv s cand ((((n : Int) * n : Int) : ℚ)) s.point_list_
  obtain ⟨i1, i2, i3, i4⟩ := inv
  unfold FindNearestPoint
  change (nearestScan s cand n).1 ≤ _ at i1
  change ∀ t ∈ s.point_list_, Qualifies s cand t → (nearestScan s cand n).1 ≤ _ at i2
  change (nearestScan s cand n).2 = none → (nearestScan s cand n).1 = _ at i3
  change ∀ f, (nearestScan s cand n).2 = some f → (nearestScan s cand n).1 = _ ∧ _ at i4
  generalize nearestScan s cand n = r at i1 i2 i3 i4 ⊢
  obtain ⟨d, st⟩ := r
  cases st with
  | none =>
    right
    have hd : d = (((n : Int) * n : Int) : ℚ) := i3 rfl
    refine ⟨hd, ?_, ?_⟩
    · intro t ht hq; have := i2 t ht hq; simp only at this; rw [hd] at this; exact this
    · simp [hd]
  | some f =>
    left
    obtain ⟨e1, e2, hn⟩ := i4 f rfl
    simp only at e1
    refine ⟨f, rfl, e1, e2, hn, ?_⟩
    have hne : d ≠ (((n : Int) * n : Int) : ℚ) := by rw [e1]; exact ne_of_lt e2
    simp only []
    rw [if_pos hne, e1]


/-- A node that passes the filters as the specification words them passes them as the code
evaluates them, when the threshold is a binary64 number. -/
theorem qualifies_of_exact (s : RRT) (cand t : Node) (hd : IsDouble s.threshold_)
    (hk : sqDist t cand < 2 ^ 53) (h : QualifiesExact s cand t) : Qualifies s cand t :=
  ⟨dist64_le_of_euclid_le t cand _ hk hd h.1, h.2.1, h.2.2.1, h.2.2.2⟩

/-- On a grid of at most `2^26` rows the squared distances stay below `2^53`. -/
theorem sqDist_small_of_onGrid (n : Nat) (hn : n ≤ 2 ^ 26) (t c : Node) (ht : OnGrid n t)
    (hc : OnGrid n c) : sqDist t c < 2 ^ 53 := by
  obtain ⟨t1, t2, t3, t4⟩ := ht
  obtain ⟨c1, c2, c3, c4⟩ := hc
  have hn' : (n : Int) ≤ 2 ^ 26 := by exact_mod_cast hn
  unfold sqDist
  have hx : (t.x - c.x) * (t.x - c.x) < 2 ^ 26 * 2 ^ 26 := by
    have h1 : t.x - c.x < 2 ^ 26 := by omega
    have h2 : -(2 ^ 26) < t.x - c.x := by omega
    nlinarith
  have hy : (t.y - c.y) * (t.y - c.y) < 2 ^ 26 * 2 ^ 26 := by
    have h1 : t.y - c.y < 2 ^ 26 := by omega
    have h2 : -(2 ^ 26) < t.y - c.y := by omega
    nlinarith
  norm_num at hx hy ⊢
  omega

/-- The sum of a cost `c` and a computed distance is the real sum `c + sqrt(k)` up to the
relative error `2^-51`. -/
theorem fadd_dist_err (c : ℚ) (a b : Node) (hk : sqDist a b < 2 ^ 53) :
    |((fadd c (dist64 a b) : ℚ) : ℝ) - ((c : ℝ) + Real.sqrt ((sqDist a b : ℤ) : ℝ))| ≤
      (|(c : ℝ)| + Real.sqrt ((sqDist a b : ℤ) : ℝ)) / 2 ^ 51 := by
  have hd := dist64_err a b hk
  have hs := Real.sqrt_nonneg ((sqDist a b : ℤ) : ℝ)
  have hr : |((fadd c (dist64 a b) : ℚ) : ℝ) - ((c : ℝ) + ((dist64 a b : ℚ) : ℝ))| ≤
      |(c : ℝ) + ((dist64 a b : ℚ) : ℝ)| / 2 ^ 53 := by
    have := roundDouble_err (c + dist64 a b)
    have h2 : ((|roundDouble (c + dist64 a b) - (c + dist64 a b)| : ℚ) : ℝ) ≤
        ((|c + dist64 a b| / 2 ^ 53 : ℚ) : ℝ) := by exact_mod_cast this
    push_cast at h2
    exact h2
  generalize ((fadd c (dist64 a b) : ℚ) : ℝ) = f at hr ⊢
  generalize ((dist64 a b : ℚ) : ℝ) = d at hd hr
  generalize Real.sqrt ((sqDist a b : ℤ) : ℝ) = r at hd hs hr ⊢
  have hc0 := abs_nonneg (c : ℝ)
  have hcd : |(c : ℝ) + d| ≤ |(c : ℝ)| + |d| := abs_add _ _
  rw [abs_le] at hd
  have hdabs : |d| ≤ r + r / 2 ^ 53 := by
    rw [abs_le]; constructor <;> linarith [hd.1, hd.2, (by positivity : 0 ≤ r / 2 ^ 53)]
  have hr' : |f - ((c : ℝ) + d)| ≤ (|(c : ℝ)| + (r + r / 2 ^ 53)) / 2 ^ 53 := by
    refine le_trans hr ?_
    apply div_le_div_of_nonneg_right _ (by norm_num)
    linarith
  rw [abs_le] at hr' ⊢
  have e1 : (|(c : ℝ)| + (r + r / 2 ^ 53)) / 2 ^ 53 + r / 2 ^ 53 ≤ (|(c : ℝ)| + r) / 2 ^ 51 := by
    have : (|(c : ℝ)| + r) / 2 ^ 51 - ((|(c : ℝ)| + (r + r / 2 ^ 53)) / 2 ^ 53 + r / 2 ^ 53) =
        |(c : ℝ)| * (3 / 2 ^ 53) + r * (2 / 2 ^ 53 - 1 / 2 ^ 106) := by ring
    have h3 : 0 ≤ |(c : ℝ)| * (3 / 2 ^ 53) := by positivity
    have h4 : 0 ≤ r * (2 / 2 ^ 53 - 1 / 2 ^ 106) := mul_nonneg hs (by norm_num)
    linarith
  constructor <;> linarith [hr'.1, hr'.2, hd.1, hd.2]

theorem fadd_comm (a b : ℚ) : fadd a b = fadd b a := by
  unfold fadd; rw [add_comm]

/-! ## C4 -/

/-- C5, as the code has it: for `n >= 1`, a candidate on the grid and a tree whose nodes are
on the grid with non-negative ids, `FindNearestPoint` returns a node with id `-1` exactly
when no tree node passes the four filters as the code evaluates them, with the distance
computed in binary64. For `n <= 2^26`: a tree node that passes the filters with the Euclidean
distance makes the result differ from the sentinel when the threshold is a binary64 number,
and a result other than the sentinel means that a tree node passes the other three filters
at a Euclidean distance of at most `threshold * (1 + 2^-52)`. -/
theorem findNearestPoint_sentinel_iff (s : RRT) (cand : Node) (n : Nat) (_hn : 1 ≤ n)
    (hc : OnGrid n cand) (ht : ∀ t ∈ s.point_list_, OnGrid n t ∧ 0 ≤ t.id) :
    ((FindNearestPoint s cand n).1.id = -1 ↔ ∀ t ∈ s.point_list_, ¬ Qualifies s cand t) ∧
    (IsDouble s.threshold_ → n ≤ 2 ^ 26 → (∃ t ∈ s.point_list_, QualifiesExact s cand t) →
      (FindNearestPoint s cand n).1.id ≠ -1) ∧
    (n ≤ 2 ^ 26 → (FindNearestPoint s cand n).1.id ≠ -1 →
      ∃ t ∈ s.point_list_,
        Real.sqrt ((sqDist t cand : ℤ) : ℝ) ≤ (s.threshold_ : ℝ) * (1 + 1 / 2 ^ 52) ∧
        CheckObstacle s t cand = false ∧ t.id ≠ cand.id ∧ t.pid ≠ cand.id) := by
  have key : (FindNearestPoint s cand n).1.id = -1 ↔ ∀ t ∈ s.point_list_, ¬ Qualifies s cand t := by
    rcases findNearestPoint_cases s cand n with ⟨f, -, -, -, ⟨i, hi, hq, -, -⟩, hr⟩ | ⟨-, hfar, hr⟩
    · have hmem : f ∈ s.point_list_ := List.mem_iff_getElem?.mpr ⟨i, hi⟩
      rw [hr]
      constructor
      · intro hid
        have := (ht f hmem).2
        simp only at hid
        omega
      · intro hno
        exact absurd hq (hno f hmem)
    · rw [hr]
      constructor
      · intro _ t htm hq
        have h1 := hfar t htm hq
        have h2 := dist64_lt_of_onGrid n t cand (ht t htm).1 hc
        exact absurd h2 (not_lt.mpr h1)
      · intro _; rfl
  refine ⟨key, ?_, ?_⟩
  · rintro hd hn26 ⟨t, htm, hq⟩ hid
    exact (key.mp hid) t htm
      (qualifies_of_exact s cand t hd (sqDist_small_of_onGrid n hn26 t cand (ht t htm).1 hc) hq)
  · intro hn26 hid
    have : ¬ ∀ t ∈ s.point_list_, ¬ Qualifies s cand t := fun h => hid (key.mpr h)
    push_neg at this
    obtain ⟨t, htm, hq⟩ := this
    exact ⟨t, htm, euclid_le_of_dist64_le t cand _
      (sqDist_small_of_onGrid n hn26 t cand (ht t htm).1 hc) hq.1, hq.2.1, hq.2.2.1, hq.2.2.2⟩

/-- Tree nodes at distances 5 and 3 with threshold 2: the sentinel is returned. -/
theorem findNearestPoint_sentinel_iff_witness :
    (1 ≤ 8 ∧ OnGrid 8 (mkNode 0 0 0 0 0 0) ∧
      ∀ t ∈ exTreeNear.point_list_, OnGrid 8 t ∧ 0 ≤ t.id) ∧
    (FindNearestPoint exTreeNear (mkNode 0 0 0 0 0 0) 8).1.id = -1 ∧
    (((FindNearestPoint exTreeNear (mkNode 0 0 0 0 0 0) 8).1.id = -1 ↔
        ∀ t ∈ exTreeNear.point_list_, ¬ Qualifies exTreeNear (mkNode 0 0 0 0 0 0) t) ∧
      (IsDouble exTreeNear.threshold_ → 8 ≤ 2 ^ 26 →
        (∃ t ∈ exTreeNear.point_list_, QualifiesExact exTreeNear (mkNode 0 0 0 0 0 0) t) →
        (FindNearestPoint exTreeNear (mkNode 0 0 0 0 0 0) 8).1.id ≠ -1) ∧
      (8 ≤ 2 ^ 26 → (FindNearestPoint exTreeNear (mkNode 0 0 0 0 0 0) 8).1.id ≠ -1 →
        ∃ t ∈ exTreeNear.point_list_,
          Real.sqrt ((sqDist t (mkNode 0 0 0 0 0 0) : ℤ) : ℝ) ≤
            (exTreeNear.threshold_ : ℝ) * (1 + 1 / 2 ^ 52) ∧
          CheckObstacle exTreeNear t (mkNode 0 0 0 0 0 0) = false ∧
          t.id ≠ (mkNode 0 0 0 0 0 0).id ∧ t.pid ≠ (mkNode 0 0 0 0 0 0).id)) :=
  ⟨⟨by decide, by decide, by decide⟩, by decide!,
    findNearestPoint_sentinel_iff exTreeNear (mkNode 0 0 0 0 0 0) 8 (by decide) (by decide)
      (by decide)⟩

/-- C5 as stated fails for a candidate off the grid: with `n = 1`, the tree `[(0, 0)]`
(on the grid, id 0) and the candidate `(1, 0)` at distance `1 = n * n`, the tree node passes
the four filters, with the computed distance and with the Euclidean distance, and yet the
sentinel is returned. -/
theorem findNearestPoint_sentinel_counterexample :
    ¬ (1 ≤ 1 → (∀ t ∈ exOne.point_list_, OnGrid 1 t ∧ 0 ≤ t.id) →
        ((FindNearestPoint exOne (mkNode 1 0 0 0 1 0) 1).1.id = -1 ↔
          ∀ t ∈ exOne.point_list_, ¬ Qualifies exOne (mkNode 1 0 0 0 1 0) t)) ∧
    ¬ (1 ≤ 1 → (∀ t ∈ exOne.point_list_, OnGrid 1 t ∧ 0 ≤ t.id) →
        ((FindNearestPoint exOne (mkNode 1 0 0 0 1 0) 1).1.id = -1 ↔
          ∀ t ∈ exOne.point_list_, ¬ QualifiesExact exOne (mkNode 1 0 0 0 1 0) t)) := by
  constructor
  · intro h
    have h1 := (h (by decide) (by decide)).mp (by decide!)
    exact h1 (mkNode 0 0 0 0 0 0) (by decide) (by decide!)
  · intro h
    have h1 := (h (by decide) (by decide)).mp (by decide!)
    refine h1 (mkNode 0 0 0 0 0 0) (by decide) ⟨?_, by decide!, by decide, by decide⟩
    rw [euclid_le_iff]
    exact ⟨by decide!, by decide!⟩

/-! ## C6 -/

/-- C6, as the code has it. A returned node `f` with id other than `-1` leaves the candidate
with `pid = f.id` and with `cost` the binary64 sum of `f.cost` and the computed distance, which
is the real number `f.cost + sqrt(sqDist f cand)` up to the relative error `2^-51`; its `x`,
`y`, `id`, `h_cost` and the planner (tree, obstacle list) are unchanged. A returned node with
id `-1` leaves the candidate and the planner unchanged, provided no tree node has id `-1`. -/
theorem findNearestPoint_frame (s : RRT) (cand : Node) (n : Nat) :
    ((FindNearestPoint s cand n).1.id ≠ -1 →
      (FindNearestPoint s cand n).2.1.pid = (FindNearestPoint s cand n).1.id ∧
      (FindNearestPoint s cand n).2.1.cost =
        fadd (FindNearestPoint s cand n).1.cost (dist64 (FindNearestPoint s cand n).1 cand) ∧
      (sqDist (FindNearestPoint s cand n).1 cand < 2 ^ 53 →
        |(((FindNearestPoint s cand n).2.1.cost : ℚ) : ℝ) -
            ((((FindNearestPoint s cand n).1.cost : ℚ) : ℝ) +
              Real.sqrt ((sqDist (FindNearestPoint s cand n).1 cand : ℤ) : ℝ))| ≤
          (|(((FindNearestPoint s cand n).1.cost : ℚ) : ℝ)| +
              Real.sqrt ((sqDist (FindNearestPoint s cand n).1 cand : ℤ) : ℝ)) / 2 ^ 51) ∧
      (FindNearestPoint s cand n).2.1.x = cand.x ∧
      (FindNearestPoint s cand n).2.1.y = cand.y ∧
      (FindNearestPoint s cand n).2.1.id = cand.id ∧
      (FindNearestPoint s cand n).2.1.h_cost = cand.h_cost ∧
      (FindNearestPoint s cand n).2.2 = s) ∧
    ((∀ t ∈ s.point_list_, t.id ≠ -1) → (FindNearestPoint s cand n).1.id = -1 →
      (FindNearestPoint s cand n).2.1 = cand ∧ (FindNearestPoint s cand n).2.2 = s) := by
  rcases findNearestPoint_cases s cand n with ⟨f, -, -, -, ⟨i, hi, -, -, -⟩, hr⟩ | ⟨-, -, hr⟩
  · have hmem : f ∈ s.point_list_ := List.mem_iff_getElem?.mpr ⟨i, hi⟩
    rw [hr]
    exact ⟨fun _ => ⟨rfl, rfl, fun hk => fadd_dist_err f.cost f cand hk, rfl, rfl, rfl, rfl, rfl⟩,
      fun hid h => absurd h (hid f hmem)⟩
  · rw [hr]
    exact ⟨fun h => absurd rfl h, fun _ _ => ⟨rfl, rfl⟩⟩

/-- Tree nodes at distances 5 and 3 with threshold 10: the candidate is rewired to the node at
distance 3 and gets the cost `0 + 3`. The tree node `(1, 1)` with cost 3: the candidate
`(0, 0)` gets the cost `3 + sqrt(2)` rounded twice, `4969962638659315 / 2^50`. With threshold
2 on the first tree the sentinel is returned and the candidate is unchanged. -/
theorem findNearestPoint_frame_witness :
    ((FindNearestPoint exTree (mkNode 0 0 0 0 0 0) 8).1.id ≠ -1 ∧
      (FindNearestPoint exTree (mkNode 0 0 0 0 0 0) 8).2.1.pid = 24 ∧
      (FindNearestPoint exTree (mkNode 0 0 0 0 0 0) 8).2.1.cost = 3 ∧
      (FindNearestPoint exTree (mkNode 0 0 0 0 0 0) 8).2.2 = exTree) ∧
    ((FindNearestPoint exDiagTree (mkNode 0 0 0 0 0 0) 8).1.id ≠ -1 ∧
      (FindNearestPoint exDiagTree (mkNode 0 0 0 0 0 0) 8).2.1.pid = 9 ∧
      (FindNearestPoint exDiagTree (mkNode 0 0 0 0 0 0) 8).2.1.cost =
        4969962638659315 / 1125899906842624 ∧
      |(((FindNearestPoint exDiagTree (mkNode 0 0 0 0 0 0) 8).2.1.cost : ℚ) : ℝ) -
          ((((FindNearestPoint exDiagTree (mkNode 0 0 0 0 0 0) 8).1.cost : ℚ) : ℝ) +
            Real.sqrt ((sqDist (FindNearestPoint exDiagTree (mkNode 0 0 0 0 0 0) 8).1
              (mkNode 0 0 0 0 0 0) : ℤ) : ℝ))| ≤
        (|(((FindNearestPoint exDiagTree (mkNode 0 0 0 0 0 0) 8).1.cost : ℚ) : ℝ)| +
            Real.sqrt ((sqDist (FindNearestPoint exDiagTree (mkNode 0 0 0 0 0 0) 8).1
              (mkNode 0 0 0 0 0 0) : ℤ) : ℝ)) / 2 ^ 51) ∧
    ((∀ t ∈ exTreeNear.point_list_, t.id ≠ -1) ∧
      (FindNearestPoint exTreeNear (mkNode 0 0 0 0 0 0) 8).1.id = -1 ∧
      (FindNearestPoint exTreeNear (mkNode 0 0 0 0 0 0) 8).2.1 = mkNode 0 0 0 0 0 0 ∧
      (FindNearestPoint exTreeNear (mkNode 0 0 0 0 0 0) 8).2.2 = exTreeNear) := by
  have h := (findNearestPoint_frame exTree (mkNode 0 0 0 0 0 0) 8).1 (by decide!)
  have hd := (findNearestPoint_frame exDiagTree (mkNode 0 0 0 0 0 0) 8).1 (by decide!)
  have h' := (findNearestPoint_frame exTreeNear (mkNode 0 0 0 0 0 0) 8).2 (by decide)
    (by decide!)
  refine ⟨⟨by decide!, ?_, ?_, h.2.2.2.2.2.2.2⟩, ⟨by decide!, ?_, ?_, hd.2.2.1 (by decide!)⟩,
    by decide, by decide!, h'.1, h'.2⟩
  · rw [h.1]; decide!
  · rw [h.2.1]; decide!
  · rw [hd.1]; decide!
  · rw [hd.2.1]; decide!

/-- C6 as stated fails when the tree holds a node with id `-1` (here a copy of the sentinel,
as `point_list_` holds after a failed run): that node is returned, so the returned id is `-1`,
and the candidate has been rewired to it. -/
theorem findNearestPoint_frame_counterexample :
    (FindNearestPoint exSentinelTree (mkNode 0 0 0 0 0 0) 8).1 = sentinelNode ∧
    (FindNearestPoint exSentinelTree (mkNode 0 0 0 0 0 0) 8).1.id = -1 ∧
    (FindNearestPoint exSentinelTree (mkNode 0 0 0 0 0 0) 8).2.1 ≠ mkNode 0 0 0 0 0 0 ∧
    (FindNearestPoint exSentinelTree (mkNode 0 0 0 0 0 0) 8).2.1.pid = -1 :=
  ⟨by decide!, by decide!, by decide!, by decide!⟩

/-! ## `CreateObstacleList` -/

theorem obstacleCell_foldl (grid : Grid) (n i : Nat) (js : List Nat) (s : RRT) :
    js.foldl (obstacleCell grid n i) s =
      { s with obstacle_list_ := s.obstacle_list_ ++
          js.filterMap fun (j : Nat) => if grid i j = 1 then some (obstacleAt n i j) else none } := by
  induction js generalizing s with
  | nil => simp
  | cons j js ih =>
    rw [List.foldl_cons, ih]
    unfold obstacleCell
    by_cases h : grid i j = 1
    · simp [h, obstacleAt, List.filterMap_cons]
    · simp [h, List.filterMap_cons]

theorem createObstacleList_foldl (grid : Grid) (n : Nat) (is : List Nat) (s : RRT) :
    is.foldl (fun s i => (List.range n).foldl (obstacleCell grid n i) s) s =
      { s with obstacle_list_ := s.obstacle_list_ ++ is.flatMap (obstacleRow grid n) } := by
  induction is generalizing s with
  | nil => simp
  | cons i is ih =>
    rw [List.foldl_cons, ih, obstacleCell_foldl]
    simp [obstacleRow, List.flatMap_cons, List.append_assoc]

/-- The method `CreateObstacleList` appends the obstacle cells of the grid in row-major order and leaves
the other members alone. -/
theorem createObstacleList_eq (s : RRT) (grid : Grid) (n : Nat) :
    CreateObstacleList s grid n =
      { s with obstacle_list_ := s.obstacle_list_ ++ obstacleCells grid n } := by
  unfold CreateObstacleList obstacleCells
  exact createObstacleList_foldl grid n (List.range n) s

theorem mem_obstacleCells (grid : Grid) (n : Nat) (o : Node) :
    o ∈ obstacleCells grid n ↔
      ∃ i j : Nat, i < n ∧ j < n ∧ grid i j = 1 ∧ o = obstacleAt n i j := by
  unfold obstacleCells obstacleRow
  simp only [List.mem_flatMap, List.mem_filterMap, List.mem_range]
  constructor
  · rintro ⟨i, hi, j, hj, h⟩
    by_cases hg : grid i j = 1
    · rw [if_pos hg] at h
      exact ⟨i, j, hi, hj, hg, (Option.some.inj h).symm⟩
    · rw [if_neg hg] at h; exact absurd h (by simp)
  · rintro ⟨i, j, hi, hj, hg, rfl⟩
    exact ⟨i, hi, j, hj, by rw [if_pos hg]⟩

/-- The grid has no obstacle cell. -/
theorem obstacleCells_eq_nil (grid : Grid) (n : Nat)
    (h : ∀ i j : Nat, i < n → j < n → grid i j ≠ 1) : obstacleCells grid n = [] := by
  apply List.eq_nil_iff_forall_not_mem.mpr
  intro o ho
  obtain ⟨i, j, hi, hj, hg, -⟩ := (mem_obstacleCells grid n o).mp ho
  exact h i j hi hj hg

theorem checkObstacle_nil (s : RRT) (h : s.obstacle_list_ = []) (A B : Node) :
    CheckObstacle s A B = false := by
  unfold CheckObstacle
  rw [h]
  split <;> rfl

/-! ## `CheckGoalVisible` and the head of `rrt` -/

theorem checkGoalVisible_of_visible (s : RRT) (v : Node)
    (h1 : CheckObstacle s v s.goal_ = false)
    (h2 : dist64 s.goal_ v ≤ s.threshold_) :
    CheckGoalVisible s v =
      (true, { s with goal_ := goalFrom s v, point_list_ := s.point_list_ ++ [goalFrom s v] }) := by
  unfold CheckGoalVisible goalFrom
  simp [h1, h2]

theorem checkGoalVisible_of_hidden (s : RRT) (v : Node)
    (h : CheckObstacle s v s.goal_ = true ∨ ¬ dist64 s.goal_ v ≤ s.threshold_) :
    CheckGoalVisible s v = (false, s) := by
  unfold CheckGoalVisible
  rcases h with h | h
  · simp [h]
  · by_cases h1 : CheckObstacle s v s.goal_ = true <;> simp [h, h1]

theorem checkGoalVisible_cases (s : RRT) (v : Node) :
    CheckGoalVisible s v =
        (true, { s with goal_ := goalFrom s v, point_list_ := s.point_list_ ++ [goalFrom s v] })
      ∨ CheckGoalVisible s v = (false, s) := by
  by_cases h1 : CheckObstacle s v s.goal_ = true
  · exact Or.inr (checkGoalVisible_of_hidden s v (Or.inl h1))
  · by_cases h2 : dist64 s.goal_ v ≤ s.threshold_
    · exact Or.inl (checkGoalVisible_of_visible s v (by simpa using h1) h2)
    · exact Or.inr (checkGoalVisible_of_hidden s v (Or.inr h2))

/-- The statements of `rrt` before the loop, with `CreateObstacleList` carried out. -/
theorem rrt_unfold (s : RRT) (grid : Grid) (n : Nat) (start goal : Node) (factor : Int)
    (threshold : ℚ) (samples : Nat → Int × Int) :
    rrt s grid n start goal factor threshold samples =
      if (CheckGoalVisible (initPlanner s grid n start goal threshold) start).1 = true then
        some ⟨(CheckGoalVisible (initPlanner s grid n start goal threshold) start).2.point_list_,
          (CheckGoalVisible (initPlanner s grid n start goal threshold) start).2,
          grid.set start.x start.y 2, 0⟩
      else
        rrtLoop n (factor * n * n) samples ((factor * n * n + 1).toNat + 1) 0
          (CheckGoalVisible (initPlanner s grid n start goal threshold) start).2
          (grid.set start.x start.y 2) := by
  unfold rrt
  simp only [createObstacleList_eq]
  rfl

/-! ## C7 -/

theorem rrtLoop_succ (n : Nat) (max_iter : Int) (samples : Nat → Int × Int) (fuel iter : Nat)
    (s : RRT) (grid : Grid) :
    rrtLoop n max_iter samples (fuel + 1) iter s grid =
      if (iter : Int) ≤ max_iter then
        match rrtTurn n samples iter s grid with
        | Sum.inl (s', grid') => rrtLoop n max_iter samples fuel (iter + 1) s' grid'
        | Sum.inr out => some out
      else some (exhausted s grid iter) := by
  rw [rrtLoop]
  unfold rrtTurn exhausted
  by_cases hg : (iter : Int) ≤ max_iter
  · simp only [if_pos hg]
    by_cases h1 : grid (GenerateRandomNode n (samples iter)).x
        (GenerateRandomNode n (samples iter)).y ≠ 0
    · simp only [if_pos h1]
    · simp only [if_neg h1]
      by_cases h2 : (FindNearestPoint s (GenerateRandomNode n (samples iter)) n).1.id = -1
      · simp only [if_pos h2]
      · simp only [if_neg h2]
        split <;> rfl
  · simp only [if_neg hg]

theorem findNearestPoint_planner (s : RRT) (cand : Node) (n : Nat) :
    (FindNearestPoint s cand n).2.2 = s := by
  rcases findNearestPoint_cases s cand n with ⟨f, -, -, -, -, hr⟩ | ⟨-, -, hr⟩ <;> rw [hr]

/-- The four ways a turn of the loop ends. -/
theorem rrtTurn_cases (n : Nat) (samples : Nat → Int × Int) (iter : Nat) (s : RRT)
    (grid : Grid) :
    (grid (GenerateRandomNode n (samples iter)).x (GenerateRandomNode n (samples iter)).y ≠ 0 ∧
      rrtTurn n samples iter s grid = Sum.inl (s, grid)) ∨
    (grid (GenerateRandomNode n (samples iter)).x (GenerateRandomNode n (samples iter)).y = 0 ∧
      (FindNearestPoint s (GenerateRandomNode n (samples iter)) n).1.id = -1 ∧
      rrtTurn n samples iter s grid = Sum.inl (s, grid)) ∨
    (∃ new_node : Node,
      grid (GenerateRandomNode n (samples iter)).x (GenerateRandomNode n (samples iter)).y = 0 ∧
      (FindNearestPoint s (GenerateRandomNode n (samples iter)) n).1.id ≠ -1 ∧
      new_node = (FindNearestPoint s (GenerateRandomNode n (samples iter)) n).2.1 ∧
      CheckGoalVisible { s with point_list_ := s.point_list_ ++ [new_node] } new_node =
        (false, { s with point_list_ := s.point_list_ ++ [new_node] }) ∧
      rrtTurn n samples iter s grid =
        Sum.inl ({ s with point_list_ := s.point_list_ ++ [new_node] },
          grid.set new_node.x new_node.y 2)) ∨
    (∃ new_node : Node,
      grid (GenerateRandomNode n (samples iter)).x (GenerateRandomNode n (samples iter)).y = 0 ∧
      (FindNearestPoint s (GenerateRandomNode n (samples iter)) n).1.id ≠ -1 ∧
      new_node = (FindNearestPoint s (GenerateRandomNode n (samples iter)) n).2.1 ∧
      CheckGoalVisible { s with point_list_ := s.point_list_ ++ [new_node] } new_node =
        (true, { s with goal_ := goalFrom s new_node,
                        point_list_ := s.point_list_ ++ [new_node] ++ [goalFrom s new_node] }) ∧
      rrtTurn n samples iter s grid =
        Sum.inr ⟨s.point_list_ ++ [new_node] ++ [goalFrom s new_node],
          { s with goal_ := goalFrom s new_node,
                   point_list_ := s.point_list_ ++ [new_node] ++ [goalFrom s new_node] },
          grid.set new_node.x new_node.y 2, iter + 1⟩) := by
  unfold rrtTurn
  simp only [findNearestPoint_planner]
  by_cases h1 : grid (GenerateRandomNode n (samples iter)).x
      (GenerateRandomNode n (samples iter)).y ≠ 0
  · left; exact ⟨h1, by rw [if_pos h1]⟩
  · right
    have h1' : grid (GenerateRandomNode n (samples iter)).x
      (GenerateRandomNode n (samples iter)).y = 0 := by simpa using h1
    rw [if_neg h1]
    by_cases h2 : (FindNearestPoint s (GenerateRandomNode n (samples iter)) n).1.id = -1
    · left; exact ⟨h1', h2, by rw [if_pos h2]⟩
    · right
      rw [if_neg h2]
      rcases checkGoalVisible_cases
        { s with point_list_ := s.point_list_ ++
            [(FindNearestPoint s (GenerateRandomNode n (samples iter)) n).2.1] }
        (FindNearestPoint s (GenerateRandomNode n (samples iter)) n).2.1 with hv | hv
      · right
        refine ⟨_, h1', h2, rfl, ?_, ?_⟩
        · rw [hv]; rfl
        · simp only [hv]; rfl
      · left
        refine ⟨_, h1', h2, rfl, hv, ?_⟩
        simp only [hv]; rfl

/-- Induction over the loop of `rrt`: an invariant of the planner, grid and counter that
every continuing turn keeps, and a property that every returned outcome has. The loop
returns whenever the bound on the turns exceeds `max_iter + 1 - iter`. -/
theorem rrtLoop_spec (n : Nat) (max_iter : Int) (samples : Nat → Int × Int)
    (Inv : Nat → RRT → Grid → Prop) (Post : Outcome → Prop)
    (hturn : ∀ iter s grid, Inv iter s grid → (iter : Int) ≤ max_iter →
      (∀ s' grid', rrtTurn n samples iter s grid = Sum.inl (s', grid') →
        Inv (iter + 1) s' grid') ∧
      (∀ out, rrtTurn n samples iter s grid = Sum.inr out → Post out))
    (hexh : ∀ iter s grid, Inv iter s grid → ¬ (iter : Int) ≤ max_iter →
      Post (exhausted s grid iter)) :
    ∀ (fuel iter : Nat) (s : RRT) (grid : Grid), Inv iter s grid →
      (max_iter + 1 - iter).toNat < fuel →
      ∃ out, rrtLoop n max_iter samples fuel iter s grid = some out ∧ Post out := by
  intro fuel
  induction fuel with
  | zero => intro iter s grid _ h; omega
  | succ fuel ih =>
    intro iter s grid hinv hfuel
    rw [rrtLoop_succ]
    by_cases hg : (iter : Int) ≤ max_iter
    · rw [if_pos hg]
      obtain ⟨hcont, hret⟩ := hturn iter s grid hinv hg
      cases hT : rrtTurn n samples iter s grid with
      | inl p =>
        obtain ⟨s', grid'⟩ := p
        simp only []
        exact ih (iter + 1) s' grid' (hcont s' grid' hT) (by push_cast; omega)
      | inr out =>
        exact ⟨out, rfl, hret out hT⟩
    · rw [if_neg hg]
      exact ⟨_, rfl, hexh iter s grid hinv hg⟩

/-! ## Corner values clear of the tolerance -/

theorem signTerm_bounds (v : ℚ) : -1 ≤ signTerm v ∧ signTerm v ≤ 1 := by
  rcases signTerm_range v with h | h | h <;> rw [h] <;> norm_num

/-- A quotient `n / (2 d)` of value at least `1/4`. -/
theorem quot_above (n d : ℤ) (h : (0 < d ∧ d ≤ 2 * n) ∨ (d < 0 ∧ 2 * n ≤ d)) :
    signTerm ((n : ℚ) / (2 * (d : ℚ))) = 1 := by
  apply signTerm_of_pos
  rcases h with ⟨hd, hn⟩ | ⟨hd, hn⟩
  · have hd' : (0 : ℚ) < d := by exact_mod_cast hd
    have hn' : (d : ℚ) ≤ 2 * n := by exact_mod_cast hn
    rw [lt_div_iff₀ (by linarith)]
    linarith
  · have hd' : (d : ℚ) < 0 := by exact_mod_cast hd
    have hn' : 2 * (n : ℚ) ≤ d := by exact_mod_cast hn
    rw [lt_div_iff_of_neg (by linarith)]
    linarith

/-- A quotient `n / (2 d)` of value at most `-1/4`. -/
theorem quot_below (n d : ℤ) (h : (0 < d ∧ 2 * n ≤ -d) ∨ (d < 0 ∧ -d ≤ 2 * n)) :
    signTerm ((n : ℚ) / (2 * (d : ℚ))) = -1 := by
  apply signTerm_of_neg
  rcases h with ⟨hd, hn⟩ | ⟨hd, hn⟩
  · have hd' : (0 : ℚ) < d := by exact_mod_cast hd
    have hn' : 2 * (n : ℚ) ≤ -d := by exact_mod_cast hn
    rw [div_lt_iff₀ (by linarith)]
    linarith
  · have hd' : (d : ℚ) < 0 := by exact_mod_cast hd
    have hn' : -(d : ℚ) ≤ 2 * n := by exact_mod_cast hn
    rw [div_lt_iff_of_neg (by linarith)]
    linarith

/-- The sign sum stays below 3 in magnitude as soon as one corner value is at least `1/4`
and another at most `-1/4`; `K` is the centre value `lineK`. -/
theorem blocked_of_mixed (n_1 n_2 o : Node) (K dx dy : ℤ) (hK : lineK n_1 n_2 o = K)
    (hdx : n_2.x - n_1.x = dx) (hdy : n_2.y - n_1.y = dy) (hne : dy ≠ 0)
    (hpos : ((0 < dy ∧ dy ≤ 2 * (2 * K + dy - dx)) ∨ (dy < 0 ∧ 2 * (2 * K + dy - dx) ≤ dy)) ∨
            ((0 < dy ∧ dy ≤ 2 * (2 * K + dy + dx)) ∨ (dy < 0 ∧ 2 * (2 * K + dy + dx) ≤ dy)) ∨
            ((0 < dy ∧ dy ≤ 2 * (2 * K - dy - dx)) ∨ (dy < 0 ∧ 2 * (2 * K - dy - dx) ≤ dy)) ∨
            ((0 < dy ∧ dy ≤ 2 * (2 * K - dy + dx)) ∨ (dy < 0 ∧ 2 * (2 * K - dy + dx) ≤ dy)))
    (hneg : ((0 < dy ∧ 2 * (2 * K + dy - dx) ≤ -dy) ∨ (dy < 0 ∧ -dy ≤ 2 * (2 * K + dy - dx))) ∨
            ((0 < dy ∧ 2 * (2 * K + dy + dx) ≤ -dy) ∨ (dy < 0 ∧ -dy ≤ 2 * (2 * K + dy + dx))) ∨
            ((0 < dy ∧ 2 * (2 * K - dy - dx) ≤ -dy) ∨ (dy < 0 ∧ -dy ≤ 2 * (2 * K - dy - dx))) ∨
            ((0 < dy ∧ 2 * (2 * K - dy + dx) ≤ -dy) ∨ (dy < 0 ∧ -dy ≤ 2 * (2 * K - dy + dx)))) :
    |signCount (slopeOf n_1 n_2) (interceptOf n_1 n_2) o| < 3 := by
  have hne' : n_2.y - n_1.y ≠ 0 := by rw [hdy]; exact hne
  obtain ⟨e0, e1, e2, e3⟩ := corner_forms n_1 n_2 o hne'
  rw [hK, hdx, hdy] at e0 e1 e2 e3
  rw [signCount_eq, e0, e1, e2, e3]
  have b0 := signTerm_bounds (((2 * K + dy - dx : ℤ) : ℚ) / (2 * ((dy : ℤ) : ℚ)))
  have b1 := signTerm_bounds (((2 * K + dy + dx : ℤ) : ℚ) / (2 * ((dy : ℤ) : ℚ)))
  have b2 := signTerm_bounds (((2 * K - dy - dx : ℤ) : ℚ) / (2 * ((dy : ℤ) : ℚ)))
  have b3 := signTerm_bounds (((2 * K - dy + dx : ℤ) : ℚ) / (2 * ((dy : ℤ) : ℚ)))
  rw [abs_lt]
  rcases hpos with p | p | p | p <;> rcases hneg with q | q | q | q <;>
    first
    | (exfalso; omega)
    | (have hp := quot_above _ _ p
       have hq := quot_below _ _ q
       constructor <;> linarith [b0.1, b0.2, b1.1, b1.2, b2.1, b2.2, b3.1, b3.2])

/-- An obstacle of the list that passes the span tests and has corner values on both sides
makes `CheckObstacle` return true on the branch `n_2.y_ - n_1.y_ != 0`. -/
theorem checkObstacle_of_cell (s : RRT) (n_1 n_2 o : Node) (ho : o ∈ s.obstacle_list_)
    (hne : n_2.y - n_1.y ≠ 0) (hy : ySpan n_1 n_2 o = true) (hx : xSpan n_1 n_2 o = true)
    (hc : |signCount (slopeOf n_1 n_2) (interceptOf n_1 n_2) o| < 3) :
    CheckObstacle s n_1 n_2 = true := by
  unfold CheckObstacle
  rw [if_neg hne]
  simp only [List.any_eq_true, Bool.and_eq_true, decide_eq_true_eq]
  exact ⟨o, ho, ⟨hy, hx⟩, hc⟩

/-! ## A goal enclosed by obstacles -/

/-- The neighbour `(G.x + a, G.y + b)` of `G` blocks the segment from `P` to `G` when it lies
on the grid within the spans of the segment and has corner values on both sides. -/
theorem ring_cell (s : RRT) (n : Nat) (P G : Node) (a b K : ℤ)
    (hring : RingListed n G.x G.y s.obstacle_list_) (hdy : G.y - P.y ≠ 0)
    (hK : a * (G.y - P.y) - b * (G.x - P.x) = K)
    (hcell : 0 ≤ G.x + a ∧ G.x + a < n ∧ 0 ≤ G.y + b ∧ G.y + b < n ∧ (a ≠ 0 ∨ b ≠ 0) ∧
      -1 ≤ a ∧ a ≤ 1 ∧ -1 ≤ b ∧ b ≤ 1)
    (hspan : ((G.y + b ≤ P.y ∧ G.y ≤ G.y + b) ∨ (P.y ≤ G.y + b ∧ G.y + b ≤ G.y)) ∧
      ((G.x + a ≤ P.x ∧ G.x ≤ G.x + a) ∨ (P.x ≤ G.x + a ∧ G.x + a ≤ G.x)))
    (hpos : ((0 < G.y - P.y ∧ G.y - P.y ≤ 2 * (2 * K + (G.y - P.y) - (G.x - P.x))) ∨
              (G.y - P.y < 0 ∧ 2 * (2 * K + (G.y - P.y) - (G.x - P.x)) ≤ G.y - P.y)) ∨
            ((0 < G.y - P.y ∧ G.y - P.y ≤ 2 * (2 * K + (G.y - P.y) + (G.x - P.x))) ∨
              (G.y - P.y < 0 ∧ 2 * (2 * K + (G.y - P.y) + (G.x - P.x)) ≤ G.y - P.y)) ∨
            ((0 < G.y - P.y ∧ G.y - P.y ≤ 2 * (2 * K - (G.y - P.y) - (G.x - P.x))) ∨
              (G.y - P.y < 0 ∧ 2 * (2 * K - (G.y - P.y) - (G.x - P.x)) ≤ G.y - P.y)) ∨
            ((0 < G.y - P.y ∧ G.y - P.y ≤ 2 * (2 * K - (G.y - P.y) + (G.x - P.x))) ∨
              (G.y - P.y < 0 ∧ 2 * (2 * K - (G.y - P.y) + (G.x - P.x)) ≤ G.y - P.y)))
    (hneg : ((0 < G.y - P.y ∧ 2 * (2 * K + (G.y - P.y) - (G.x - P.x)) ≤ -(G.y - P.y)) ∨
              (G.y - P.y < 0 ∧ -(G.y - P.y) ≤ 2 * (2 * K + (G.y - P.y) - (G.x - P.x)))) ∨
            ((0 < G.y - P.y ∧ 2 * (2 * K + (G.y - P.y) + (G.x - P.x)) ≤ -(G.y - P.y)) ∨
              (G.y - P.y < 0 ∧ -(G.y - P.y) ≤ 2 * (2 * K + (G.y - P.y) + (G.x - P.x)))) ∨
            ((0 < G.y - P.y ∧ 2 * (2 * K - (G.y - P.y) - (G.x - P.x)) ≤ -(G.y - P.y)) ∨
              (G.y - P.y < 0 ∧ -(G.y - P.y) ≤ 2 * (2 * K - (G.y - P.y) - (G.x - P.x)))) ∨
            ((0 < G.y - P.y ∧ 2 * (2 * K - (G.y - P.y) + (G.x - P.x)) ≤ -(G.y - P.y)) ∨
              (G.y - P.y < 0 ∧ -(G.y - P.y) ≤ 2 * (2 * K - (G.y - P.y) + (G.x - P.x))))) :
    CheckObstacle s P G = true := by
  obtain ⟨c1, c2, c3, c4, c5, c6, c7, c8, c9⟩ := hcell
  obtain ⟨o, ho, hox, hoy⟩ := hring (G.x + a) (G.y + b) c1 c2 c3 c4 (by omega) (by omega)
    (by omega) (by omega) (by omega)
  have hKo : lineK P G o = K := by
    unfold lineK; rw [hox, hoy, ← hK]; ring
  refine checkObstacle_of_cell s P G o ho hdy ((ySpan_iff P G o).mpr ?_)
    ((xSpan_iff P G o).mpr ?_) (blocked_of_mixed P G o K _ _ hKo rfl rfl hdy hpos hneg)
  · rw [hoy]; exact hspan.1
  · rw [hox]; exact hspan.2

/-- With the 8 neighbours of `G` listed as obstacles, `CheckObstacle(P, G)` is true for every
grid node `P` standing on another cell than `G`. -/
theorem ring_blocks (s : RRT) (n : Nat) (P G : Node) (hP : OnGrid n P) (hG : OnGrid n G)
    (hne : P.x ≠ G.x ∨ P.y ≠ G.y) (hring : RingListed n G.x G.y s.obstacle_list_) :
    CheckObstacle s P G = true := by
  obtain ⟨p1, p2, p3, p4⟩ := hP
  obtain ⟨g1, g2, g3, g4⟩ := hG
  by_cases hdy : G.y - P.y = 0
  · have hx : P.x ≠ G.x := by
      rcases hne with h | h
      · exact h
      · omega
    unfold CheckObstacle
    rw [if_pos hdy]
    simp only [List.any_eq_true, Bool.and_eq_true, decide_eq_true_eq, xSpan_iff]
    rcases lt_or_gt_of_ne hx with h | h
    · obtain ⟨o, ho, hox, hoy⟩ := hring (G.x - 1) G.y (by omega) (by omega) g3 g4 (by omega)
        (by omega) (by omega) (by omega) (by omega)
      exact ⟨o, ho, by omega, by rw [hoy]⟩
    · obtain ⟨o, ho, hox, hoy⟩ := hring (G.x + 1) G.y (by omega) (by omega) g3 g4 (by omega)
        (by omega) (by omega) (by omega) (by omega)
      exact ⟨o, ho, by omega, by rw [hoy]⟩
  · rcases lt_or_gt_of_ne hdy with hy | hy
    · -- `P` lies at a greater `y` than `G`
      rcases lt_trichotomy (G.x - P.x) 0 with hx | hx | hx
      · by_cases r1 : -(2 * (G.x - P.x)) < -(G.y - P.y)
        · exact ring_cell s n P G 0 1 (-(G.x - P.x)) hring hdy (by ring) (by omega) (by omega)
            (by omega) (by omega)
        · by_cases r3 : -(2 * (G.y - P.y)) < -(G.x - P.x)
          · exact ring_cell s n P G 1 0 (G.y - P.y) hring hdy (by ring) (by omega) (by omega)
              (by omega) (by omega)
          · exact ring_cell s n P G 1 1 ((G.y - P.y) - (G.x - P.x)) hring hdy (by ring)
              (by omega) (by omega) (by omega) (by omega)
      · exact ring_cell s n P G 0 1 (-(G.x - P.x)) hring hdy (by ring) (by omega) (by omega)
          (by omega) (by omega)
      · by_cases r1 : 2 * (G.x - P.x) < -(G.y - P.y)
        · exact ring_cell s n P G 0 1 (-(G.x - P.x)) hring hdy (by ring) (by omega) (by omega)
            (by omega) (by omega)
        · by_cases r3 : -(2 * (G.y - P.y)) < G.x - P.x
          · exact ring_cell s n P G (-1) 0 (-(G.y - P.y)) hring hdy (by ring) (by omega)
              (by omega) (by omega) (by omega)
          · exact ring_cell s n P G (-1) 1 (-(G.y - P.y) - (G.x - P.x)) hring hdy (by ring)
              (by omega) (by omega) (by omega) (by omega)
    · -- `P` lies at a smaller `y` than `G`
      rcases lt_trichotomy (G.x - P.x) 0 with hx | hx | hx
      · by_cases r1 : -(2 * (G.x - P.x)) < G.y - P.y
        · exact ring_cell s n P G 0 (-1) (G.x - P.x) hring hdy (by ring) (by omega) (by omega)
            (by omega) (by omega)
        · by_cases r3 : 2 * (G.y - P.y) < -(G.x - P.x)
          · exact ring_cell s n P G 1 0 (G.y - P.y) hring hdy (by ring) (by omega) (by omega)
              (by omega) (by omega)
          · exact ring_cell s n P G 1 (-1) ((G.y - P.y) + (G.x - P.x)) hring hdy (by ring)
              (by omega) (by omega) (by omega) (by omega)
      · exact ring_cell s n P G 0 (-1) (G.x - P.x) hring hdy (by ring) (by omega) (by omega)
          (by omega) (by omega)
      · by_cases r1 : 2 * (G.x - P.x) < G.y - P.y
        · exact ring_cell s n P G 0 (-1) (G.x - P.x) hring hdy (by ring) (by omega) (by omega)
            (by omega) (by omega)
        · by_cases r3 : 2 * (G.y - P.y) < G.x - P.x
          · exact ring_cell s n P G (-1) 0 (-(G.y - P.y)) hring hdy (by ring) (by omega)
              (by omega) (by omega) (by omega)
          · exact ring_cell s n P G (-1) (-1) (-(G.y - P.y) + (G.x - P.x)) hring hdy (by ring)
              (by omega) (by omega) (by omega) (by omega)

/-! ## C8 -/

/-- Every run of `rrt` returns, and the counter `iter` never exceeds `max_iter + 1`, where
`max_iter = max_iter_x_factor * n * n`. -/
theorem rrt_iter_le (s : RRT) (grid : Grid) (n : Nat) (start goal : Node) (factor : Int)
    (threshold : ℚ) (samples : Nat → Int × Int) :
    ∃ out, rrt s grid n start goal factor threshold samples = some out ∧
      (out.iter : Int) ≤ max (factor * n * n + 1) 0 := by
  rw [rrt_unfold]
  split
  · exact ⟨_, rfl, le_max_right _ _⟩
  · refine rrtLoop_spec n (factor * n * n) samples
      (fun iter _ _ => (iter : Int) ≤ max (factor * n * n + 1) 0)
      (fun out => (out.iter : Int) ≤ max (factor * n * n + 1) 0) ?_ ?_ _ 0 _ _
      (le_max_right _ _) (by omega)
    · intro iter st g _ hle
      have h1 : ((iter + 1 : Nat) : Int) ≤ max (factor * n * n + 1) 0 := by
        push_cast; exact le_trans (by omega) (le_max_left _ _)
      refine ⟨fun _ _ _ => h1, ?_⟩
      intro out hout
      rcases rrtTurn_cases n samples iter st g with ⟨-, hT⟩ | ⟨-, -, hT⟩ |
        ⟨new_node, -, -, -, -, hT⟩ | ⟨new_node, -, -, -, -, hT⟩
      · rw [hT] at hout; simp at hout
      · rw [hT] at hout; simp at hout
      · rw [hT] at hout; simp at hout
      · rw [hT] at hout
        rw [← Sum.inr.inj hout]
        exact h1
    · intro iter st g hinv _
      exact hinv

/-- When the run ends in `[no_path_node]` and `max_iter >= 0`, the counter `iter` stands at
`max_iter + 1`: the loop has drawn one sample more than `max_iter`. -/
theorem rrt_exhausted_iter (s : RRT) (grid : Grid) (n : Nat) (start goal : Node)
    (factor : Int) (threshold : ℚ) (samples : Nat → Int × Int)
    (hmax : 0 ≤ factor * n * n) :
    ∃ out, rrt s grid n start goal factor threshold samples = some out ∧
      (out.path = [sentinelNode] → (out.iter : Int) = factor * n * n + 1) := by
  rw [rrt_unfold]
  rcases checkGoalVisible_cases (initPlanner s grid n start goal threshold) start with hv | hv
  · rw [hv]
    refine ⟨_, rfl, ?_⟩
    intro h
    have := congrArg List.length h
    simp [initPlanner] at this
  · rw [hv]
    simp only [Bool.false_eq_true, if_false]
    refine rrtLoop_spec n (factor * n * n) samples
      (fun iter _ _ => (iter : Int) ≤ factor * n * n + 1)
      (fun out => out.path = [sentinelNode] → (out.iter : Int) = factor * n * n + 1)
      ?_ ?_ _ 0 _ _ (by push_cast; omega) (by omega)
    · intro iter st g _ hle
      refine ⟨fun _ _ _ => by push_cast; omega, ?_⟩
      intro out hout
      rcases rrtTurn_cases n samples iter st g with ⟨-, hT⟩ | ⟨-, -, hT⟩ |
        ⟨new_node, -, -, -, -, hT⟩ | ⟨new_node, -, -, -, -, hT⟩
      · rw [hT] at hout; simp at hout
      · rw [hT] at hout; simp at hout
      · rw [hT] at hout; simp at hout
      · rw [hT] at hout
        rw [← Sum.inr.inj hout]
        intro h
        have := congrArg List.length h
        simp at this
    · intro iter st g hinv hg _
      simp only [exhausted]
      omega

/-- C8, the code at the failing input: on the 2-by-2 grid without obstacles, with start
`(0, 0)`, goal `(1, 1)`, factor 1 (so `max_iter = 4`), threshold 0 and every draw equal to
`(0, 0)`, each sample is discarded and the sentinel is returned after 5 turns of the loop,
one more than `max_iter`. -/
theorem rrt_iterations_past_max_iter :
    (1 : Int) * (2 : Nat) * (2 : Nat) = 4 ∧
    (rrt freshRRT exFreeGrid 2 (mkNode 0 0 0 0 0 0) (mkNode 1 1 0 0 3 0) 1 0
      (fun _ => (0, 0))).map (fun out => (out.path, out.iter)) = some ([sentinelNode], 5) :=
  ⟨by decide, by decide!⟩

theorem findNearestPoint_coords (s : RRT) (cand : Node) (n : Nat) :
    (FindNearestPoint s cand n).2.1.x = cand.x ∧ (FindNearestPoint s cand n).2.1.y = cand.y ∧
      (FindNearestPoint s cand n).2.1.id = cand.id := by
  rcases findNearestPoint_cases s cand n with ⟨f, -, -, -, -, hr⟩ | ⟨-, -, hr⟩ <;> rw [hr] <;>
    exact ⟨rfl, rfl, rfl⟩

/-- A candidate whose segment to every tree node is blocked gets the sentinel. -/
theorem findNearestPoint_blocked (s : RRT) (cand : Node) (n : Nat)
    (h : ∀ t ∈ s.point_list_, CheckObstacle s t cand = true) :
    FindNearestPoint s cand n = (sentinelNode, cand, s) := by
  rcases findNearestPoint_cases s cand n with ⟨f, -, -, -, ⟨i, hi, hq, -, -⟩, -⟩ | ⟨-, -, hr⟩
  · have hmem : f ∈ s.point_list_ := List.mem_iff_getElem?.mpr ⟨i, hi⟩
    have := h f hmem
    rw [hq.2.1] at this
    exact absurd this (by simp)
  · exact hr

theorem ringListed_of_enclosed (grid : Grid) (n : Nat) (goal : Node) (l : List Node)
    (h : GoalEnclosed grid n goal) : RingListed n goal.x goal.y (l ++ obstacleCells grid n) := by
  intro i j i0 i1 j0 j1 hne a1 a2 b1 b2
  have hi : ((i.toNat : Nat) : Int) = i := Int.toNat_of_nonneg i0
  have hj : ((j.toNat : Nat) : Int) = j := Int.toNat_of_nonneg j0
  have hg : grid (i.toNat : Nat) (j.toNat : Nat) = 1 :=
    h i.toNat j.toNat (by omega) (by omega) (by omega) (by omega) (by omega) (by omega)
      (by omega)
  refine ⟨obstacleAt n i.toNat j.toNat, List.mem_append_right _ ?_, hi, hj⟩
  exact (mem_obstacleCells grid n _).mpr ⟨i.toNat, j.toNat, by omega, by omega, hg, rfl⟩

/-! ## C9 -/

/-- C9. On a fresh planner, with the goal on the grid and each of its 8 neighbours on the grid
an obstacle, and the start a free grid cell outside that ring: whatever the draws (each within
`[0, n-1]`), the threshold and the factor, `rrt` returns the one-element list holding the
sentinel `Node(-1,-1,-1,-1,-1,-1)`. -/
theorem rrt_enclosed_goal (s : RRT) (grid : Grid) (n : Nat) (start goal : Node) (factor : Int)
    (threshold : ℚ) (samples : Nat → Int × Int) (hs : Fresh s)
    (hsamples : ∀ k, InRange n (samples k))
    (hstart : OnGrid n start) (hgoal : OnGrid n goal) (henc : GoalEnclosed grid n goal)
    (_hfree : grid start.x start.y = 0) (hout : OutsideRing goal start) :
    ∃ out, rrt s grid n start goal factor threshold samples = some out ∧
      out.path = [sentinelNode] := by
  have hring : RingListed n goal.x goal.y (s.obstacle_list_ ++ obstacleCells grid n) :=
    ringListed_of_enclosed grid n goal _ henc
  have hstart_ne : start.x ≠ goal.x ∨ start.y ≠ goal.y := by
    unfold OutsideRing at hout; omega
  have hinit : CheckGoalVisible (initPlanner s grid n start goal threshold) start =
      (false, initPlanner s grid n start goal threshold) :=
    checkGoalVisible_of_hidden _ _ (Or.inl
      (ring_blocks _ n start goal hstart hgoal hstart_ne hring))
  rw [rrt_unfold, hinit]
  simp only [Bool.false_eq_true, if_false]
  refine rrtLoop_spec n (factor * n * n) samples
    (fun _ st _ => st.goal_ = goal ∧
      RingListed n goal.x goal.y st.obstacle_list_ ∧
      ∀ t ∈ st.point_list_, OnGrid n t ∧ (t.x ≠ goal.x ∨ t.y ≠ goal.y))
    (fun out => out.path = [sentinelNode]) ?_ ?_ _ 0 _ _ ?_ (by omega)
  · -- a turn of the loop
    intro iter st g ⟨hg, hr, htree⟩ _
    have hcand : OnGrid n (GenerateRandomNode n (samples iter)) := hsamples iter
    obtain ⟨cx, cy, -⟩ := findNearestPoint_coords st (GenerateRandomNode n (samples iter)) n
    -- an accepted candidate is on the grid and not on the goal cell
    have hacc : ∀ new_node : Node,
        (FindNearestPoint st (GenerateRandomNode n (samples iter)) n).1.id ≠ -1 →
        new_node = (FindNearestPoint st (GenerateRandomNode n (samples iter)) n).2.1 →
        OnGrid n new_node ∧ (new_node.x ≠ goal.x ∨ new_node.y ≠ goal.y) := by
      intro new_node hid hnew
      refine ⟨by unfold OnGrid at hcand ⊢; rw [hnew, cx, cy]; exact hcand, ?_⟩
      by_contra hcon
      have hxy : (GenerateRandomNode n (samples iter)).x = goal.x ∧
          (GenerateRandomNode n (samples iter)).y = goal.y := by
        rw [hnew, cx, cy] at hcon; omega
      apply hid
      rw [findNearestPoint_blocked st (GenerateRandomNode n (samples iter)) n ?_]
      · rfl
      · intro t ht
        refine ring_blocks st n t _ (htree t ht).1 hcand ?_ ?_
        · rw [hxy.1, hxy.2]; exact (htree t ht).2
        · rw [hxy.1, hxy.2]; exact hr
    rcases rrtTurn_cases n samples iter st g with ⟨-, hT⟩ | ⟨-, -, hT⟩ |
      ⟨new_node, -, hid, hnew, -, hT⟩ | ⟨new_node, -, hid, hnew, hv, -⟩
    · rw [hT]
      refine ⟨?_, fun out h => by simp at h⟩
      intro s' g' h
      obtain ⟨rfl, -⟩ := Prod.mk.inj (Sum.inl.inj h)
      exact ⟨hg, hr, htree⟩
    · rw [hT]
      refine ⟨?_, fun out h => by simp at h⟩
      intro s' g' h
      obtain ⟨rfl, -⟩ := Prod.mk.inj (Sum.inl.inj h)
      exact ⟨hg, hr, htree⟩
    · rw [hT]
      refine ⟨?_, fun out h => by simp at h⟩
      intro s' g' h
      obtain ⟨rfl, -⟩ := Prod.mk.inj (Sum.inl.inj h)
      refine ⟨hg, hr, ?_⟩
      intro t ht
      rcases List.mem_append.mp ht with h' | h'
      · exact htree t h'
      · rw [List.mem_singleton.mp h']; exact hacc new_node hid hnew
    · -- the goal cannot be visible from an accepted candidate
      exfalso
      obtain ⟨hnew_grid, hnew_ne⟩ := hacc new_node hid hnew
      have hblock : CheckObstacle { st with point_list_ := st.point_list_ ++ [new_node] }
          new_node goal = true :=
        ring_blocks _ n new_node goal hnew_grid hgoal hnew_ne hr
      have hf := checkGoalVisible_of_hidden
        { st with point_list_ := st.point_list_ ++ [new_node] } new_node
        (Or.inl (by rw [show ({ st with point_list_ := st.point_list_ ++ [new_node] } : RRT).goal_
          = goal from hg]; exact hblock))
      rw [hf] at hv
      exact absurd (congrArg Prod.fst hv) (by simp)
  · intro iter st g _ _
    rfl
  · refine ⟨rfl, hring, ?_⟩
    intro t ht
    have hps : s.point_list_ = [] := hs.1
    simp only [initPlanner, hps, List.nil_append, List.mem_singleton] at ht
    rw [ht]; exact ⟨hstart, hstart_ne⟩

/-- The goal `(2, 2)` of a 5-by-5 grid enclosed by its 8 neighbours, start `(0, 0)`. -/
theorem rrt_enclosed_goal_witness :
    (Fresh freshRRT ∧ (∀ k, InRange 5 (exWalk k)) ∧ OnGrid 5 (mkNode 0 0 0 0 0 0) ∧
      OnGrid 5 (mkNode 2 2 0 0 12 0) ∧ GoalEnclosed exRingGrid 5 (mkNode 2 2 0 0 12 0) ∧
      exRingGrid (mkNode 0 0 0 0 0 0).x (mkNode 0 0 0 0 0 0).y = 0 ∧
      OutsideRing (mkNode 2 2 0 0 12 0) (mkNode 0 0 0 0 0 0)) ∧
    ∃ out, rrt freshRRT exRingGrid 5 (mkNode 0 0 0 0 0 0) (mkNode 2 2 0 0 12 0) 1 2 exWalk
        = some out ∧ out.path = [sentinelNode] := by
  have hw : ∀ k, InRange 5 (exWalk k) := by
    intro k; unfold InRange exWalk; simp only; omega
  have henc : GoalEnclosed exRingGrid 5 (mkNode 2 2 0 0 12 0) := by
    intro i j hi hj hne a1 a2 b1 b2
    simp only [mkNode] at hne a1 a2 b1 b2
    unfold exRingGrid
    rw [if_pos (by omega)]
  have hout : OutsideRing (mkNode 2 2 0 0 12 0) (mkNode 0 0 0 0 0 0) := Or.inl (by decide)
  exact ⟨⟨⟨rfl, rfl⟩, hw, by decide, by decide, henc, by decide, hout⟩,
    rrt_enclosed_goal freshRRT exRingGrid 5 (mkNode 0 0 0 0 0 0) (mkNode 2 2 0 0 12 0) 1 2
      exWalk ⟨rfl, rfl⟩ hw (by decide) (by decide) henc (by decide) hout⟩

/-! ## C10 -/

/-- On a fresh planner `rrt` returns, and the result is `[no_path_node]` or runs from `start`
to a goal entry. -/
theorem rrt_outcome (s : RRT) (grid : Grid) (n : Nat) (start goal : Node) (factor : Int)
    (threshold : ℚ) (samples : Nat → Int × Int) (hs : Fresh s) :
    ∃ out, rrt s grid n start goal factor threshold samples = some out ∧
      (out.path = [sentinelNode] ∨ StartToGoal start goal out.path) := by
  have hp : s.point_list_ = [] := hs.1
  rw [rrt_unfold]
  rcases checkGoalVisible_cases (initPlanner s grid n start goal threshold) start with hv | hv
  · rw [hv]
    refine ⟨_, rfl, Or.inr ⟨[], goalFrom (initPlanner s grid n start goal threshold) start, ?_,
      rfl, rfl, rfl⟩⟩
    simp [initPlanner, hp]
  · rw [hv]
    simp only [Bool.false_eq_true, if_false]
    refine rrtLoop_spec n (factor * n * n) samples
      (fun _ st _ => st.goal_ = goal ∧ ∃ rest, st.point_list_ = start :: rest)
      (fun out => out.path = [sentinelNode] ∨ StartToGoal start goal out.path)
      ?_ ?_ _ 0 _ _ ⟨rfl, [], by simp [initPlanner, hp]⟩ (by omega)
    · intro iter st g ⟨hg, rest, hrest⟩ _
      rcases rrtTurn_cases n samples iter st g with ⟨-, hT⟩ | ⟨-, -, hT⟩ |
        ⟨new_node, -, -, -, -, hT⟩ | ⟨new_node, -, -, -, -, hT⟩
      · rw [hT]
        refine ⟨?_, fun out h => by simp at h⟩
        intro s' g' h
        obtain ⟨rfl, -⟩ := Prod.mk.inj (Sum.inl.inj h)
        exact ⟨hg, rest, hrest⟩
      · rw [hT]
        refine ⟨?_, fun out h => by simp at h⟩
        intro s' g' h
        obtain ⟨rfl, -⟩ := Prod.mk.inj (Sum.inl.inj h)
        exact ⟨hg, rest, hrest⟩
      · rw [hT]
        refine ⟨?_, fun out h => by simp at h⟩
        intro s' g' h
        obtain ⟨rfl, -⟩ := Prod.mk.inj (Sum.inl.inj h)
        exact ⟨hg, rest ++ [new_node], by simp [hrest]⟩
      · rw [hT]
        refine ⟨fun s' g' h => by simp at h, ?_⟩
        intro out h
        rw [← Sum.inr.inj h]
        refine Or.inr ⟨rest ++ [new_node], goalFrom st new_node, by simp [hrest], ?_, ?_, ?_⟩
        · simp [goalFrom, hg]
        · simp [goalFrom, hg]
        · simp [goalFrom, hg]
    · intro iter st g _ _
      exact Or.inl rfl

/-- C10. For inputs meeting the preconditions of the entry point and any draws, `rrt` on a
fresh planner returns either a one-element list whose node has id `-1`, or a list of at least
two nodes whose first element is `start` and whose last element has the `x`, `y` and `id` of
`goal`. -/
theorem rrt_result_shape (s : RRT) (grid : Grid) (n : Nat) (start goal : Node) (factor : Int)
    (threshold : ℚ) (samples : Nat → Int × Int) (hs : Fresh s)
    (_hpre : InterfaceOk grid n start goal) :
    ∃ out, rrt s grid n start goal factor threshold samples = some out ∧
      ((∃ d, out.path = [d] ∧ d.id = -1) ∨
       (2 ≤ out.path.length ∧ out.path.head? = some start ∧
        ∃ g, out.path.getLast? = some g ∧ g.x = goal.x ∧ g.y = goal.y ∧ g.id = goal.id)) := by
  obtain ⟨out, hout, h | ⟨mid, g, hpath, gx, gy, gid⟩⟩ :=
    rrt_outcome s grid n start goal factor threshold samples hs
  · exact ⟨out, hout, Or.inl ⟨sentinelNode, h, rfl⟩⟩
  · refine ⟨out, hout, Or.inr ⟨?_, ?_, g, ?_, gx, gy, gid⟩⟩
    · rw [hpath]; simp
    · rw [hpath]; rfl
    · rw [hpath, ← List.cons_append, List.getLast?_append]; simp

/-- A 3-by-3 grid with a wall: the run from `(0, 0)` to `(0, 2)` succeeds through three
accepted samples. -/
theorem rrt_result_shape_witness :
    (Fresh freshRRT ∧ InterfaceOk exWallGrid 3 (mkNode 0 0 0 0 0 0) (mkNode 0 2 0 0 2 0)) ∧
    (rrt freshRRT exWallGrid 3 (mkNode 0 0 0 0 0 0) (mkNode 0 2 0 0 2 0) 1 2
        (fun k => ((2 : Int), (k : Int) % 3))).map (fun out => out.path.map fun t => (t.x, t.y))
      = some [(0, 0), (2, 0), (2, 1), (2, 2), (0, 2)] ∧
    ∃ out, rrt freshRRT exWallGrid 3 (mkNode 0 0 0 0 0 0) (mkNode 0 2 0 0 2 0) 1 2
        (fun k => ((2 : Int), (k : Int) % 3)) = some out ∧
      ((∃ d, out.path = [d] ∧ d.id = -1) ∨
       (2 ≤ out.path.length ∧ out.path.head? = some (mkNode 0 0 0 0 0 0) ∧
        ∃ g, out.path.getLast? = some g ∧ g.x = (mkNode 0 2 0 0 2 0).x ∧
          g.y = (mkNode 0 2 0 0 2 0).y ∧ g.id = (mkNode 0 2 0 0 2 0).id)) :=
  ⟨⟨⟨rfl, rfl⟩, by unfold InterfaceOk; decide⟩, by decide!,
    rrt_result_shape freshRRT exWallGrid 3 (mkNode 0 0 0 0 0 0) (mkNode 0 2 0 0 2 0) 1 2
      (fun k => ((2 : Int), (k : Int) % 3)) ⟨rfl, rfl⟩ (by unfold InterfaceOk; decide)⟩

/-! ## C13 -/

theorem obstacleRow_eq_spec (grid : Grid) (n i : Nat) (js : List Nat) :
    (js.filterMap fun (j : Nat) => if grid i j = 1 then some (obstacleAt n i j) else none) =
      ((js.map fun j => (i, j)).filter fun c => decide (grid c.1 c.2 = 1)).map fun c =>
        mkNode c.1 c.2 0 0 ((c.1 : Int) * n + c.2) 0 := by
  induction js with
  | nil => rfl
  | cons j js ih =>
    simp only [obstacleAt] at ih ⊢
    by_cases h : grid i j = 1
    · simp [List.filterMap_cons, h, ih]
    · simp [List.filterMap_cons, h, ih]

theorem obstacleCells_eq_spec (grid : Grid) (n : Nat) :
    obstacleCells grid n = obstacleSpec grid n := by
  unfold obstacleCells obstacleSpec gridCells obstacleRow
  rw [List.filter_flatMap, List.map_flatMap]
  congr 1
  funext i
  exact obstacleRow_eq_spec grid n i (List.range n)

theorem gridCells_nodup (n : Nat) : (gridCells n).Nodup :=
  List.Nodup.product (List.nodup_range n) (List.nodup_range n)

theorem mem_gridCells (n : Nat) (c : Nat × Nat) : c ∈ gridCells n ↔ c.1 < n ∧ c.2 < n := by
  have : gridCells n = List.product (List.range n) (List.range n) := rfl
  rw [this]
  obtain ⟨a, b⟩ := c
  simp [List.mem_product]

theorem length_filter_eq_of_nodup {α : Type} [DecidableEq α] (l : List α) (a : α)
    (h : l.Nodup) : (l.filter fun c => decide (c = a)).length = if a ∈ l then 1 else 0 := by
  induction l with
  | nil => simp
  | cons b l ih =>
    obtain ⟨hb, hl⟩ := List.nodup_cons.mp h
    by_cases hba : b = a
    · subst hba
      have h0 : (l.filter fun c => decide (c = b)).length = 0 := by
        rw [ih hl, if_neg hb]
      simp [List.filter_cons, h0]
    · have hab : ¬ a = b := fun h' => hba h'.symm
      simp [List.filter_cons, hba, hab, ih hl]

/-- C13. On a planner with an empty obstacle list, `CreateObstacleList` produces the entries
`Node(i, j, 0, 0, i*n+j, 0)` of the cells with `grid[i][j] == 1` in row-major order: every
cell of the grid has one entry if it is flagged `1` and none otherwise, and every entry comes
from a flagged cell of the grid. -/
theorem createObstacleList_spec (s : RRT) (grid : Grid) (n : Nat)
    (hs : s.obstacle_list_ = []) :
    (CreateObstacleList s grid n).obstacle_list_ = obstacleSpec grid n ∧
    (∀ i j : Nat, i < n → j < n →
      ((CreateObstacleList s grid n).obstacle_list_.filter
        fun o => decide (o.x = (i : Int) ∧ o.y = (j : Int))).length = if grid i j = 1 then 1 else 0) ∧
    (∀ o ∈ (CreateObstacleList s grid n).obstacle_list_, ∃ i j : Nat, i < n ∧ j < n ∧
      grid i j = 1 ∧ o.x = i ∧ o.y = j ∧ o.id = (i : Int) * n + j) := by
  have heq : (CreateObstacleList s grid n).obstacle_list_ = obstacleSpec grid n := by
    rw [createObstacleList_eq, ← obstacleCells_eq_spec]
    simp [hs]
  refine ⟨heq, ?_, ?_⟩
  · intro i j hi hj
    have hfil : ((obstacleSpec grid n).filter fun o => decide (o.x = (i : Int) ∧ o.y = (j : Int))).length =
        (((gridCells n).filter fun c => decide (grid c.1 c.2 = 1)).filter
          fun c => decide (c = (i, j))).length := by
      unfold obstacleSpec
      rw [List.filter_map, List.length_map]
      congr 2
      funext c
      obtain ⟨a, b⟩ := c
      simp [mkNode]
    rw [heq, hfil, length_filter_eq_of_nodup _ _ ((gridCells_nodup n).filter _)]
    by_cases hg : grid i j = 1
    · rw [if_pos hg, if_pos]
      exact List.mem_filter.mpr ⟨(mem_gridCells n (i, j)).mpr ⟨hi, hj⟩, by simpa using hg⟩
    · rw [if_neg hg, if_neg]
      intro hmem
      exact hg (by simpa using (List.mem_filter.mp hmem).2)
  · intro o ho
    rw [heq, ← obstacleCells_eq_spec] at ho
    obtain ⟨i, j, hi, hj, hg, rfl⟩ := (mem_obstacleCells grid n o).mp ho
    exact ⟨i, j, hi, hj, hg, rfl, rfl, rfl⟩

/-- A 3-by-3 grid with obstacles on `(0, 1)` and `(2, 0)`. -/
theorem createObstacleList_spec_witness :
    freshRRT.obstacle_list_ = [] ∧
    (CreateObstacleList freshRRT exTwoObstacles 3).obstacle_list_ =
      [mkNode 0 1 0 0 1 0, mkNode 2 0 0 0 6 0] ∧
    (CreateObstacleList freshRRT exTwoObstacles 3).obstacle_list_ =
      obstacleSpec exTwoObstacles 3 :=
  ⟨rfl, by decide!, (createObstacleList_spec freshRRT exTwoObstacles 3 rfl).1⟩

/-! ## C14 -/

/-- C14. Invoking `CreateObstacleList` a second time on the same grid leaves the set of
`(x, y)` coordinates of the obstacle list as it was after the first invocation. -/
theorem createObstacleList_twice (s : RRT) (grid : Grid) (n : Nat) :
    coordSet (CreateObstacleList (CreateObstacleList s grid n) grid n).obstacle_list_ =
      coordSet (CreateObstacleList s grid n).obstacle_list_ := by
  simp only [createObstacleList_eq, coordSet, List.map_append, List.toFinset_append,
    Finset.union_assoc, Finset.union_self]

/-! ## The line test in binary64 -/

/-- The error of a rounding, from a bound on the magnitude of the operand. -/
theorem roundDouble_close (x B : ℚ) (h : |x| ≤ B) :
    |roundDouble x - x| ≤ B / 2 ^ 53 ∧ |roundDouble x| ≤ B + B / 2 ^ 53 := by
  have h1 : |roundDouble x - x| ≤ B / 2 ^ 53 :=
    le_trans (roundDouble_err x) (div_le_div_of_nonneg_right h (by norm_num))
  refine ⟨h1, ?_⟩
  have : roundDouble x = (roundDouble x - x) + x := by ring
  rw [this]
  exact le_trans (abs_add _ _) (by linarith)

theorem abs_mul_le_of_le {x y X Y : ℚ} (hx : |x| ≤ X) (hy : |y| ≤ Y) : |x * y| ≤ X * Y := by
  rw [abs_mul]
  exact mul_le_mul hx hy (abs_nonneg _) (le_trans (abs_nonneg _) hx)

theorem abs_int_le (i : ℤ) (M : ℤ) (h : |i| ≤ M) : |(i : ℚ)| ≤ (M : ℚ) := by
  have : ((|i| : ℤ) : ℚ) ≤ (M : ℚ) := by exact_mod_cast h
  simpa using this

/-- A coordinate of magnitude at most 4096 moved by `0.5`: the sum is computed exactly. -/
theorem half_exact (i : ℤ) (h : |i| ≤ 4096) :
    fadd (i : ℚ) (1/2) = (i : ℚ) + 1/2 ∧ fsub (i : ℚ) (1/2) = (i : ℚ) - 1/2 := by
  have hi := abs_le.mp h
  constructor
  · unfold fadd
    have e : (i : ℚ) + 1/2 = ((2 * i + 1 : ℤ) : ℚ) / 2 := by push_cast; ring
    rw [e]
    exact roundDouble_of_isDouble _ (isDouble_half _ (by rw [abs_lt]; constructor <;> omega))
  · unfold fsub
    have e : (i : ℚ) - 1/2 = ((2 * i - 1 : ℤ) : ℚ) / 2 := by push_cast; ring
    rw [e]
    exact roundDouble_of_isDouble _ (isDouble_half _ (by rw [abs_lt]; constructor <;> omega))

/-- The corner value computed in binary64 is within `2^-22` of the exact corner value when
the coordinates are at most 4096 in magnitude. -/
theorem corner64_close (dx dy xb yb : ℤ) (a b : ℚ) (hdy : dy ≠ 0) (hdx : |dx| ≤ 8192)
    (hbx : |xb| ≤ 4096) (hby : |yb| ≤ 4096) (ha : |a| ≤ 4097) (hb : |b| ≤ 4097) :
    |fsub (fsub a (fmul (fdiv (dx : ℚ) (dy : ℚ)) b))
        (fsub (xb : ℚ) (fmul (fdiv (dx : ℚ) (dy : ℚ)) (yb : ℚ)))
      - (a - (dx : ℚ) / (dy : ℚ) * b - ((xb : ℚ) - (dx : ℚ) / (dy : ℚ) * (yb : ℚ)))| ≤
      1 / 2 ^ 22 := by
  -- the exact slope
  have hs : |(dx : ℚ) / (dy : ℚ)| ≤ 8192 := by
    have h1 : (1 : ℚ) ≤ |(dy : ℚ)| := by
      have : (1 : ℤ) ≤ |dy| := Int.one_le_abs hdy
      have : ((1 : ℤ) : ℚ) ≤ ((|dy| : ℤ) : ℚ) := by exact_mod_cast this
      simpa using this
    rw [abs_div, div_le_iff₀ (by linarith)]
    have := abs_int_le dx 8192 hdx
    push_cast at this
    nlinarith [abs_nonneg (dx : ℚ)]
  have hbxq := abs_int_le xb 4096 hbx
  have hbyq := abs_int_le yb 4096 hby
  push_cast at hbxq hbyq
  unfold fsub fmul fdiv
  generalize (dx : ℚ) / (dy : ℚ) = s at hs ⊢
  generalize (xb : ℚ) = X at hbxq ⊢
  generalize (yb : ℚ) = Y at hbyq ⊢
  -- the computed slope
  obtain ⟨es, ms⟩ := roundDouble_close s 8192 hs
  generalize roundDouble s = s' at es ms ⊢
  have ms' : |s'| ≤ 8193 := le_trans ms (by norm_num)
  -- the intercept
  have t1 : |s' * Y| ≤ 8193 * 4096 := abs_mul_le_of_le ms' hbyq
  obtain ⟨ep, mp⟩ := roundDouble_close (s' * Y) (8193 * 4096) t1
  generalize roundDouble (s' * Y) = p at ep mp ⊢
  have epY : |p - s * Y| ≤ 1 / 2 ^ 26 := by
    have h1 : |(s' - s) * Y| ≤ 8192 / 2 ^ 53 * 4096 := abs_mul_le_of_le es hbyq
    have h2 : p - s * Y = (p - s' * Y) + (s' - s) * Y := by ring
    rw [h2]
    refine le_trans (abs_add _ _) ?_
    have : (8193 : ℚ) * 4096 / 2 ^ 53 + 8192 / 2 ^ 53 * 4096 ≤ 1 / 2 ^ 26 := by norm_num
    linarith
  have mp' : |p| ≤ 2 ^ 26 := le_trans mp (by norm_num)
  have t2 : |X - p| ≤ 2 ^ 27 := by
    have : |X - p| ≤ |X| + |p| := abs_sub _ _
    have e : (4096 : ℚ) + 2 ^ 26 ≤ 2 ^ 27 := by norm_num
    linarith
  obtain ⟨ec, mc⟩ := roundDouble_close (X - p) (2 ^ 27) t2
  generalize roundDouble (X - p) = c at ec mc ⊢
  have ecc : |c - (X - s * Y)| ≤ 1 / 2 ^ 25 := by
    have h2 : c - (X - s * Y) = (c - (X - p)) - (p - s * Y) := by ring
    rw [h2]
    refine le_trans (abs_sub _ _) ?_
    have : (2 : ℚ) ^ 27 / 2 ^ 53 + 1 / 2 ^ 26 ≤ 1 / 2 ^ 25 := by norm_num
    linarith
  have mc' : |c| ≤ 2 ^ 28 := le_trans mc (by norm_num)
  -- the product with the corner ordinate
  have t3 : |s' * b| ≤ 8193 * 4097 := abs_mul_le_of_le ms' hb
  obtain ⟨eq, mq⟩ := roundDouble_close (s' * b) (8193 * 4097) t3
  generalize roundDouble (s' * b) = q at eq mq ⊢
  have eqb : |q - s * b| ≤ 1 / 2 ^ 26 := by
    have h1 : |(s' - s) * b| ≤ 8192 / 2 ^ 53 * 4097 := abs_mul_le_of_le es hb
    have h2 : q - s * b = (q - s' * b) + (s' - s) * b := by ring
    rw [h2]
    refine le_trans (abs_add _ _) ?_
    have : (8193 : ℚ) * 4097 / 2 ^ 53 + 8192 / 2 ^ 53 * 4097 ≤ 1 / 2 ^ 26 := by norm_num
    linarith
  have mq' : |q| ≤ 2 ^ 26 := le_trans mq (by norm_num)
  have t4 : |a - q| ≤ 2 ^ 27 := by
    have : |a - q| ≤ |a| + |q| := abs_sub _ _
    have e : (4097 : ℚ) + 2 ^ 26 ≤ 2 ^ 27 := by norm_num
    linarith
  obtain ⟨er, mr⟩ := roundDouble_close (a - q) (2 ^ 27) t4
  generalize roundDouble (a - q) = r at er mr ⊢
  have err : |r - (a - s * b)| ≤ 1 / 2 ^ 25 := by
    have h2 : r - (a - s * b) = (r - (a - q)) - (q - s * b) := by ring
    rw [h2]
    refine le_trans (abs_sub _ _) ?_
    have : (2 : ℚ) ^ 27 / 2 ^ 53 + 1 / 2 ^ 26 ≤ 1 / 2 ^ 25 := by norm_num
    linarith
  have mr' : |r| ≤ 2 ^ 28 := le_trans mr (by norm_num)
  -- the last subtraction
  have t5 : |r - c| ≤ 2 ^ 29 := by
    have : |r - c| ≤ |r| + |c| := abs_sub _ _
    have e : (2 : ℚ) ^ 28 + 2 ^ 28 ≤ 2 ^ 29 := by norm_num
    linarith
  obtain ⟨ev, -⟩ := roundDouble_close (r - c) (2 ^ 29) t5
  generalize roundDouble (r - c) = v at ev ⊢
  have h2 : v - (a - s * b - (X - s * Y)) = (v - (r - c)) + ((r - (a - s * b)) - (c - (X - s * Y))) := by
    ring
  rw [h2]
  refine le_trans (abs_add _ _) ?_
  have h3 := abs_sub (r - (a - s * b)) (c - (X - s * Y))
  have : (2 : ℚ) ^ 29 / 2 ^ 53 + (1 / 2 ^ 25 + 1 / 2 ^ 25) ≤ 1 / 2 ^ 22 := by norm_num
  linarith

/-- The tolerance `0.000001` in binary64 lies between `2^-22` and `1/1000000`. -/
theorem tol64_bounds : (1 : ℚ) / 2 ^ 22 ≤ tol64 ∧ tol64 ≤ 1 / 1000000 := by
  have e : tol64 = 4722366482869645 / 4722366482869645213696 := by decide!
  rw [e]
  constructor <;> norm_num

/-- An exact corner value `N / (2 d)` with `|d| <= 8192` is `0` or at least `2^-14` in
magnitude. -/
theorem quot_dichotomy (N d : ℤ) (hd : d ≠ 0) (hd' : |d| ≤ 8192) :
    (N : ℚ) / (2 * (d : ℚ)) = 0 ∨ 1 / 2 ^ 14 ≤ |(N : ℚ) / (2 * (d : ℚ))| := by
  by_cases hN : N = 0
  · left; rw [hN]; simp
  · right
    have hdq : (0 : ℚ) < |(d : ℚ)| := abs_pos.mpr (by exact_mod_cast hd)
    have hd8 : |(d : ℚ)| ≤ 8192 := by
      have := abs_int_le d 8192 hd'
      push_cast at this; exact this
    have hN1 : (1 : ℚ) ≤ |(N : ℚ)| := by
      have : (1 : ℤ) ≤ |N| := Int.one_le_abs hN
      have : ((1 : ℤ) : ℚ) ≤ ((|N| : ℤ) : ℚ) := by exact_mod_cast this
      simpa using this
    rw [abs_div, abs_mul, abs_of_pos (by norm_num : (0 : ℚ) < 2), le_div_iff₀ (by linarith)]
    norm_num
    linarith

/-- One turn of the sign loop in binary64 against the exact turn: when `count` is a whole
number of magnitude at most 3, the computed corner value is within `2^-22` of the exact one,
and the exact one is `0` or at least `2^-14` in magnitude, both loops add the same sign. -/
theorem signStep64_eq (k : ℤ) (hk : |k| ≤ 3) (v' v : ℚ) (hclose : |v' - v| ≤ 1 / 2 ^ 22)
    (hv : v = 0 ∨ 1 / 2 ^ 14 ≤ |v|) :
    ∃ σ : ℤ, |σ| ≤ 1 ∧ signTerm v = (σ : ℚ) ∧ signStep64 (k : ℚ) v' = ((k + σ : ℤ) : ℚ) := by
  obtain ⟨tl, tu⟩ := tol64_bounds
  have hk' := abs_le.mp hk
  rw [abs_le] at hclose
  unfold signStep64
  rcases hv with h0 | hbig
  · refine ⟨0, by norm_num, by rw [h0, signTerm_zero]; simp, ?_⟩
    rw [h0] at hclose
    have : |v'| ≤ tol64 := by
      rw [abs_le]; constructor <;> linarith [hclose.1, hclose.2]
    rw [if_pos this]; simp
  · rcases le_or_lt 0 v with hpos | hneg
    · rw [abs_of_nonneg hpos] at hbig
      have hv' : 1 / 1000000 < v' := by
        have : (1 : ℚ) / 1000000 < 1 / 2 ^ 14 - 1 / 2 ^ 22 := by norm_num
        linarith [hclose.1]
      have hv'pos : 0 < v' := lt_trans (by norm_num) hv'
      refine ⟨1, by norm_num, ?_, ?_⟩
      · rw [signTerm_of_pos (lt_of_lt_of_le (by norm_num) hbig)]; simp
      · rw [abs_of_pos hv'pos, if_neg (not_le.mpr (lt_of_le_of_lt tu hv'))]
        unfold fadd fdiv
        rw [div_self (ne_of_gt hv'pos)]
        have e1 : roundDouble (1 : ℚ) = 1 := by
          have := roundDouble_int 1 (by norm_num)
          simpa using this
        rw [e1]
        have := roundDouble_int (k + 1) (by rw [abs_lt]; constructor <;> omega)
        push_cast at this ⊢
        exact this
    · rw [abs_of_neg hneg] at hbig
      have hv' : v' < -(1 / 1000000) := by
        have : (1 : ℚ) / 1000000 < 1 / 2 ^ 14 - 1 / 2 ^ 22 := by norm_num
        linarith [hclose.2]
      have hv'neg : v' < 0 := lt_trans hv' (by norm_num)
      refine ⟨-1, by norm_num, ?_, ?_⟩
      · rw [signTerm_of_neg (by
          have : (1 : ℚ) / 1000000 < 1 / 2 ^ 14 := by norm_num
          linarith)]; simp
      · rw [abs_of_neg hv'neg, if_neg (not_le.mpr (by linarith))]
        unfold fadd fdiv
        rw [div_neg, div_self (ne_of_lt hv'neg)]
        have e1 : roundDouble (-1 : ℚ) = -1 := by
          have := roundDouble_int (-1) (by norm_num)
          simpa using this
        rw [e1]
        have := roundDouble_int (k + -1) (by rw [abs_lt]; constructor <;> omega)
        push_cast at this ⊢
        exact this

theorem half_bound (i : ℤ) (h : |i| ≤ 4096) :
    |(i : ℚ) + 1/2| ≤ 4097 ∧ |(i : ℚ) - 1/2| ≤ 4097 := by
  have := abs_int_le i 4096 h
  push_cast at this
  rw [abs_le] at this
  constructor <;> rw [abs_le] <;> constructor <;> linarith [this.1, this.2]

/-- A corner value of `CheckObstacle64` against the exact corner value, for coordinates of
magnitude at most 4096. -/
theorem corner64_agree (A B : Node) (hdy : B.y - A.y ≠ 0) (hA : Bounded A) (hB : Bounded B)
    (a b : ℚ) (ha : |a| ≤ 4097) (hb : |b| ≤ 4097) :
    |fsub (fsub a (fmul (slope64 A B) b)) (intercept64 A B)
      - (a - slopeOf A B * b - interceptOf A B)| ≤ 1 / 2 ^ 22 := by
  obtain ⟨a1, a2⟩ := hA
  obtain ⟨b1, b2⟩ := hB
  have hdx : |B.x - A.x| ≤ 8192 := by
    rw [abs_le] at a1 b1 ⊢; constructor <;> omega
  exact corner64_close (B.x - A.x) (B.y - A.y) B.x B.y a b hdy hdx b1 b2 ha hb

theorem signCount64_unfold (slope c : ℚ) (o : Node) :
    signCount64 slope c o =
      signStep64 (signStep64 (signStep64 (signStep64 0
        (fsub (fsub (fadd (o.x : ℚ) (1/2)) (fmul slope (fadd (o.y : ℚ) (1/2)))) c))
        (fsub (fsub (fadd (o.x : ℚ) (1/2)) (fmul slope (fsub (o.y : ℚ) (1/2)))) c))
        (fsub (fsub (fsub (o.x : ℚ) (1/2)) (fmul slope (fadd (o.y : ℚ) (1/2)))) c))
        (fsub (fsub (fsub (o.x : ℚ) (1/2)) (fmul slope (fsub (o.y : ℚ) (1/2)))) c) := by
  simp [signCount64, cornerValues64]

/-- For coordinates of magnitude at most 4096 the sign count computed in binary64 is the
exact sign count. -/
theorem signCount64_eq (A B o : Node) (hdy : B.y - A.y ≠ 0) (hA : Bounded A) (hB : Bounded B)
    (ho : Bounded o) :
    signCount64 (slope64 A B) (intercept64 A B) o =
      signCount (slopeOf A B) (interceptOf A B) o := by
  obtain ⟨e0, e1, e2, e3⟩ := corner_forms A B o hdy
  obtain ⟨ox1, ox2⟩ := half_exact o.x ho.1
  obtain ⟨oy1, oy2⟩ := half_exact o.y ho.2
  obtain ⟨bx1, bx2⟩ := half_bound o.x ho.1
  obtain ⟨by1, by2⟩ := half_bound o.y ho.2
  have hd8 : |B.y - A.y| ≤ 8192 := by
    have a2 := hA.2
    have b2 := hB.2
    rw [abs_le] at a2 b2 ⊢; constructor <;> omega
  have c0 := corner64_agree A B hdy hA hB _ _ bx1 by1
  have c1 := corner64_agree A B hdy hA hB _ _ bx1 by2
  have c2 := corner64_agree A B hdy hA hB _ _ bx2 by1
  have c3 := corner64_agree A B hdy hA hB _ _ bx2 by2
  have d0 := quot_dichotomy (2 * lineK A B o + (B.y - A.y) - (B.x - A.x)) (B.y - A.y) hdy hd8
  have d1 := quot_dichotomy (2 * lineK A B o + (B.y - A.y) + (B.x - A.x)) (B.y - A.y) hdy hd8
  have d2 := quot_dichotomy (2 * lineK A B o - (B.y - A.y) - (B.x - A.x)) (B.y - A.y) hdy hd8
  have d3 := quot_dichotomy (2 * lineK A B o - (B.y - A.y) + (B.x - A.x)) (B.y - A.y) hdy hd8
  rw [← e0] at d0
  rw [← e1] at d1
  rw [← e2] at d2
  rw [← e3] at d3
  rw [signCount64_unfold, signCount_eq, ox1, ox2, oy1, oy2]
  obtain ⟨σ0, s0, t0, r0⟩ := signStep64_eq 0 (by norm_num) _ _ c0 d0
  obtain ⟨σ1, s1, t1, r1⟩ := signStep64_eq (0 + σ0) (by
    rw [abs_le] at s0 ⊢; constructor <;> omega) _ _ c1 d1
  obtain ⟨σ2, s2, t2, r2⟩ := signStep64_eq (0 + σ0 + σ1) (by
    rw [abs_le] at s0 s1 ⊢; constructor <;> omega) _ _ c2 d2
  obtain ⟨σ3, s3, t3, r3⟩ := signStep64_eq (0 + σ0 + σ1 + σ2) (by
    rw [abs_le] at s0 s1 s2 ⊢; constructor <;> omega) _ _ c3 d3
  have z : ((0 : ℤ) : ℚ) = 0 := by norm_num
  rw [z] at r0
  rw [r0, r1, r2, r3, t0, t1, t2, t3]
  push_cast
  ring

/-- For coordinates of magnitude at most 4096 the line test in binary64 and the line test in
exact arithmetic return the same value. -/
theorem checkObstacle64_eq (s : RRT) (A B : Node) (hA : Bounded A) (hB : Bounded B)
    (ho : ∀ o ∈ s.obstacle_list_, Bounded o) : CheckObstacle64 s A B = CheckObstacle s A B := by
  unfold CheckObstacle64 CheckObstacle
  by_cases hdy : B.y - A.y = 0
  · rw [if_pos hdy, if_pos hdy]
  · rw [if_neg hdy, if_neg hdy]
    rw [Bool.eq_iff_iff]
    simp only [List.any_eq_true]
    constructor
    · rintro ⟨o, hmem, h⟩
      refine ⟨o, hmem, ?_⟩
      rw [← signCount64_eq A B o hdy hA hB (ho o hmem)]; exact h
    · rintro ⟨o, hmem, h⟩
      refine ⟨o, hmem, ?_⟩
      rw [signCount64_eq A B o hdy hA hB (ho o hmem)]; exact h

/-! ## The general case of the line test against the specification -/

theorem signTerm_eq_signOf (v : ℚ) : signTerm v = signOf (snapZero v) := by
  unfold signTerm snapZero signOf
  by_cases h : |v| ≤ 1/1000000
  · rw [if_pos h, if_pos h]; simp
  · rw [if_neg h, if_neg h]
    have hpos : (0 : ℚ) < |v| := lt_trans (by norm_num) (not_le.mp h)
    have hv : v ≠ 0 := abs_pos.mp hpos
    rcases lt_or_gt_of_ne hv with hneg | hp
    · rw [if_neg (not_lt.mpr (le_of_lt hneg)), if_pos hneg, abs_of_neg hneg, div_neg,
        div_self hv]
    · rw [if_pos hp, abs_of_pos hp, div_self hv]

/-- The exact sign count of `CheckObstacle` is the sign sum of the specification. -/
theorem signCount_eq_lineSignSum (A B o : Node) :
    signCount (slopeOf A B) (interceptOf A B) o = lineSignSum A B o := by
  rw [signCount_eq]
  unfold lineSignSum lineValue
  simp only [signTerm_eq_signOf]
  unfold interceptOf slopeOf
  push_cast
  have e : ∀ q : ℚ, q + -(1 / 2) = q - 1 / 2 := fun q => by ring
  simp only [e]

theorem xSpan_iff_minmax (A B o : Node) :
    xSpan A B o = true ↔ min A.x B.x ≤ o.x ∧ o.x ≤ max A.x B.x := by
  rw [xSpan_iff]
  rcases le_total A.x B.x with h | h
  · rw [min_eq_left h, max_eq_right h]; omega
  · rw [min_eq_right h, max_eq_left h]; omega

theorem ySpan_iff_minmax (A B o : Node) :
    ySpan A B o = true ↔ min A.y B.y ≤ o.y ∧ o.y ≤ max A.y B.y := by
  rw [ySpan_iff]
  rcases le_total A.y B.y with h | h
  · rw [min_eq_left h, max_eq_right h]; omega
  · rw [min_eq_right h, max_eq_left h]; omega

/-- The general case of the line test in exact arithmetic, against the specification. -/
theorem checkObstacle_exact_general (s : RRT) (A B : Node) (h : A.y ≠ B.y) :
    CheckObstacle s A B = true ↔ ∃ o ∈ s.obstacle_list_, BlocksLine A B o := by
  unfold CheckObstacle BlocksLine
  rw [if_neg (by omega)]
  simp only [List.any_eq_true, Bool.and_eq_true, decide_eq_true_eq, signCount_eq_lineSignSum,
    xSpan_iff_minmax, ySpan_iff_minmax]
  constructor
  · rintro ⟨o, ho, ⟨hy, hx⟩, hc⟩
    exact ⟨o, ho, hx, hy, hc⟩
  · rintro ⟨o, ho, hx, hy, hc⟩
    exact ⟨o, ho, ⟨hy, hx⟩, hc⟩

/-! ## C16 -/

theorem xSpan_comm (A B o : Node) : xSpan A B o = xSpan B A o := by
  rw [Bool.eq_iff_iff, xSpan_iff, xSpan_iff]; omega

theorem ySpan_comm (A B o : Node) : ySpan A B o = ySpan B A o := by
  rw [Bool.eq_iff_iff, ySpan_iff, ySpan_iff]; omega

theorem slopeOf_comm (A B : Node) : slopeOf A B = slopeOf B A := by
  unfold slopeOf
  rw [← neg_div_neg_eq]
  congr 1 <;> (push_cast; ring)

theorem interceptOf_comm (A B : Node) (h : B.y - A.y ≠ 0) :
    interceptOf A B = interceptOf B A := by
  have hq : ((B.y : ℚ) - A.y) ≠ 0 := by exact_mod_cast h
  have hq' : ((A.y : ℚ) - B.y) ≠ 0 := by
    intro h0; apply hq; linarith
  unfold interceptOf slopeOf
  push_cast
  field_simp
  ring

/-- C19. With exact line arithmetic, `CheckObstacle` is symmetric in its two nodes. -/
theorem checkObstacle_comm (s : RRT) (A B : Node) :
    CheckObstacle s A B = CheckObstacle s B A := by
  unfold CheckObstacle
  by_cases h : B.y - A.y = 0
  · have h' : A.y - B.y = 0 := by omega
    have hy : (B.y : ℚ) = (A.y : ℚ) := by exact_mod_cast (by omega : B.y = A.y)
    rw [if_pos h, if_pos h']
    simp only [xSpan_comm A B, hy]
  · have h' : ¬ A.y - B.y = 0 := by omega
    rw [if_neg h, if_neg h']
    simp only [xSpan_comm A B, ySpan_comm A B, slopeOf_comm A B, interceptOf_comm A B h]

/-! ## C12 -/

/-- C12, the code at the failing inputs. On the 8-by-8 grid without obstacles, from `(0, 0)`
to `(7, 7)` with threshold `9.9`, a fresh planner returns `[start, goal]`; the same call
repeated on that planner returns `[start, goal, start, goal]`, since `point_list_` still
holds the tree of the first run. After a failed run on the 5-by-5 grid with the enclosed goal,
the same planner asked for that path on the 8-by-8 grid without obstacles returns
`[no_path_node]`, since `obstacle_list_` still holds the obstacles of the other grid; asked
for the path to `(7, 0)` it returns a list that starts with `no_path_node`. -/
theorem rrt_second_run_differs :
    (rrt freshRRT exFreeGrid 8 (mkNode 0 0 0 0 0 0) (mkNode 7 7 0 0 63 0) 20 (99/10)
        fun _ => (0, 0)).map (fun out => out.path)
      = some [mkNode 0 0 0 0 0 0, exGoalEntry] ∧
    ((rrt freshRRT exFreeGrid 8 (mkNode 0 0 0 0 0 0) (mkNode 7 7 0 0 63 0) 20 (99/10)
        fun _ => (0, 0)).bind fun first =>
      rrt first.planner exFreeGrid 8 (mkNode 0 0 0 0 0 0) (mkNode 7 7 0 0 63 0) 20 (99/10)
        fun _ => (0, 0)).map (fun out => out.path)
      = some [mkNode 0 0 0 0 0 0, exGoalEntry, mkNode 0 0 0 0 0 0, exGoalEntry] ∧
    (rrt freshRRT exFreeGrid 8 (mkNode 0 0 0 0 0 0) (mkNode 7 7 0 0 63 0) 1 (99/10)
        fun _ => (0, 0)).map (fun out => out.path)
      = some [mkNode 0 0 0 0 0 0, exGoalEntry] ∧
    ((rrt freshRRT exRingGrid 5 (mkNode 0 0 0 0 0 0) (mkNode 2 2 0 0 12 0) 1 2 exWalk).bind
        fun first =>
      rrt first.planner exFreeGrid 8 (mkNode 0 0 0 0 0 0) (mkNode 7 7 0 0 63 0) 1 (99/10)
        fun _ => (0, 0)).map (fun out => out.path)
      = some [sentinelNode] ∧
    ((rrt freshRRT exRingGrid 5 (mkNode 0 0 0 0 0 0) (mkNode 2 2 0 0 12 0) 1 2 exWalk).bind
        fun first =>
      rrt first.planner exFreeGrid 8 (mkNode 0 0 0 0 0 0) (mkNode 7 0 0 0 56 0) 1 (99/10)
        fun _ => (0, 0)).map (fun out => out.path.map fun t => (t.x, t.y, t.id))
      = some [(-1, -1, -1), (0, 0, 0), (7, 0, 56)] :=
  ⟨by decide!, by decide!, by decide!, by decide!, by decide!⟩

/-! ## C15 -/

/-- C15. When the start cell is free, every cell of the grid after a run of `rrt` holds its
value from before the run, or held `0` before and holds `2` after; so no obstacle cell is
altered and no `3` is written. -/
theorem rrt_grid_frame (s : RRT) (grid : Grid) (n : Nat) (start goal : Node) (factor : Int)
    (threshold : ℚ) (samples : Nat → Int × Int) (hfree : grid start.x start.y = 0) :
    ∃ out, rrt s grid n start goal factor threshold samples = some out ∧
      (∀ i j, out.grid i j = grid i j ∨ (grid i j = 0 ∧ out.grid i j = 2)) ∧
      (∀ i j, grid i j = 1 → out.grid i j = 1) ∧
      (∀ i j, out.grid i j = 3 → grid i j = 3) := by
  have hpost : ∀ out : Outcome,
      (∀ i j, out.grid i j = grid i j ∨ (grid i j = 0 ∧ out.grid i j = 2)) →
      (∀ i j, out.grid i j = grid i j ∨ (grid i j = 0 ∧ out.grid i j = 2)) ∧
      (∀ i j, grid i j = 1 → out.grid i j = 1) ∧
      (∀ i j, out.grid i j = 3 → grid i j = 3) := by
    intro out h
    refine ⟨h, ?_, ?_⟩
    · intro i j h1; rcases h i j with h' | h' <;> omega
    · intro i j h3; rcases h i j with h' | h' <;> omega
  have hset : ∀ (g : Grid) (x y : Int),
      (∀ i j, g i j = grid i j ∨ (grid i j = 0 ∧ g i j = 2)) → g x y = 0 →
      ∀ i j, g.set x y 2 i j = grid i j ∨ (grid i j = 0 ∧ g.set x y 2 i j = 2) := by
    intro g x y hg h0 i j
    unfold Grid.set
    by_cases hij : i = x ∧ j = y
    · rw [if_pos hij]
      obtain ⟨rfl, rfl⟩ := hij
      rcases hg i j with h' | h'
      · right; exact ⟨by omega, rfl⟩
      · omega
    · rw [if_neg hij]; exact hg i j
  have hinit : ∀ i j, grid.set start.x start.y 2 i j = grid i j ∨
      (grid i j = 0 ∧ grid.set start.x start.y 2 i j = 2) :=
    hset grid start.x start.y (fun _ _ => Or.inl rfl) hfree
  have hturn : ∀ (iter : Nat) (st : RRT) (g : Grid),
      (∀ i j, g i j = grid i j ∨ (grid i j = 0 ∧ g i j = 2)) → (iter : Int) ≤ factor * n * n →
      (∀ s' g', rrtTurn n samples iter st g = Sum.inl (s', g') →
        ∀ i j, g' i j = grid i j ∨ (grid i j = 0 ∧ g' i j = 2)) ∧
      (∀ out, rrtTurn n samples iter st g = Sum.inr out →
        ∀ i j, out.grid i j = grid i j ∨ (grid i j = 0 ∧ out.grid i j = 2)) := by
    intro iter st g hg _
    obtain ⟨cx, cy, -⟩ := findNearestPoint_coords st (GenerateRandomNode n (samples iter)) n
    rcases rrtTurn_cases n samples iter st g with ⟨-, hT⟩ | ⟨-, -, hT⟩ |
      ⟨new_node, h0, -, hnew, -, hT⟩ | ⟨new_node, h0, -, hnew, -, hT⟩
    · rw [hT]
      refine ⟨?_, fun out h => by simp at h⟩
      intro s' g' h
      obtain ⟨-, rfl⟩ := Prod.mk.inj (Sum.inl.inj h)
      exact hg
    · rw [hT]
      refine ⟨?_, fun out h => by simp at h⟩
      intro s' g' h
      obtain ⟨-, rfl⟩ := Prod.mk.inj (Sum.inl.inj h)
      exact hg
    · rw [hT]
      refine ⟨?_, fun out h => by simp at h⟩
      intro s' g' h
      obtain ⟨-, rfl⟩ := Prod.mk.inj (Sum.inl.inj h)
      exact hset g _ _ hg (by rw [hnew, cx, cy]; exact h0)
    · rw [hT]
      refine ⟨fun s' g' h => by simp at h, ?_⟩
      intro out h
      rw [← Sum.inr.inj h]
      exact hset g _ _ hg (by rw [hnew, cx, cy]; exact h0)
  rw [rrt_unfold]
  split
  · exact ⟨_, rfl, hpost _ hinit⟩
  · obtain ⟨out, hout, h⟩ := rrtLoop_spec n (factor * n * n) samples
      (fun _ _ g => ∀ i j, g i j = grid i j ∨ (grid i j = 0 ∧ g i j = 2))
      (fun out => ∀ i j, out.grid i j = grid i j ∨ (grid i j = 0 ∧ out.grid i j = 2))
      hturn (fun _ _ _ hg _ => hg) ((factor * n * n + 1).toNat + 1) 0
      (CheckGoalVisible (initPlanner s grid n start goal threshold) start).2
      (grid.set start.x start.y 2) hinit (by omega)
    exact ⟨out, hout, hpost out h⟩

/-- The run on the 3-by-3 grid with a wall: the cells `(0,0)`, `(2,0)`, `(2,1)`, `(2,2)` go
from `0` to `2`, the obstacle `(0, 1)` and the goal cell `(0, 2)` keep their values. -/
theorem rrt_grid_frame_witness :
    exWallGrid (mkNode 0 0 0 0 0 0).x (mkNode 0 0 0 0 0 0).y = 0 ∧
    (rrt freshRRT exWallGrid 3 (mkNode 0 0 0 0 0 0) (mkNode 0 2 0 0 2 0) 1 2
        (fun k => ((2 : Int), (k : Int) % 3))).map
      (fun out => [out.grid 0 0, out.grid 2 0, out.grid 2 1, out.grid 2 2, out.grid 0 1,
        out.grid 0 2]) = some [2, 2, 2, 2, 1, 0] ∧
    ∃ out, rrt freshRRT exWallGrid 3 (mkNode 0 0 0 0 0 0) (mkNode 0 2 0 0 2 0) 1 2
        (fun k => ((2 : Int), (k : Int) % 3)) = some out ∧
      (∀ i j, out.grid i j = exWallGrid i j ∨ (exWallGrid i j = 0 ∧ out.grid i j = 2)) ∧
      (∀ i j, exWallGrid i j = 1 → out.grid i j = 1) ∧
      (∀ i j, out.grid i j = 3 → exWallGrid i j = 3) :=
  ⟨by decide, by decide!,
    rrt_grid_frame freshRRT exWallGrid 3 (mkNode 0 0 0 0 0 0) (mkNode 0 2 0 0 2 0) 1 2
      (fun k => ((2 : Int), (k : Int) % 3)) (by decide)⟩

/-! ## The tree grown by `rrt` -/

theorem loopState_inv (n : Nat) (max_iter : Int) (samples : Nat → Int × Int) (s0 : RRT)
    (g0 : Grid) (Inv : Nat → RRT → Grid → Prop) (h0 : Inv 0 s0 g0)
    (hturn : ∀ iter s g, Inv iter s g → (iter : Int) ≤ max_iter →
      ∀ s' g', rrtTurn n samples iter s g = Sum.inl (s', g') → Inv (iter + 1) s' g') :
    ∀ iter s g, LoopState n max_iter samples s0 g0 iter s g → Inv iter s g := by
  intro iter s g h
  induction h with
  | init => exact h0
  | turn _ hle hT ih => exact hturn _ _ _ ih hle _ _ hT

theorem checkObstacle_congr (s s' : RRT) (A A' B B' : Node)
    (hobs : s.obstacle_list_ = s'.obstacle_list_) (hax : A.x = A'.x) (hay : A.y = A'.y)
    (hbx : B.x = B'.x) (hby : B.y = B'.y) : CheckObstacle s A B = CheckObstacle s' A' B' := by
  simp only [CheckObstacle, slopeOf, interceptOf, xSpan, ySpan, hobs, hax, hay, hbx, hby]

theorem sqDist_congr (a a' b b' : Node) (hax : a.x = a'.x) (hay : a.y = a'.y)
    (hbx : b.x = b'.x) (hby : b.y = b'.y) : sqDist a b = sqDist a' b' := by
  simp only [sqDist, hax, hay, hbx, hby]

theorem sqDist_comm (a b : Node) : sqDist a b = sqDist b a := by
  unfold sqDist; ring

/-- On the grid the row-major id determines the cell. -/
theorem cell_of_id (n : Nat) (a b : Node) (ha : OnGrid n a) (hb : OnGrid n b)
    (ca : Canonical n a) (cb : Canonical n b) (h : a.id = b.id) : a.x = b.x ∧ a.y = b.y := by
  obtain ⟨a1, a2, a3, a4⟩ := ha
  obtain ⟨b1, b2, b3, b4⟩ := hb
  unfold Canonical at ca cb
  have hx : a.x = b.x := by
    rcases lt_trichotomy a.x b.x with hlt | heq | hgt
    · exfalso
      have : (a.x + 1) * (n : Int) ≤ b.x * n :=
        mul_le_mul_of_nonneg_right (by omega) (by omega)
      linarith
    · exact heq
    · exfalso
      have : (b.x + 1) * (n : Int) ≤ a.x * n :=
        mul_le_mul_of_nonneg_right (by omega) (by omega)
      linarith
  refine ⟨hx, ?_⟩
  rw [hx] at ca
  linarith

theorem linkedBack_snoc (l : List Node) (t : Node) (h : LinkedBack l)
    (ht : ∃ (j : Nat) (u : Node), l[j]? = some u ∧ t.pid = u.id) : LinkedBack (l ++ [t]) := by
  intro k t' hk hkt
  rcases lt_trichotomy k l.length with hlt | heq | hgt
  · rw [List.getElem?_append_left hlt] at hkt
    obtain ⟨j, u, hj, hju, hp⟩ := h k t' hk hkt
    exact ⟨j, u, hj, by rw [List.getElem?_append_left (lt_trans hj hlt)]; exact hju, hp⟩
  · subst heq
    rw [List.getElem?_concat_length] at hkt
    obtain ⟨j, u, hju, hp⟩ := ht
    have hjl : j < l.length := (List.getElem?_eq_some.mp hju).1
    have : t = t' := Option.some.inj hkt
    subst this
    exact ⟨j, u, hjl, by rw [List.getElem?_append_left hjl]; exact hju, hp⟩
  · have : (l ++ [t])[k]? = none := List.getElem?_eq_none (by simp; omega)
    rw [this] at hkt
    exact absurd hkt (by simp)

theorem noSelfParent_snoc (l : List Node) (t : Node) (h : NoSelfParent l)
    (ht : t.pid ≠ t.id) : NoSelfParent (l ++ [t]) := by
  intro k t' hk hkt
  rcases lt_trichotomy k l.length with hlt | heq | hgt
  · rw [List.getElem?_append_left hlt] at hkt
    exact h k t' hk hkt
  · subst heq
    rw [List.getElem?_concat_length] at hkt
    have : t = t' := Option.some.inj hkt
    subst this
    exact ht
  · have : (l ++ [t])[k]? = none := List.getElem?_eq_none (by simp; omega)
    rw [this] at hkt
    exact absurd hkt (by simp)

/-- A candidate for which no tree node passes the four filters gets the sentinel. -/
theorem findNearestPoint_none (s : RRT) (cand : Node) (n : Nat)
    (h : ∀ t ∈ s.point_list_, ¬ Qualifies s cand t) :
    FindNearestPoint s cand n = (sentinelNode, cand, s) := by
  rcases findNearestPoint_cases s cand n with ⟨f, -, -, -, ⟨i, hi, hq, -, -⟩, -⟩ | ⟨-, -, hr⟩
  · exact absurd hq (h f (List.mem_iff_getElem?.mpr ⟨i, hi⟩))
  · exact hr

/-- A candidate accepted by `FindNearestPoint`: the returned node `f` is a tree node other
than the candidate by id, and the candidate comes back with `pid = f.id`. -/
theorem findNearestPoint_accept (s : RRT) (cand : Node) (n : Nat)
    (h : (FindNearestPoint s cand n).1.id ≠ -1) :
    ∃ (i : Nat) (f : Node), s.point_list_[i]? = some f ∧ Qualifies s cand f ∧
      (FindNearestPoint s cand n).2.1.pid = f.id ∧
      (FindNearestPoint s cand n).2.1.x = cand.x ∧ (FindNearestPoint s cand n).2.1.y = cand.y ∧
      (FindNearestPoint s cand n).2.1.id = cand.id := by
  rcases findNearestPoint_cases s cand n with ⟨f, -, -, -, ⟨i, hi, hq, -, -⟩, hr⟩ | ⟨-, -, hr⟩
  · rw [hr]
    exact ⟨i, f, hi, hq, rfl, rfl, rfl, rfl⟩
  · rw [hr] at h
    exact absurd rfl h

theorem hidden_of_not_visible (s : RRT) (v : Node) (s' : RRT)
    (h : CheckGoalVisible s v = (false, s')) :
    CheckObstacle s v s.goal_ = true ∨ ¬ dist64 s.goal_ v ≤ s.threshold_ := by
  by_contra hcon
  push_neg at hcon
  have h1 : CheckObstacle s v s.goal_ = false := by simpa using hcon.1
  have h2 : dist64 s.goal_ v ≤ s.threshold_ := hcon.2
  rw [checkGoalVisible_of_visible s v h1 h2] at h
  exact absurd (congrArg Prod.fst h) (by simp)

/-- A sample on the goal cell gets the sentinel: every tree node has failed the same test
against the goal. -/
theorem goal_sample_rejected (n : Nat) (s0 : RRT) (start goal : Node) (st : RRT) (g : Grid)
    (hinv : TreeInv n s0 start goal st g) (hhid : ∀ t ∈ st.point_list_, Hidden s0 goal t)
    (cand : Node) (hx : cand.x = goal.x) (hy : cand.y = goal.y) :
    FindNearestPoint st cand n = (sentinelNode, cand, st) := by
  apply findNearestPoint_none
  intro t ht hq
  obtain ⟨q1, q2, -, -⟩ := hq
  have e1 : CheckObstacle st t cand = CheckObstacle s0 t goal :=
    checkObstacle_congr st s0 t t cand goal hinv.obs_eq rfl rfl hx hy
  have e2 : dist64 t cand = dist64 goal t := by
    rw [dist64_comm]; exact dist64_congr cand goal t t hx hy rfl rfl
  rw [e1] at q2
  rw [e2, hinv.thr_eq] at q1
  rcases hhid t ht with h | h
  · rw [h] at q2; exact absurd q2 (by simp)
  · exact h q1

theorem generateRandomNode_canonical (n : Nat) (xy : Int × Int) :
    Canonical n (GenerateRandomNode n xy) := by
  unfold Canonical GenerateRandomNode mkNode
  simp only
  ring

/-- An accepted sample extends the tree and keeps what holds of it. -/
theorem treeInv_accept (n : Nat) (s0 : RRT) (start goal : Node) (st : RRT) (g : Grid)
    (hinv : TreeInv n s0 start goal st g) (hhid : ∀ t ∈ st.point_list_, Hidden s0 goal t)
    (xy : Int × Int) (hxy : InRange n xy)
    (hfree : g (GenerateRandomNode n xy).x (GenerateRandomNode n xy).y = 0)
    (hid : (FindNearestPoint st (GenerateRandomNode n xy) n).1.id ≠ -1) (new_node : Node)
    (hnew : new_node = (FindNearestPoint st (GenerateRandomNode n xy) n).2.1) :
    TreeInv n s0 start goal { st with point_list_ := st.point_list_ ++ [new_node] }
      (g.set new_node.x new_node.y 2) := by
  obtain ⟨i, f, hi, hq, hpid, hx, hy, hidc⟩ := findNearestPoint_accept st _ n hid
  rw [← hnew] at hpid hx hy hidc
  have hcand : OnGrid n (GenerateRandomNode n xy) := hxy
  have hgrid : OnGrid n new_node := by
    unfold OnGrid at hcand ⊢; rw [hx, hy]; exact hcand
  have hcan : Canonical n new_node := by
    have := generateRandomNode_canonical n xy
    unfold Canonical at this ⊢; rw [hx, hy, hidc]; exact this
  have hfree' : g new_node.x new_node.y = 0 := by rw [hx, hy]; exact hfree
  have hnotgoal : new_node.x ≠ goal.x ∨ new_node.y ≠ goal.y := by
    by_contra hcon
    have hc : (GenerateRandomNode n xy).x = goal.x ∧ (GenerateRandomNode n xy).y = goal.y := by
      rw [← hx, ← hy]; omega
    apply hid
    rw [goal_sample_rejected n s0 start goal st g hinv hhid _ hc.1 hc.2]
    rfl
  have hfresh : ∀ t ∈ st.point_list_, t.id ≠ new_node.id := by
    intro t ht heq
    obtain ⟨tg, tc, tm, -⟩ := hinv.nodes t ht
    obtain ⟨ex, ey⟩ := cell_of_id n t new_node tg hgrid tc hcan heq
    rw [ex, ey, hfree'] at tm
    exact absurd tm (by decide)
  refine ⟨hinv.goal_eq, hinv.thr_eq, hinv.obs_eq, ?_, ?_, ?_, ?_, ?_⟩
  · obtain ⟨rest, hrest⟩ := hinv.head
    exact ⟨rest ++ [new_node], by simp [hrest]⟩
  · intro t ht
    have hmark : ∀ u : Node, g u.x u.y = 2 ∨ (u.x = new_node.x ∧ u.y = new_node.y) →
        (g.set new_node.x new_node.y 2) u.x u.y = 2 := by
      intro u hu
      unfold Grid.set
      by_cases hc : u.x = new_node.x ∧ u.y = new_node.y
      · rw [if_pos hc]
      · rw [if_neg hc]
        rcases hu with h | h
        · exact h
        · exact absurd h hc
    rcases List.mem_append.mp ht with h | h
    · obtain ⟨tg, tc, tm, tn⟩ := hinv.nodes t h
      exact ⟨tg, tc, hmark t (Or.inl tm), tn⟩
    · rw [List.mem_singleton.mp h]
      exact ⟨hgrid, hcan, hmark new_node (Or.inr ⟨rfl, rfl⟩), hnotgoal⟩
  · simp only [List.map_append, List.map_cons, List.map_nil]
    rw [List.nodup_append]
    refine ⟨hinv.nodup, List.nodup_singleton _, ?_⟩
    intro a ha hb
    rw [List.mem_singleton] at hb
    obtain ⟨t, ht, rfl⟩ := List.mem_map.mp ha
    exact hfresh t ht hb
  · exact linkedBack_snoc _ _ hinv.linked ⟨i, f, hi, hpid⟩
  · refine noSelfParent_snoc _ _ hinv.noself ?_
    rw [hpid, hidc]
    exact hq.2.2.1

/-- The goal entry appended to the tree by a successful `CheckGoalVisible(v)`, for a node
`v` of the tree. -/
theorem goalTree_of_treeInv (n : Nat) (s0 : RRT) (start goal : Node) (st : RRT) (g : Grid)
    (hinv : TreeInv n s0 start goal st g) (hgoal : OnGrid n goal) (hcan : Canonical n goal)
    (k : Nat) (v : Node) (hv : st.point_list_[k]? = some v) :
    GoalTree start goal (st.point_list_ ++ [goalFrom st v]) := by
  have gx : (goalFrom st v).x = goal.x := by simp [goalFrom, hinv.goal_eq]
  have gy : (goalFrom st v).y = goal.y := by simp [goalFrom, hinv.goal_eq]
  have gid : (goalFrom st v).id = goal.id := by simp [goalFrom, hinv.goal_eq]
  have gpid : (goalFrom st v).pid = v.id := rfl
  have hfresh : ∀ t ∈ st.point_list_, t.id ≠ (goalFrom st v).id := by
    intro t ht heq
    obtain ⟨tg, tc, -, tn⟩ := hinv.nodes t ht
    have hgc : Canonical n (goalFrom st v) := by
      unfold Canonical at hcan ⊢; rw [gx, gy, gid]; exact hcan
    have hgg : OnGrid n (goalFrom st v) := by
      unfold OnGrid at hgoal ⊢; rw [gx, gy]; exact hgoal
    obtain ⟨ex, ey⟩ := cell_of_id n t _ tg hgg tc hgc heq
    rw [gx] at ex
    rw [gy] at ey
    omega
  have hvmem : v ∈ st.point_list_ := List.mem_iff_getElem?.mpr ⟨k, hv⟩
  refine ⟨st.point_list_, goalFrom st v, rfl, hinv.head, ⟨gx, gy, gid⟩,
    fun t ht => (hinv.nodes t ht).2.2.2, ?_, ?_, ?_⟩
  · simp only [List.map_append, List.map_cons, List.map_nil]
    rw [List.nodup_append]
    refine ⟨hinv.nodup, List.nodup_singleton _, ?_⟩
    intro a ha hb
    rw [List.mem_singleton] at hb
    obtain ⟨t, ht, rfl⟩ := List.mem_map.mp ha
    exact hfresh t ht hb
  · exact linkedBack_snoc _ _ hinv.linked ⟨k, v, hv, gpid⟩
  · refine noSelfParent_snoc _ _ hinv.noself ?_
    rw [gpid]
    exact hfresh v hvmem

theorem treeInv_init (s : RRT) (grid : Grid) (n : Nat) (start goal : Node) (threshold : ℚ)
    (hs : Fresh s) (hw : WellPosed grid n start goal) :
    TreeInv n (initPlanner s grid n start goal threshold) start goal
      (initPlanner s grid n start goal threshold) (grid.set start.x start.y 2) := by
  obtain ⟨⟨hsg, -, -, -, hcan, -, -⟩, -, hne⟩ := hw
  have hp : (initPlanner s grid n start goal threshold).point_list_ = [start] := by
    simp [initPlanner, hs.1]
  refine ⟨rfl, rfl, rfl, ⟨[], hp⟩, ?_, ?_, ?_, ?_⟩
  · intro t ht
    rw [hp, List.mem_singleton] at ht
    subst ht
    exact ⟨hsg, hcan, by simp [Grid.set], hne⟩
  · rw [hp]; simp
  · intro k t hk hkt
    rw [hp] at hkt
    have : ([start] : List Node)[k]? = none := List.getElem?_eq_none (by simp; omega)
    rw [this] at hkt
    exact absurd hkt (by simp)
  · intro k t hk hkt
    rw [hp] at hkt
    have : ([start] : List Node)[k]? = none := List.getElem?_eq_none (by simp; omega)
    rw [this] at hkt
    exact absurd hkt (by simp)

/-- A turn of the loop keeps the tree invariant and the failed visibility of every tree node;
a result returned from inside the loop is a tree followed by the goal entry. -/
theorem treeInv_turn (n : Nat) (s0 : RRT) (start goal : Node) (samples : Nat → Int × Int)
    (hgoal : OnGrid n goal) (hcan : Canonical n goal) (hsamples : ∀ k, InRange n (samples k))
    (iter : Nat) (st : RRT) (g : Grid)
    (hinv : TreeInv n s0 start goal st g ∧ ∀ t ∈ st.point_list_, Hidden s0 goal t) :
    (∀ s' g', rrtTurn n samples iter st g = Sum.inl (s', g') →
      TreeInv n s0 start goal s' g' ∧ ∀ t ∈ s'.point_list_, Hidden s0 goal t) ∧
    (∀ out, rrtTurn n samples iter st g = Sum.inr out → GoalTree start goal out.path) := by
  obtain ⟨hT0, hH0⟩ := hinv
  rcases rrtTurn_cases n samples iter st g with ⟨-, hT⟩ | ⟨-, -, hT⟩ |
    ⟨new_node, h0, hid, hnew, hv, hT⟩ | ⟨new_node, h0, hid, hnew, -, hT⟩
  · rw [hT]
    refine ⟨?_, fun out h => by simp at h⟩
    intro s' g' h
    obtain ⟨rfl, rfl⟩ := Prod.mk.inj (Sum.inl.inj h)
    exact ⟨hT0, hH0⟩
  · rw [hT]
    refine ⟨?_, fun out h => by simp at h⟩
    intro s' g' h
    obtain ⟨rfl, rfl⟩ := Prod.mk.inj (Sum.inl.inj h)
    exact ⟨hT0, hH0⟩
  · rw [hT]
    refine ⟨?_, fun out h => by simp at h⟩
    intro s' g' h
    obtain ⟨rfl, rfl⟩ := Prod.mk.inj (Sum.inl.inj h)
    have hacc := treeInv_accept n s0 start goal st g hT0 hH0 (samples iter) (hsamples iter) h0
      hid new_node hnew
    refine ⟨hacc, ?_⟩
    intro t ht
    rcases List.mem_append.mp ht with h' | h'
    · exact hH0 t h'
    · rw [List.mem_singleton.mp h']
      have hh := hidden_of_not_visible _ _ _ hv
      unfold Hidden
      have e1 : CheckObstacle { st with point_list_ := st.point_list_ ++ [new_node] } new_node
          ({ st with point_list_ := st.point_list_ ++ [new_node] } : RRT).goal_ =
          CheckObstacle s0 new_node goal :=
        checkObstacle_congr _ s0 _ _ _ _ hT0.obs_eq rfl rfl (by rw [hT0.goal_eq])
          (by rw [hT0.goal_eq])
      rw [e1] at hh
      have e2 : ({ st with point_list_ := st.point_list_ ++ [new_node] } : RRT).goal_ = goal :=
        hT0.goal_eq
      have e3 : ({ st with point_list_ := st.point_list_ ++ [new_node] } : RRT).threshold_ =
          s0.threshold_ := hT0.thr_eq
      rw [e2, e3] at hh
      exact hh
  · rw [hT]
    refine ⟨fun s' g' h => by simp at h, ?_⟩
    intro out h
    rw [← Sum.inr.inj h]
    have hacc := treeInv_accept n s0 start goal st g hT0 hH0 (samples iter) (hsamples iter) h0
      hid new_node hnew
    exact goalTree_of_treeInv n s0 start goal _ _ hacc hgoal hcan st.point_list_.length
      new_node (List.getElem?_concat_length _ _)

/-- The tree of a run of `rrt` on a fresh planner with well-posed inputs: at the head of
every turn of the loop the tree invariant holds and no tree node sees the goal; the run
returns `[no_path_node]` or a tree followed by the goal entry. -/
theorem rrt_tree (s : RRT) (grid : Grid) (n : Nat) (start goal : Node) (factor : Int)
    (threshold : ℚ) (samples : Nat → Int × Int) (hs : Fresh s)
    (hw : WellPosed grid n start goal) (hsamples : ∀ k, InRange n (samples k)) :
    (∀ iter st g, RunState s grid n start goal factor threshold samples iter st g →
      TreeInv n (initPlanner s grid n start goal threshold) start goal st g ∧
      ∀ t ∈ st.point_list_, Hidden (initPlanner s grid n start goal threshold) goal t) ∧
    ∃ out, rrt s grid n start goal factor threshold samples = some out ∧
      (out.path = [sentinelNode] ∨ GoalTree start goal out.path) := by
  have hgoal : OnGrid n goal := hw.1.2.1
  have hcan : Canonical n goal := hw.2.1
  have hinit := treeInv_init s grid n start goal threshold hs hw
  have hp : (initPlanner s grid n start goal threshold).point_list_ = [start] := by
    simp [initPlanner, hs.1]
  have hhid0 : CheckGoalVisible (initPlanner s grid n start goal threshold) start =
      (false, initPlanner s grid n start goal threshold) →
      ∀ t ∈ (initPlanner s grid n start goal threshold).point_list_,
        Hidden (initPlanner s grid n start goal threshold) goal t := by
    intro hv t ht
    rw [hp, List.mem_singleton] at ht
    subst ht
    exact hidden_of_not_visible _ _ _ hv
  constructor
  · intro iter st g ⟨h1, hloop⟩
    have hv : CheckGoalVisible (initPlanner s grid n start goal threshold) start =
        (false, initPlanner s grid n start goal threshold) := by
      rcases checkGoalVisible_cases (initPlanner s grid n start goal threshold) start
        with hv | hv
      · rw [hv] at h1; exact absurd h1 (by simp)
      · exact hv
    exact loopState_inv n (factor * n * n) samples _ _
      (fun _ st g => TreeInv n (initPlanner s grid n start goal threshold) start goal st g ∧
        ∀ t ∈ st.point_list_, Hidden (initPlanner s grid n start goal threshold) goal t)
      ⟨hinit, hhid0 hv⟩
      (fun iter st g hinv _ =>
        (treeInv_turn n _ start goal samples hgoal hcan hsamples iter st g hinv).1)
      iter st g hloop
  · rw [rrt_unfold]
    rcases checkGoalVisible_cases (initPlanner s grid n start goal threshold) start
      with hv | hv
    · rw [hv]
      refine ⟨_, rfl, Or.inr ?_⟩
      exact goalTree_of_treeInv n _ start goal _ _ hinit hgoal hcan 0 start (by rw [hp]; rfl)
    · rw [hv]
      simp only [Bool.false_eq_true, if_false]
      exact rrtLoop_spec n (factor * n * n) samples
        (fun _ st g => TreeInv n (initPlanner s grid n start goal threshold) start goal st g ∧
          ∀ t ∈ st.point_list_, Hidden (initPlanner s grid n start goal threshold) goal t)
        (fun out => out.path = [sentinelNode] ∨ GoalTree start goal out.path)
        (fun iter st g hinv _ =>
          ⟨(treeInv_turn n _ start goal samples hgoal hcan hsamples iter st g hinv).1,
           fun out h => Or.inr
            ((treeInv_turn n _ start goal samples hgoal hcan hsamples iter st g hinv).2 out h)⟩)
        (fun _ _ _ _ _ => Or.inl rfl) _ 0 _ _ ⟨hinit, hhid0 hv⟩ (by omega)

theorem exColumn_inRange (k : Nat) : InRange 3 (exColumn k) := by
  unfold InRange exColumn
  simp only
  omega

theorem exGoalFirst_inRange (k : Nat) : InRange 3 (exGoalFirst k) := by
  unfold exGoalFirst
  split
  · decide
  · exact exColumn_inRange _

theorem exWall_wellPosed : WellPosed exWallGrid 3 (mkNode 0 0 0 0 0 0) (mkNode 0 2 0 0 2 0) := by
  unfold WellPosed InterfaceOk Canonical
  decide

/-! ## C18 -/

/-- C18, as the code has it. On a fresh planner, with inputs meeting the preconditions of the
entry point, the goal carrying the id of its cell and `start`, `goal` on distinct cells: at
the head of every turn of the loop and in every successful result, every node of the tree
list but the first has a `pid` equal to the `id` of a node strictly earlier in the list, and
no node but the first has `pid == id`. -/
theorem rrt_tree_links (s : RRT) (grid : Grid) (n : Nat) (start goal : Node) (factor : Int)
    (threshold : ℚ) (samples : Nat → Int × Int) (hs : Fresh s)
    (hw : WellPosed grid n start goal) (hsamples : ∀ k, InRange n (samples k)) :
    (∀ iter st g, RunState s grid n start goal factor threshold samples iter st g →
      LinkedBack st.point_list_ ∧ NoSelfParent st.point_list_) ∧
    ∃ out, rrt s grid n start goal factor threshold samples = some out ∧
      (out.path = [sentinelNode] ∨ (LinkedBack out.path ∧ NoSelfParent out.path)) := by
  obtain ⟨h1, out, hout, h2⟩ := rrt_tree s grid n start goal factor threshold samples hs hw
    hsamples
  refine ⟨fun iter st g h => ⟨(h1 iter st g h).1.linked, (h1 iter st g h).1.noself⟩,
    out, hout, ?_⟩
  rcases h2 with h | ⟨tree, g, -, -, -, -, -, hl, hn⟩
  · exact Or.inl h
  · exact Or.inr ⟨hl, hn⟩

/-- The run on the 3-by-3 grid with a wall: the result has the parent ids `0, 0, 6, 7, 8`
against the ids `0, 6, 7, 8, 2`. -/
theorem rrt_tree_links_witness :
    (Fresh freshRRT ∧ WellPosed exWallGrid 3 (mkNode 0 0 0 0 0 0) (mkNode 0 2 0 0 2 0) ∧
      ∀ k, InRange 3 (exColumn k)) ∧
    (rrt freshRRT exWallGrid 3 (mkNode 0 0 0 0 0 0) (mkNode 0 2 0 0 2 0) 1 2 exColumn).map
      (fun out => out.path.map fun t => (t.id, t.pid))
      = some [(0, 0), (6, 0), (7, 6), (8, 7), (2, 8)] ∧
    ∃ out, rrt freshRRT exWallGrid 3 (mkNode 0 0 0 0 0 0) (mkNode 0 2 0 0 2 0) 1 2 exColumn
        = some out ∧
      (out.path = [sentinelNode] ∨ (LinkedBack out.path ∧ NoSelfParent out.path)) :=
  ⟨⟨⟨rfl, rfl⟩, exWall_wellPosed, exColumn_inRange⟩, by decide!,
    (rrt_tree_links freshRRT exWallGrid 3 (mkNode 0 0 0 0 0 0) (mkNode 0 2 0 0 2 0) 1 2
      exColumn ⟨rfl, rfl⟩ exWall_wellPosed exColumn_inRange).2⟩

/-- C18 as stated fails when the goal does not carry the id of its cell: on the 8-by-8 grid
without obstacles, with `start = Node(0,0,0,0,0,0)` (so `start.pid == start.id == 0`) and
`goal = Node(7,7,0,0,0,0)`, the result is `[start, goal]` and its goal entry has
`pid == id == 0`. -/
theorem rrt_tree_links_counterexample :
    InterfaceOk exFreeGrid 8 (mkNode 0 0 0 0 0 0) (mkNode 7 7 0 0 0 0) ∧
    ∃ out, rrt freshRRT exFreeGrid 8 (mkNode 0 0 0 0 0 0) (mkNode 7 7 0 0 0 0) 20 (99/10)
        (fun _ => (0, 0)) = some out ∧
      out.path.map (fun t => (t.x, t.y, t.id, t.pid)) = [(0, 0, 0, 0), (7, 7, 0, 0)] ∧
      ¬ NoSelfParent out.path := by
  refine ⟨by unfold InterfaceOk; decide, ?_⟩
  have hp : (rrt freshRRT exFreeGrid 8 (mkNode 0 0 0 0 0 0) (mkNode 7 7 0 0 0 0) 20 (99/10)
      (fun _ => (0, 0))).map (fun out => out.path) =
      some [mkNode 0 0 0 0 0 0,
        { x := 7, y := 7, cost := 5572920213460051 / 562949953421312, h_cost := 0, id := 0, pid := 0 }] := by
    decide!
  cases hr : rrt freshRRT exFreeGrid 8 (mkNode 0 0 0 0 0 0) (mkNode 7 7 0 0 0 0) 20 (99/10)
      (fun _ => (0, 0)) with
  | none => rw [hr] at hp; exact absurd hp (by simp)
  | some out =>
    rw [hr] at hp
    have hpath := Option.some.inj hp
    simp only at hpath
    refine ⟨out, rfl, by rw [hpath]; decide, ?_⟩
    intro hno
    have := hno 1 _ (by decide) (by rw [hpath]; rfl)
    exact this rfl

/-! ## C20 -/

/-- C20. On a fresh planner with `start` and `goal` on distinct free cells carrying the ids
of their cells: at the head of every turn of the loop `FindNearestPoint` returns the sentinel
for any candidate on the goal cell, so a sample drawn on the goal cell leaves the tree as it
is; in a successful result no node before the final goal entry stands on the goal cell, and
the ids of the result are pairwise distinct. -/
theorem rrt_goal_cell (s : RRT) (grid : Grid) (n : Nat) (start goal : Node) (factor : Int)
    (threshold : ℚ) (samples : Nat → Int × Int) (hs : Fresh s)
    (hw : WellPosed grid n start goal) (hsamples : ∀ k, InRange n (samples k)) :
    (∀ iter st g, RunState s grid n start goal factor threshold samples iter st g →
      (∀ cand : Node, cand.x = goal.x → cand.y = goal.y →
        FindNearestPoint st cand n = (sentinelNode, cand, st)) ∧
      ((samples iter).1 = goal.x → (samples iter).2 = goal.y →
        rrtTurn n samples iter st g = Sum.inl (st, g))) ∧
    ∃ out, rrt s grid n start goal factor threshold samples = some out ∧
      (out.path = [sentinelNode] ∨
        ∃ (tree : List Node) (g : Node), out.path = tree ++ [g] ∧
          (g.x = goal.x ∧ g.y = goal.y ∧ g.id = goal.id) ∧
          (∀ t ∈ tree, t.x ≠ goal.x ∨ t.y ≠ goal.y) ∧
          (out.path.map fun t => t.id).Nodup) := by
  obtain ⟨h1, out, hout, h2⟩ := rrt_tree s grid n start goal factor threshold samples hs hw
    hsamples
  refine ⟨?_, out, hout, ?_⟩
  · intro iter st g hrun
    obtain ⟨hinv, hhid⟩ := h1 iter st g hrun
    have hrej := goal_sample_rejected n _ start goal st g hinv hhid
    refine ⟨hrej, ?_⟩
    intro hx hy
    have hsent := hrej (GenerateRandomNode n (samples iter)) hx hy
    rcases rrtTurn_cases n samples iter st g with ⟨-, hT⟩ | ⟨-, -, hT⟩ |
      ⟨new_node, -, hid, -, -, -⟩ | ⟨new_node, -, hid, -, -, -⟩
    · exact hT
    · exact hT
    · rw [hsent] at hid; exact absurd rfl hid
    · rw [hsent] at hid; exact absurd rfl hid
  · rcases h2 with h | ⟨tree, g, hpath, -, hg, hcell, hnd, -, -⟩
    · exact Or.inl h
    · exact Or.inr ⟨tree, g, hpath, hg, hcell, hnd⟩

/-- The run on the 3-by-3 grid with a wall, the first draw falling on the goal cell `(0, 2)`:
that turn leaves planner and grid as they are, and the result visits the cells
`(0,0), (2,0), (2,1), (2,2)` and ends with the goal entry `(0,2)`, with ids `0, 6, 7, 8, 2`. -/
theorem rrt_goal_cell_witness :
    (Fresh freshRRT ∧ WellPosed exWallGrid 3 (mkNode 0 0 0 0 0 0) (mkNode 0 2 0 0 2 0) ∧
      ∀ k, InRange 3 (exGoalFirst k)) ∧
    rrtTurn 3 exGoalFirst 0
        (initPlanner freshRRT exWallGrid 3 (mkNode 0 0 0 0 0 0) (mkNode 0 2 0 0 2 0) 2)
        (exWallGrid.set 0 0 2) =
      Sum.inl (initPlanner freshRRT exWallGrid 3 (mkNode 0 0 0 0 0 0) (mkNode 0 2 0 0 2 0) 2,
        exWallGrid.set 0 0 2) ∧
    (rrt freshRRT exWallGrid 3 (mkNode 0 0 0 0 0 0) (mkNode 0 2 0 0 2 0) 1 2 exGoalFirst).map
      (fun out => (out.path.map fun t => (t.x, t.y, t.id), out.iter))
      = some ([(0, 0, 0), (2, 0, 6), (2, 1, 7), (2, 2, 8), (0, 2, 2)], 4) ∧
    ∃ out, rrt freshRRT exWallGrid 3 (mkNode 0 0 0 0 0 0) (mkNode 0 2 0 0 2 0) 1 2 exGoalFirst
        = some out ∧
      (out.path = [sentinelNode] ∨
        ∃ (tree : List Node) (g : Node), out.path = tree ++ [g] ∧
          (g.x = (mkNode 0 2 0 0 2 0).x ∧ g.y = (mkNode 0 2 0 0 2 0).y ∧
            g.id = (mkNode 0 2 0 0 2 0).id) ∧
          (∀ t ∈ tree, t.x ≠ (mkNode 0 2 0 0 2 0).x ∨ t.y ≠ (mkNode 0 2 0 0 2 0).y) ∧
          (out.path.map fun t => t.id).Nodup) := by
  have h := rrt_goal_cell freshRRT exWallGrid 3 (mkNode 0 0 0 0 0 0) (mkNode 0 2 0 0 2 0) 1 2
    exGoalFirst ⟨rfl, rfl⟩ exWall_wellPosed exGoalFirst_inRange
  exact ⟨⟨⟨rfl, rfl⟩, exWall_wellPosed, exGoalFirst_inRange⟩,
    (h.1 0 _ _ ⟨by decide!, LoopState.init⟩).2 rfl rfl, by decide!, h.2⟩

/-! ## The walk of `PrintPath` -/

theorem parentScan_skip (l : List Node) (st : Node × Grid × List Node)
    (h : ∀ t ∈ l, st.1.pid ≠ t.id) : parentScan l st = st := by
  unfold parentScan
  induction l with
  | nil => rfl
  | cons t l ih =>
    rw [List.foldl_cons, if_neg (h t (List.mem_cons_self _ _))]
    exact ih (fun u hu => h u (List.mem_cons_of_mem _ hu))

theorem parentScan_append (l₁ l₂ : List Node) (st : Node × Grid × List Node) :
    parentScan (l₁ ++ l₂) st = parentScan l₂ (parentScan l₁ st) := by
  unfold parentScan
  rw [List.foldl_append]

/-- One scan moves from `cur` to its parent `par` when `par` is the only node carrying the id
`cur.pid` and no node after `par` carries the id `par.pid`. -/
theorem parentScan_step (pre₁ rest : List Node) (par cur : Node) (g : Grid)
    (visited : List Node) (hpid : cur.pid = par.id)
    (h1 : ∀ t ∈ pre₁, t.id ≠ par.id) (h2 : ∀ t ∈ rest, t.id ≠ par.pid) :
    parentScan (pre₁ ++ par :: rest) (cur, g, visited) =
      (par, g.set par.x par.y 3, visited ++ [par]) := by
  rw [parentScan_append, parentScan_skip pre₁ _ (fun t ht => by
    simp only; rw [hpid]; exact fun h => h1 t ht h.symm)]
  have hcons : parentScan (par :: rest) (cur, g, visited) =
      parentScan rest (par, g.set par.x par.y 3, visited ++ [par]) := by
    unfold parentScan
    rw [List.foldl_cons, if_pos hpid]
  rw [hcons]
  exact parentScan_skip rest _ (fun t ht => by simp only; exact fun h => h2 t ht h.symm)

theorem ids_ne_of_nodup (l₁ l₂ : List Node)
    (h : ((l₁ ++ l₂).map fun t => t.id).Nodup) : ∀ a ∈ l₁, ∀ b ∈ l₂, a.id ≠ b.id := by
  intro a ha b hb heq
  rw [List.map_append, List.nodup_append] at h
  exact h.2.2 (List.mem_map.mpr ⟨a, ha, rfl⟩) (List.mem_map.mpr ⟨b, hb, heq.symm⟩)

theorem getElem?_mid (pre post : List Node) (cur : Node) :
    (pre ++ cur :: post)[pre.length]? = some cur := by
  rw [List.getElem?_append_right (le_refl _)]
  simp

/-- The walk of `PrintPath` from a node `cur` of a list with pairwise distinct ids and
backward parent links: it returns within `pre.length + 1` evaluations of the guard, having
stood on nodes that precede `cur` in the list, in decreasing position, down to `start`. -/
theorem walkLoop_reaches (path : List Node) (start : Node)
    (hnd : (path.map fun t => t.id).Nodup) (hl : LinkedBack path) (hn : NoSelfParent path)
    (hhead : ∃ rest, path = start :: rest) (hroot : start.pid = start.id) :
    ∀ (m : Nat) (pre : List Node) (cur : Node) (post : List Node) (g : Grid)
      (visited : List Node), pre.length ≤ m → path = pre ++ cur :: post →
      ∃ (g' : Grid) (chain : List Node),
        walkLoop path start (m + 1) (cur, g, visited) = some (g', visited ++ chain) ∧
        chain.reverse.Sublist pre ∧ (cur :: chain).getLast? = some start ∧
        List.Chain (fun a b => a.pid = b.id) cur chain := by
  obtain ⟨rest0, hpath0⟩ := hhead
  -- the walk stops on the first node of the list
  have hstop : ∀ (m : Nat) (cur : Node) (post : List Node) (g : Grid) (visited : List Node),
      path = [] ++ cur :: post →
      ∃ (g' : Grid) (chain : List Node),
        walkLoop path start (m + 1) (cur, g, visited) = some (g', visited ++ chain) ∧
        chain.reverse.Sublist [] ∧ (cur :: chain).getLast? = some start ∧
        List.Chain (fun a b => a.pid = b.id) cur chain := by
    intro m cur post g visited hp
    have hcur : cur = start := by
      rw [hpath0] at hp
      simp only [List.nil_append, List.cons.injEq] at hp
      exact hp.1.symm
    subst hcur
    refine ⟨g, [], ?_, by simp, by simp, List.Chain.nil⟩
    rw [walkLoop]
    simp
  intro m
  induction m with
  | zero =>
    intro pre cur post g visited hlen hp
    have hpre : pre = [] := List.length_eq_zero.mp (Nat.le_zero.mp hlen)
    subst hpre
    exact hstop 0 cur post g visited hp
  | succ m ih =>
    intro pre cur post g visited hlen hp
    rcases List.eq_nil_or_concat pre with hpre | ⟨pre', last, hpre⟩
    · subst hpre
      exact hstop (m + 1) cur post g visited hp
    · have hpos : 0 < pre.length := by rw [hpre]; simp
      have hk : path[pre.length]? = some cur := by rw [hp]; exact getElem?_mid pre post cur
      -- the first node of `pre` is `start`
      have hstart_mem : start ∈ pre := by
        cases pre with
        | nil => simp at hpos
        | cons p0 ps =>
          rw [hpath0] at hp
          simp only [List.cons_append, List.cons.injEq] at hp
          rw [hp.1]; exact List.mem_cons_self _ _
      have hne_start : cur.id ≠ start.id := fun h =>
        ids_ne_of_nodup pre (cur :: post) (by rw [← hp]; exact hnd) start hstart_mem cur
          (List.mem_cons_self _ _) h.symm
      have hne_self : cur.id ≠ cur.pid := fun h => hn pre.length cur hpos hk h.symm
      obtain ⟨j, par, hj, hjpar, hpid⟩ := hl pre.length cur hpos hk
      have hpar_mem : par ∈ pre := by
        rw [hp, List.getElem?_append_left hj] at hjpar
        exact List.mem_iff_getElem?.mpr ⟨j, hjpar⟩
      obtain ⟨pre₁, pre₂, hsplit⟩ := List.append_of_mem hpar_mem
      have hp' : path = pre₁ ++ par :: (pre₂ ++ cur :: post) := by
        rw [hp, hsplit]; simp
      have h1 : ∀ t ∈ pre₁, t.id ≠ par.id := fun t ht =>
        ids_ne_of_nodup pre₁ (par :: (pre₂ ++ cur :: post)) (by rw [← hp']; exact hnd) t ht par
          (List.mem_cons_self _ _)
      -- the id `par.pid` is carried by a node of `pre₁ ++ [par]`
      have hw : ∃ w ∈ pre₁ ++ [par], par.pid = w.id := by
        rcases List.eq_nil_or_concat pre₁ with h0 | ⟨q, ql, h0⟩
        · subst h0
          have hpar : par = start := by
            rw [hpath0] at hp'
            simp only [List.nil_append, List.cons.injEq] at hp'
            exact hp'.1.symm
          exact ⟨par, by simp, by rw [hpar]; exact hroot⟩
        · have hpos₁ : 0 < pre₁.length := by rw [h0]; simp
          have hk₁ : path[pre₁.length]? = some par := by
            rw [hp']; exact getElem?_mid pre₁ _ par
          obtain ⟨j', w, hj', hjw, hpw⟩ := hl pre₁.length par hpos₁ hk₁
          rw [hp', List.getElem?_append_left hj'] at hjw
          exact ⟨w, List.mem_append_left _ (List.mem_iff_getElem?.mpr ⟨j', hjw⟩), hpw⟩
      have h2 : ∀ t ∈ pre₂ ++ cur :: post, t.id ≠ par.pid := by
        intro t ht heq
        obtain ⟨w, hwm, hwp⟩ := hw
        exact ids_ne_of_nodup (pre₁ ++ [par]) (pre₂ ++ cur :: post)
          (by
            have e : pre₁ ++ [par] ++ (pre₂ ++ cur :: post) = path := by rw [hp']; simp
            rw [e]; exact hnd)
          w hwm t ht (by rw [← hwp, heq])
      have hscan := parentScan_step pre₁ (pre₂ ++ cur :: post) par cur g visited hpid h1 h2
      rw [← hp'] at hscan
      have hlen₁ : pre₁.length ≤ m := by
        have : pre.length = pre₁.length + (pre₂.length + 1) := by rw [hsplit]; simp
        omega
      obtain ⟨g', chain', hwalk, hsub, hlast, hchain⟩ :=
        ih pre₁ par (pre₂ ++ cur :: post) (g.set par.x par.y 3) (visited ++ [par]) hlen₁ hp'
      refine ⟨g', par :: chain', ?_, ?_, ?_, List.Chain.cons hpid hchain⟩
      · rw [walkLoop]
        simp only []
        rw [if_pos hne_start, if_neg hne_self, hscan, hwalk]
        simp
      · rw [List.reverse_cons, hsplit]
        exact List.Sublist.append hsub (List.Sublist.cons₂ _ (List.nil_sublist _))
      · rw [List.getLast?_cons_cons]; exact hlast

/-- The walk of `PrintPath` over a successful result: it starts on the goal entry, the last
element, follows the `pid` links and ends on `start`, standing on no id twice. -/
theorem printPath_of_goalTree (path : List Node) (start goal : Node) (grid : Grid)
    (hgt : GoalTree start goal path) (hroot : start.pid = start.id) (hid : start.id ≠ -1) :
    ∃ (g' : Grid) (v : List Node),
      PrintPath path start goal grid path.length = some (g', v) ∧
      v.head? = path.getLast? ∧ v.getLast? = some start ∧ v.length ≤ path.length ∧
      (v.map fun t => t.id).Nodup ∧ List.Chain' (fun a b => a.pid = b.id) v := by
  obtain ⟨tree, g, hpath, ⟨rest, htree⟩, ⟨gx, gy, -⟩, hcell, hnd, hl, hn⟩ := hgt
  have hhead : path.head? = some start := by rw [hpath, htree]; rfl
  have hfind : path.find? (fun t => samePosition goal t) = some g := by
    have h1 : tree.find? (fun t => samePosition goal t) = none := by
      rw [List.find?_eq_none]
      intro t ht
      have := hcell t ht
      simp only [samePosition, decide_eq_true_eq]
      omega
    have h2 : samePosition goal g = true := by
      simp only [samePosition, decide_eq_true_eq]
      omega
    rw [hpath, List.find?_append, h1]
    simp [List.find?_cons, h2]
  obtain ⟨g', chain, hwalk, hsub, hlast, hchain⟩ :=
    walkLoop_reaches path start hnd hl hn ⟨rest ++ [g], by rw [hpath, htree]; rfl⟩ hroot
      tree.length tree g [] (grid.set g.x g.y 3) [g] (le_refl _) hpath
  have hlen : path.length = tree.length + 1 := by rw [hpath]; simp
  have hrev : (g :: chain).reverse.Sublist path := by
    rw [List.reverse_cons, hpath]
    exact List.Sublist.append hsub (List.Sublist.refl _)
  refine ⟨g'.set start.x start.y 3, g :: chain, ?_, ?_, hlast, ?_, ?_, hchain⟩
  · unfold PrintPath
    rw [hhead]
    simp only []
    rw [if_neg hid, hfind]
    simp only []
    rw [hlen, hwalk]
    rfl
  · rw [hpath]; simp
  · have := hrev.length_le
    simpa using this
  · have h1 : ((g :: chain).reverse.map fun t => t.id).Nodup :=
      (hrev.map _).nodup hnd
    rw [List.map_reverse] at h1
    exact List.nodup_reverse.mp h1

/-! ## C11 -/

/-- C11. For a successful result of `rrt` on a fresh planner, with `start` and `goal` on
distinct free cells carrying the ids of their cells and `start.pid == start.id`: the walk of
`PrintPath` along the `pid` links starts on the goal entry (the last element), returns within
`len(result)` evaluations of its guard, ends on `start`, stands on at most `len(result)`
nodes and on no node id twice. -/
theorem printPath_walk (s : RRT) (grid : Grid) (n : Nat) (start goal : Node) (factor : Int)
    (threshold : ℚ) (samples : Nat → Int × Int) (hs : Fresh s)
    (hw : WellPosed grid n start goal) (hsamples : ∀ k, InRange n (samples k))
    (out : Outcome) (hout : rrt s grid n start goal factor threshold samples = some out)
    (hsucc : out.path ≠ [sentinelNode]) :
    ∃ (g' : Grid) (v : List Node),
      PrintPath out.path start goal out.grid out.path.length = some (g', v) ∧
      v.head? = out.path.getLast? ∧ v.getLast? = some start ∧ v.length ≤ out.path.length ∧
      (v.map fun t => t.id).Nodup ∧ List.Chain' (fun a b => a.pid = b.id) v := by
  obtain ⟨-, out', hout', h⟩ := rrt_tree s grid n start goal factor threshold samples hs hw
    hsamples
  rw [hout] at hout'
  have heq : out = out' := Option.some.inj hout'
  subst heq
  rcases h with h | h
  · exact absurd h hsucc
  · obtain ⟨-, -, -, -, -, hnonneg, hroot⟩ := hw.1
    exact printPath_of_goalTree out.path start goal out.grid h hroot (by omega)

/-- The run on the 3-by-3 grid with a wall: the walk stands on the ids `2, 8, 7, 6, 0`. -/
theorem printPath_walk_witness :
    (Fresh freshRRT ∧ WellPosed exWallGrid 3 (mkNode 0 0 0 0 0 0) (mkNode 0 2 0 0 2 0) ∧
      ∀ k, InRange 3 (exColumn k)) ∧
    ((rrt freshRRT exWallGrid 3 (mkNode 0 0 0 0 0 0) (mkNode 0 2 0 0 2 0) 1 2 exColumn).bind
        fun out => PrintPath out.path (mkNode 0 0 0 0 0 0) (mkNode 0 2 0 0 2 0) out.grid
          out.path.length).map (fun r => r.2.map fun t => t.id) = some [2, 8, 7, 6, 0] ∧
    ∃ out, rrt freshRRT exWallGrid 3 (mkNode 0 0 0 0 0 0) (mkNode 0 2 0 0 2 0) 1 2 exColumn
        = some out ∧ out.path ≠ [sentinelNode] ∧
      ∃ (g' : Grid) (v : List Node),
        PrintPath out.path (mkNode 0 0 0 0 0 0) (mkNode 0 2 0 0 2 0) out.grid out.path.length
          = some (g', v) ∧
        v.head? = out.path.getLast? ∧ v.getLast? = some (mkNode 0 0 0 0 0 0) ∧
        v.length ≤ out.path.length ∧ (v.map fun t => t.id).Nodup ∧
        List.Chain' (fun a b => a.pid = b.id) v := by
  refine ⟨⟨⟨rfl, rfl⟩, exWall_wellPosed, exColumn_inRange⟩, by decide!, ?_⟩
  have hlen : (rrt freshRRT exWallGrid 3 (mkNode 0 0 0 0 0 0) (mkNode 0 2 0 0 2 0) 1 2
      exColumn).map (fun out => out.path.length) = some 5 := by decide!
  cases hr : rrt freshRRT exWallGrid 3 (mkNode 0 0 0 0 0 0) (mkNode 0 2 0 0 2 0) 1 2 exColumn with
  | none => rw [hr] at hlen; exact absurd hlen (by simp)
  | some out =>
    rw [hr] at hlen
    have h5 : out.path.length = 5 := Option.some.inj hlen
    have hsucc : out.path ≠ [sentinelNode] := by
      intro h; rw [h] at h5; exact absurd h5 (by decide)
    exact ⟨out, rfl, hsucc,
      printPath_walk freshRRT exWallGrid 3 (mkNode 0 0 0 0 0 0) (mkNode 0 2 0 0 2 0) 1 2
        exColumn ⟨rfl, rfl⟩ exWall_wellPosed exColumn_inRange out hr hsucc⟩

end RRTPlanner
